import Mathlib

/-!
Verification development for the `posers` repository.

The definitions below are a shallow embedding of the Python sources:

* `src/poser.py` — the pose stack of `Poser` / `NumberPoser` (the multi
  indices of the poser's input attribute in the host application, and the
  incoming connections at those indices), and `remove_pose`;
* `src/python/pipe/fs.py` — the `Branch` / `FS` naming-convention engine:
  the scanners for `TOKEN_PATTERN`, `NAMED_GROUP_PATTERN` and
  `OPTIONAL_GROUP_PATTERN`, `Branch.get_convention`, `Branch.merge`,
  `Branch.match`, `Branch.parse`, `Branch.get_tokens`, `Branch.valid`,
  `Branch.serialize`, and `FS.serialize` / `FS.deserialize` /
  `FS.save` / `FS.load`.

Python strings are modelled as `List Char`; Python dicts are modelled as
insertion-ordered association lists; functions that can raise are modelled
in `Except` (or return the unchanged state paired with an error, when a
claim is about state preservation).  `re` pattern matching is modelled by
an executable backtracking matcher whose alternatives are enumerated in
the priority order of Python's backtracking engine (first result = the
match Python returns); the regular expressions generated by `fs.py` are
parsed into the matcher's syntax by `parseSeq`.

The current OS is fixed to `posix` and the home directory to a constant,
matching the spec's reading of the engine as a pure function of its
inputs with the OS and home directory fixed.
-/

namespace Posers

/-! ## Basic string utilities -/

/-- Python strings are modelled as lists of characters. -/
abbrev Str := List Char

/-- The `\x7b` character (opening curly brace). -/
def lbrace : Char := Char.ofNat 123

/-- The `\x7d` character (closing curly brace). -/
def rbrace : Char := Char.ofNat 125

/-- A word character in the sense of the regex class `\w` (ASCII reading). -/
def isWordChar (c : Char) : Bool := c.isAlphanum || c = '_'

/-- A character allowed to start a group name: `[a-zA-Z_]`. -/
def isNameStart (c : Char) : Bool := c.isAlpha || c = '_'

/-- Ordered-dict lookup in an association list (first binding wins). -/
def alGet {α β : Type} [DecidableEq α] : List (α × β) → α → Option β
  | [], _ => none
  | (k, v) :: rest, key => if k = key then some v else alGet rest key

/-- Ordered-dict assignment: overwrite in place if the key exists
(keeping its position), otherwise append at the end.  This is the
behaviour of `d[k] = v` on a Python dict. -/
def alSet {α β : Type} [DecidableEq α] : List (α × β) → α → β → List (α × β)
  | [], key, v => [(key, v)]
  | (k, w) :: rest, key, v =>
    if k = key then (k, v) :: rest else (k, w) :: alSet rest key v

/-- Errors raised while removing a pose.  `typeErr` models the Python
`TypeError` of `None[-1]` when the input attribute has no multi indices. -/
inductive PErr where
  | valueErr
  | typeErr
deriving DecidableEq, Repr

/-- State of a `Poser`'s input multi attribute: the existing multi
indices, each paired with whether a pose node is connected there. -/
structure PoserSt where
  entries : List (Int × Bool)
deriving DecidableEq, Repr

/-- `Poser.remove_pose` (src/poser.py lines 239-262).  Returns the error
raised (if any) together with the state of the pose stack afterwards; the
guard `index < 1` fires before any mutation. -/
def removePose (st : PoserSt) (index : Option Int) : Option PErr × PoserSt :=
  match (match index with
         | some i => some i
         | none => (st.entries.getLast?).map (fun e => e.1)) with
  | none => (some PErr.typeErr, st)
  | some i =>
    if i < 1 then (some PErr.valueErr, st)
    else (none, ⟨st.entries.filter (fun e => e.1 ≠ i)⟩)

/-- State of a `NumberPoser`: the multi indices of the pose-value array
and of the pose-weight array on the poser's root node. -/
structure NumPoserSt where
  valueIdx : List Int
  weightIdx : List Int
deriving DecidableEq, Repr

/-- `NumberPoser.remove_pose` (src/poser.py lines 506-521).  The index is
a required argument; the guard `index < 1` fires before the two
`removeMultiInstance` calls. -/
def numRemovePose (st : NumPoserSt) (index : Int) : Option PErr × NumPoserSt :=
  if index < 1 then (some PErr.valueErr, st)
  else (none, ⟨st.valueIdx.filter (fun j => j ≠ index),
               st.weightIdx.filter (fun j => j ≠ index)⟩)

/-! ## `fs.py`: branch configurations and the FS tree

`Branch.config` is a JSON-style dict.  The keys that the naming engine
reads are modelled as fields; all remaining keys (`description`,
`priority`, ...) are carried opaquely in `rest` so that serialization can
be stated about the whole config. -/

/-- A branch config dict (src/python/pipe/fs.py lines 53-77).  The
`children` key is modelled by `childrenF`: `none` when the key is
absent, `some none` when it maps to `False`, `some (some cs)` when it
maps to a list of child configs. -/
inductive BrCfg where
  | mk (idStr typeStr : Str) (ncOpt : Option Str) (reFlag : Bool)
       (mounts : List (Str × List (Str × Str)))
       (rest : List (Str × Str))
       (childrenF : Option (Option (List BrCfg)))

/-- The `id` key of a config. -/
def BrCfg.idStr : BrCfg → Str
  | .mk i _ _ _ _ _ _ => i

/-- The `type` key of a config. -/
def BrCfg.typeStr : BrCfg → Str
  | .mk _ t _ _ _ _ _ => t

/-- The `children` key of a config. -/
def BrCfg.childrenF : BrCfg → Option (Option (List BrCfg))
  | .mk _ _ _ _ _ _ ch => ch

/-- Replace the `children` key of a config (deleting it for `none`). -/
def BrCfg.setChildren : BrCfg → Option (Option (List BrCfg)) → BrCfg
  | .mk i t nc re m r _, ch => .mk i t nc re m r ch

/-- The in-memory `Branch` tree: the stored config (after `__init__` has
possibly deleted its `children` key) and the `children` attribute, which
is `False` (`none` here) for files or a list of child branches. -/
inductive BrTree where
  | mk (cfg : BrCfg) (children : Option (List BrTree))

/-- Stored config of a branch. -/
def BrTree.cfg : BrTree → BrCfg
  | .mk c _ => c

/-- `children` attribute of a branch (`none` models `False`). -/
def BrTree.children : BrTree → Option (List BrTree)
  | .mk _ ch => ch

/-- `Branch.__init__` (src/python/pipe/fs.py lines 79-99): decide the
`children` attribute from the config's `children` key and the branch
type, build the child branches, and, on the list path, delete the
`children` key from the stored config. -/
def branchInit : BrCfg → BrTree
  | .mk i t nc re m r (some none) => .mk (.mk i t nc re m r (some none)) none
  | .mk i t nc re m r none =>
    if t = ("file".toList) then .mk (.mk i t nc re m r none) none
    else .mk (.mk i t nc re m r none) (some [])
  | .mk i t nc re m r (some (some cs)) =>
    .mk (.mk i t nc re m r none)
      (some (cs.attach.map (fun c => branchInit c.1)))
decreasing_by
  have h1 := List.sizeOf_lt_of_mem c.2
  simp only [BrCfg.mk.sizeOf_spec, Option.some.sizeOf_spec]
  omega

/-- `Branch.serialize` with `children=True` (src/python/pipe/fs.py lines
502-516): a deep copy of the stored config, with the `children` key
re-inserted when the branch has a non-empty list of children. -/
def branchSerialize (b : BrTree) : BrCfg :=
  match b with
  | .mk cfg ch =>
    match ch with
    | none => cfg
    | some [] => cfg
    | some (c :: cs) =>
      cfg.setChildren
        (some (some ((c :: cs).attach.map (fun x => branchSerialize x.1))))
decreasing_by
  have h1 := List.sizeOf_lt_of_mem x.2
  simp only [BrTree.mk.sizeOf_spec, Option.some.sizeOf_spec]
  omega

/-- An `FS` instance (src/python/pipe/fs.py lines 610-627). -/
structure FSm where
  filepath : Str
  children : List BrTree

/-- `FS.deserialize` (lines 648-660). -/
def fsDeserialize (config : List BrCfg) : FSm :=
  ⟨[], config.map branchInit⟩

/-- `FS.serialize` (lines 710-716). -/
def fsSerialize (fs : FSm) : List BrCfg :=
  fs.children.map branchSerialize

/-- The disk, as seen through `json.dump` / `json.load`: a map from file
paths to the JSON value stored there.  The JSON values written by `FS`
are serialized config lists, so the cells hold those directly (the
`json` round-trip for JSON-compatible values is the identity). -/
abbrev Disk := List (Str × List BrCfg)

/-- Errors of the `FS` persistence layer. -/
inductive FsErr where
  | ioErr
  | fileNotFound
deriving DecidableEq, Repr

/-- `FS.save` (lines 694-708): `filepath = filepath or self.filepath`;
raise `IOError` when the result is empty (before touching the disk),
otherwise write the serialization at that path.  Returns the error (if
any), the FS, and the disk afterwards. -/
def fsSave (fs : FSm) (filepath : Option Str) (d : Disk) :
    Option FsErr × FSm × Disk :=
  let eff := match filepath with
    | none => fs.filepath
    | some s => if s = [] then fs.filepath else s
  if eff = [] then (some FsErr.ioErr, fs, d)
  else (none, fs, alSet d eff (fsSerialize fs))

/-- `FS.load` with an explicit filepath (lines 662-678): read the stored
config list back, deserialize it, and record the filepath on the new
instance.  A missing file raises. -/
def fsLoadAt (filepath : Str) (d : Disk) : Except FsErr FSm :=
  match alGet d filepath with
  | none => .error FsErr.fileNotFound
  | some config => .ok { fsDeserialize config with filepath := filepath }

/-! ## `fs.py`: the pattern scanners

`NAMED_GROUP_PATTERN`, `OPTIONAL_GROUP_PATTERN` and `TOKEN_PATTERN`
(src/python/pipe/fs.py lines 20-27) drive every string transformation of
the naming engine.  Their lazy quantifiers make each match deterministic:
a group name is the word characters up to the first `>` (resp. `)`), a
rule or token is the shortest non-empty newline-free stretch up to the
first closing delimiter, and an optional group's content is the shortest
newline-free stretch containing a full named-group match and followed by
`)?`.  The scanners below implement exactly those matches. -/

/-- Drop an expected literal prefix, returning the remainder. -/
def dropPre : Str → Str → Option Str
  | [], s => some s
  | p :: ps, c :: cs => if c = p then dropPre ps cs else none
  | _ :: _, [] => none

/-- Scan word characters until the stop character (the continuation of
`[a-zA-Z_]\w*?` after its first character). -/
def nameGo (stop : Char) : Str → Str → Option (Str × Str)
  | [], _ => none
  | c :: cs, acc =>
    if c = stop then some (acc.reverse, cs)
    else if isWordChar c then nameGo stop cs (c :: acc)
    else none

/-- Scan a group name `[a-zA-Z_]\w*?` terminated by `stop`. -/
def nameScan (stop : Char) : Str → Option (Str × Str)
  | [] => none
  | c :: cs => if isNameStart c then nameGo stop cs [c] else none

/-- Continuation of the lazy rule scan: anything newline-free up to the
first `)`. -/
def ruleGo : Str → Str → Option (Str × Str)
  | [], _ => none
  | c :: cs, acc =>
    if c = ')' then some (acc.reverse, cs)
    else if c = '\n' then none
    else ruleGo cs (c :: acc)

/-- Scan a rule `.+?` terminated by `)`: a shortest non-empty
newline-free stretch whose next character is `)`. -/
def ruleScan : Str → Option (Str × Str)
  | [] => none
  | c :: cs => if c = '\n' then none else ruleGo cs [c]

/-- Continuation of the lazy token scan: anything newline-free up to the
first closing brace. -/
def tokenGo : Str → Str → Option (Str × Str)
  | [], _ => none
  | c :: cs, acc =>
    if c = rbrace then some (acc.reverse, cs)
    else if c = '\n' then none
    else tokenGo cs (c :: acc)

/-- Match `TOKEN_PATTERN` at the head of the string: an opening brace,
then the shortest non-empty newline-free token up to the first closing
brace. -/
def tokenAt : Str → Option (Str × Str)
  | [] => none
  | c :: cs =>
    if c = lbrace then
      match cs with
      | [] => none
      | c0 :: cs' => if c0 = '\n' then none else tokenGo cs' [c0]
    else none

/-- One match of `NAMED_GROUP_PATTERN`: a named group with its rule, or a
backreference. -/
inductive NGItem where
  | group (name rule : Str)
  | backref (name : Str)
deriving DecidableEq, Repr

/-- The token name of a match (`d['name'] or d['name_ref']`). -/
def NGItem.name : NGItem → Str
  | .group n _ => n
  | .backref n => n

/-- The rule of a match (`d['rule']`, `None` for backreferences). -/
def NGItem.ruleOpt : NGItem → Option Str
  | .group _ r => some r
  | .backref _ => none

/-- Match `NAMED_GROUP_PATTERN` at the head of the string.  The
named-group alternative is tried first, exactly as in the pattern. -/
def ngpAt (s : Str) : Option (NGItem × Str) :=
  match dropPre ("(?P<".toList) s with
  | some r1 =>
    match nameScan '>' r1 with
    | some (nm, r2) =>
      match ruleScan r2 with
      | some (rl, r3) => some (.group nm rl, r3)
      | none => none
    | none => none
  | none =>
    match dropPre ("(?P=".toList) s with
    | some r1 =>
      match nameScan ')' r1 with
      | some (nm, r2) => some (.backref nm, r2)
      | none => none
    | none => none

/-- First `NAMED_GROUP_PATTERN` match in a string, reachable over
newline-free text: returns its offset, the item, and the remainder after
the match. -/
def findNgp : Str → Option (Nat × NGItem × Str)
  | [] => none
  | c :: cs =>
    match ngpAt (c :: cs) with
    | some (it, rest) => some (0, it, rest)
    | none =>
      if c = '\n' then none
      else (findNgp cs).map (fun x => (x.1 + 1, x.2.1, x.2.2))

/-- Offset of the first `)?` reachable over newline-free text. -/
def findCloseQ : Str → Option Nat
  | [] => none
  | c :: cs =>
    if c = ')' ∧ cs.head? = some '?' then some 0
    else if c = '\n' then none
    else (findCloseQ cs).map (· + 1)

/-- Match `OPTIONAL_GROUP_PATTERN` at the head of the string: `(?:`,
then the shortest content containing a named-group match and followed by
`)?`.  Returns the content, the first named-group item inside it (the
one the pattern's groups capture), and the remainder after `)?`. -/
def optAt (s : Str) : Option ((Str × NGItem) × Str) :=
  match dropPre ("(?:".toList) s with
  | none => none
  | some r1 =>
    match findNgp r1 with
    | none => none
    | some (off, it, afterNgp) =>
      match findCloseQ afterNgp with
      | none => none
      | some e =>
        let ngpLen := r1.length - off - afterNgp.length
        some ((r1.take (off + ngpLen + e), it), afterNgp.drop (e + 2))

/-! ## `fs.py`: the substitution passes

Each `re.sub` of the engine is a single left-to-right pass: a match is
replaced and scanning resumes after the original match (replacements are
not rescanned).  The passes recurse on a fuel argument initialised to the
string length, which suffices because every step consumes at least one
character. -/

/-- `replace` of a single character by a string, everywhere. -/
def replaceAll (t : Char) (r : Str) : Str → Str
  | [] => []
  | c :: cs => (if c = t then r else [c]) ++ replaceAll t r cs

/-- `nc.replace('\\', '\\\\').replace('.', '\\.')` — the escaping applied
to tokenized conventions before token substitution
(src/python/pipe/fs.py line 337). -/
def escapeNC (s : Str) : Str :=
  replaceAll '.' ['\\', '.'] (replaceAll '\\' ['\\', '\\'] s)

/-- The single left-to-right pass of `re.sub` (and of `re.finditer`):
try the pattern at each position; on a match, emit the callback's
replacement (threading its state, and propagating the exception it may
raise) and resume after the match — replacements are not rescanned.
Fuel initialised to the string length suffices, since a match consumes
at least one character. -/
def reSub {b st e : Type} (pat : Str → Option (b × Str))
    (repl : b → st → Except e (Str × st)) :
    Nat → Str → st → Except e (Str × st)
  | 0, _, acc => .ok ([], acc)
  | _ + 1, [], acc => .ok ([], acc)
  | f + 1, c :: cs, acc =>
    match pat (c :: cs) with
    | some (m, rest) => do
      let (rep, acc') ← repl m acc
      let (out, acc'') ← reSub pat repl f rest acc'
      .ok (rep ++ out, acc'')
    | none => do
      let (out, acc') ← reSub pat repl f cs acc
      .ok (c :: out, acc')

/-- Run a substitution pass with adequate fuel. -/
def reSubRun {b st e : Type} (pat : Str → Option (b × Str))
    (repl : b → st → Except e (Str × st)) (s : Str) (acc : st) :
    Except e (Str × st) :=
  reSub pat repl s.length s acc

/-- The replacement of `replace_tokens` (line 317-318): a lazily
matching named group. -/
def tokGroup (tok : Str) : Str :=
  ("(?P<".toList) ++ tok ++ (">.+?)".toList)

/-- `TOKEN_PATTERN.sub(replace_tokens, nc)` (lines 335-337). -/
def subTokens (s : Str) : Str :=
  match reSubRun tokenAt
      (fun tok (_ : Unit) => (.ok (tokGroup tok, ()) : Except Unit _)) s () with
  | .ok x => x.1
  | .error _ => []

/-- `os.path.join` of two path components on posix. -/
def joinTwo (a b : Str) : Str :=
  if b.head? = some '/' then b
  else if a = [] ∨ a.getLast? = some '/' then a ++ b
  else a ++ '/' :: b

/-- `os.path.join(*result)` on posix (line 339). -/
def posixJoin : List Str → Str
  | [] => []
  | x :: xs => xs.foldl joinTwo x

/-- The `cleanup` callback of `get_convention` (lines 296-308) on one
`NAMED_GROUP_PATTERN` match, threading the `tokens` dict: the first
occurrence of a token becomes a named group (with rule `.+?` when none
was stored), a recurrence with no rule or an unchanged rule becomes a
backreference, and a recurrence whose rule differs from the stored one
raises `re.error`. -/
def cleanupOne (tokens : List (Str × Option Str)) (it : NGItem) :
    Except Unit (Str × List (Str × Option Str)) :=
  match alGet tokens it.name with
  | some stored =>
    match it.ruleOpt with
    | some r =>
      if some r ≠ stored then .error ()
      else .ok (("(?P=".toList) ++ it.name ++ [')'], tokens)
    | none => .ok (("(?P=".toList) ++ it.name ++ [')'], tokens)
  | none =>
    .ok (("(?P<".toList) ++ it.name ++
           ('>' :: (it.ruleOpt.getD (".+?".toList))) ++ [')'],
         alSet tokens it.name it.ruleOpt)

/-- `NAMED_GROUP_PATTERN.sub(cleanup, nc)` (line 339). -/
def cleanupAll (s : Str) : Except Unit Str :=
  (reSubRun ngpAt (fun it tokens => cleanupOne tokens it) s []).map
    (fun x => x.1)

/-- `NAMED_GROUP_PATTERN.finditer(s)` as a list of items. -/
def itemsOfStr (s : Str) : List NGItem :=
  match reSubRun ngpAt
      (fun it acc => (.ok ([], acc ++ [it]) : Except Unit _)) s [] with
  | .ok x => x.2
  | .error _ => []

/-- `OPTIONAL_GROUP_PATTERN.sub(pretty_optional_tokens, s)`: replace
each optional group by its bare content (lines 310-311, 341). -/
def optSubPretty (s : Str) : Str :=
  match reSubRun optAt
      (fun m (_ : Unit) => (.ok (m.1, ()) : Except Unit _)) s () with
  | .ok x => x.1
  | .error _ => []

/-- `NAMED_GROUP_PATTERN.sub(pretty_tokens, s)`: each group or
backreference becomes `{name}` (lines 313-315, 342). -/
def ngpSubPretty (s : Str) : Str :=
  match reSubRun ngpAt
      (fun it (_ : Unit) =>
        (.ok (lbrace :: it.name ++ [rbrace], ()) : Except Unit _)) s () with
  | .ok x => x.1
  | .error _ => []

/-- `.replace('\\', '')`: strip every backslash (lines 342, 481). -/
def stripBack (s : Str) : Str := s.filter (fun c => c ≠ '\\')

/-! ## `Branch.get_convention` -/

/-- Errors of `get_convention`: `reErr` is the `re.error` raised by
`cleanup`; `keyErr` a missing mount or platform key; `stopErr` the
`StopIteration` of `next(iter(...))` on an empty mounts dict; `typeErr`
the unhashable-dict lookup when a second root rebinds `mount`. -/
inductive CErr where
  | reErr
  | keyErr
  | stopErr
  | typeErr
deriving DecidableEq, Repr

/-- The `nc` key of a config. -/
def BrCfg.ncOpt : BrCfg → Option Str
  | .mk _ _ nc _ _ _ _ => nc

/-- Truthiness of the `re` key of a config. -/
def BrCfg.reFlag : BrCfg → Bool
  | .mk _ _ _ re _ _ _ => re

/-- The `mounts` key of a config (an ordered dict of ordered dicts). -/
def BrCfg.mountsOf : BrCfg → List (Str × List (Str × Str))
  | .mk _ _ _ _ m _ _ => m

/-- Per-branch step of the `get_convention` loop (lines 324-338): pick
the branch's naming convention (resolving the mount and platform for
roots, with the local `mount` variable rebound to the mount dict), and
tokenize it unless the branch carries the `re` flag.  The current OS is
fixed to posix, so the default platform key is `linux`. -/
def ncStep (p : BrCfg) (platform : Option Str) (mState : Option (Option Str)) :
    Except CErr (Str × Option (Option Str)) := do
  let (nc, mState') ←
    (if p.typeStr = ("root".toList) then
      match mState with
      | none => .error CErr.typeErr
      | some a => do
        let mnt ← (match a with
          | none =>
            match p.mountsOf.head? with
            | some kv => .ok kv.2
            | none => .error CErr.stopErr
          | some m =>
            match alGet p.mountsOf m with
            | some d => .ok d
            | none => .error CErr.keyErr)
        let nc ← (match platform with
          | none =>
            match alGet mnt ("linux".toList) with
            | some v => .ok v
            | none => .error CErr.keyErr
          | some pf =>
            match alGet mnt pf with
            | some v => .ok v
            | none => .error CErr.keyErr)
        .ok (nc, (none : Option (Option Str)))
    else .ok (p.ncOpt.getD p.idStr, mState))
  if p.reFlag then .ok (nc, mState')
  else .ok (subTokens (escapeNC nc), mState')

/-- The loop of `get_convention` over the processed hierarchy. -/
def ncLoop (platform : Option Str) :
    List BrCfg → Option (Option Str) → Except CErr (List Str)
  | [], _ => .ok []
  | p :: ps, mState => do
    let (nc, mState') ← ncStep p platform mState
    let rest ← ncLoop platform ps mState'
    .ok (nc :: rest)

/-- `Branch.get_convention` (src/python/pipe/fs.py lines 274-343).  The
hierarchy is given as the list of strict ancestors (root first) plus the
branch itself; `parents=False` processes only the branch.  The joined
convention goes through the `cleanup` substitution, and through the
pretty passes when requested. -/
def getConvention (anc : List BrCfg) (self : BrCfg) (parents : Bool)
    (mount : Option Str) (platform : Option Str) (pretty : Bool) :
    Except CErr Str := do
  let hier := if parents then anc ++ [self] else [self]
  let parts ← ncLoop platform hier (some mount)
  let joined := posixJoin parts
  match cleanupAll joined with
  | .error _ => .error CErr.reErr
  | .ok nc =>
    if pretty then
      .ok (stripBack (ngpSubPretty (optSubPretty nc)))
    else .ok nc

/-! ## `Branch.merge` -/

/-- Errors of `merge` / `match` / `parse`: a propagated `get_convention`
error, the `ValueError` for a missing token, the `TypeError` of
substituting a `None` value, or an `re.error` from compiling an
unsupported pattern. -/
inductive MErr where
  | convErr (e : CErr)
  | valueErr (token : Str)
  | typeErr
  | compileErr
deriving DecidableEq, Repr

/-- A merge context: Python dict from token name to value, where a value
can be `None` (as in the dicts produced by `parse`). -/
abbrev Ctx := List (Str × Option Str)

/-- The home directory returned by `os.path.expanduser('~')`, fixed. -/
def homeDir : Str := "/home/user".toList

/-- The `tokens` callback of `merge` (lines 456-464) as a substitution
pass: each named group or backreference is replaced by the context value
of its token; a missing token raises `ValueError`, a `None` value makes
`re.sub` raise `TypeError`.  Replacements are not rescanned. -/
def ngpSubVals (s : Str) (ctx : Ctx) : Except MErr Str :=
  (reSubRun ngpAt
    (fun it (_ : Unit) =>
      match alGet ctx it.name with
      | some (some v) => .ok (v, ())
      | some none => .error MErr.typeErr
      | none => .error (MErr.valueErr it.name)) s ()).map (fun x => x.1)

/-- The `optional_tokens` callback of `merge` (lines 466-473) on one
optional group's content: the empty string when any token of the content
is missing from the context or has a falsy value, otherwise the content
with its tokens substituted. -/
def optCallback (ctx : Ctx) (content : Str) : Except MErr Str :=
  if (itemsOfStr content).any (fun it =>
      match alGet ctx it.name with
      | none => true
      | some none => true
      | some (some v) => v = []) then .ok []
  else ngpSubVals content ctx

/-- `OPTIONAL_GROUP_PATTERN.sub(optional_tokens, s)` (line 480). -/
def optSubMerge (s : Str) (ctx : Ctx) : Except MErr Str :=
  (reSubRun optAt
    (fun m (_ : Unit) => (optCallback ctx m.1).map (fun r => (r, ())))
    s ()).map (fun x => x.1)

/-- `Branch.merge` (src/python/pipe/fs.py lines 443-482): take the
convention, expand a leading `~`, substitute the optional groups of
`^(nc)$`, strip backslashes, cut the anchors `[2:-2]`, and substitute
the remaining tokens. -/
def mergeB (anc : List BrCfg) (self : BrCfg) (parents : Bool)
    (mount : Option Str) (platform : Option Str) (ctx : Ctx) :
    Except MErr Str := do
  let nc ← match getConvention anc self parents mount platform false with
    | .error e => .error (MErr.convErr e)
    | .ok nc => pure nc
  let nc := if nc.head? = some '~' then homeDir ++ nc.tail else nc
  let s1 := ('^' :: '(' :: nc) ++ [')', '$']
  let s2 ← optSubMerge s1 ctx
  let s3 := stripBack s2
  let s4 := (s3.drop 2).dropLast.dropLast
  ngpSubVals s4 ctx

/-! ## A model of Python `re` matching

`Branch.match` hands the generated convention to `re.match`.  The model
parses the pattern into a small syntax covering the constructs the
engine generates (literals, `.`, lazy `.+?`, named groups,
backreferences, `(?:...)` groups, `(...)` groups, an optional `?` on
non-capturing groups, and the anchors), and runs a backtracking matcher
that enumerates candidate matches in the priority order of Python's
engine, so the first enumerated result is the match Python returns.
Patterns outside the fragment (greedy quantifiers, character classes,
alternation, quantified capturing groups) are rejected by the parser. -/

/-- Pattern syntax. -/
inductive RElem where
  | lit (c : Char)
  | dotAny
  | anyPlusLazy
  | grp (name : Str) (sub : List RElem)
  | ncap (sub : List RElem)
  | opt (sub : List RElem)
  | refp (name : Str)
  | bos
  | eos

/-- Is a character one of the quantifiers the parser refuses to attach
to an element it cannot model? -/
def qChar (c : Char) : Bool := c = '+' || c = '*' || c = '?'

/-- Does the string start with a quantifier character? -/
def qHead : Str → Bool
  | [] => false
  | c :: _ => qChar c

mutual

/-- Parse a pattern element at the head of the string, returning the
remainder.  Fuel decreases at every call; `2 * length + 1` is enough. -/
def parseElem : Nat → Str → Option (RElem × Str)
  | 0, _ => none
  | _ + 1, [] => none
  | f + 1, c :: cs =>
    if c = '^' then if qHead cs then none else some (.bos, cs)
    else if c = '$' then if qHead cs then none else some (.eos, cs)
    else if c = '\\' then
      match cs with
      | [] => none
      | c2 :: cs' =>
        if isWordChar c2 then none
        else if qHead cs' then none
        else some (.lit c2, cs')
    else if c = '.' then
      match cs with
      | '+' :: '?' :: cs' => if qHead cs' then none else some (.anyPlusLazy, cs')
      | c2 :: _ => if qChar c2 then none else some (.dotAny, cs)
      | [] => some (.dotAny, cs)
    else if c = '(' then
      match dropPre ("?P<".toList) cs with
      | some r1 =>
        match nameScan '>' r1 with
        | none => none
        | some (nm, r2) =>
          match parseSeq f r2 with
          | some (sub, ')' :: rem) =>
            if qHead rem then none else some (.grp nm sub, rem)
          | _ => none
      | none =>
        match dropPre ("?P=".toList) cs with
        | some r1 =>
          match nameScan ')' r1 with
          | some (nm, r2) =>
            if qHead r2 then none else some (.refp nm, r2)
          | none => none
        | none =>
          match dropPre ("?:".toList) cs with
          | some r1 =>
            match parseSeq f r1 with
            | some (sub, ')' :: rem) =>
              match rem with
              | '?' :: rem' => if qHead rem' then none else some (.opt sub, rem')
              | _ => if qHead rem then none else some (.ncap sub, rem)
            | _ => none
          | none =>
            match parseSeq f cs with
            | some (sub, ')' :: rem) =>
              if qHead rem then none else some (.ncap sub, rem)
            | _ => none
    else if qChar c ∨ c = '[' ∨ c = ']' ∨ c = '|' ∨ c = lbrace ∨ c = rbrace then
      none
    else if qHead cs then none
    else some (.lit c, cs)

/-- Parse a sequence of elements up to an unmatched `)` or the end. -/
def parseSeq : Nat → Str → Option (List RElem × Str)
  | 0, _ => none
  | _ + 1, [] => some ([], [])
  | f + 1, c :: cs =>
    if c = ')' then some ([], c :: cs)
    else
      match parseElem f (c :: cs) with
      | none => none
      | some (e, rest) =>
        match parseSeq f rest with
        | none => none
        | some (es, rem) => some (e :: es, rem)

end

/-- Parse a whole pattern (no stray `)`). -/
def parseTop (s : Str) : Option (List RElem) :=
  match parseSeq (2 * s.length + 1) s with
  | some (ps, []) => some ps
  | _ => none

/-- Captures accumulated during a match: group name to matched text. -/
abbrev Caps := List (Str × Str)

/-- Candidate end positions of `.+?` from `pos`, shortest first: `.`
cannot cross a newline. -/
def plusEnds (s : Str) (pos : Nat) : List Nat :=
  (List.range ((s.drop pos).takeWhile (fun c => c ≠ '\n')).length).map
    (fun k => pos + k + 1)

mutual

/-- All candidate results of matching one element at `pos`, in the
priority order of Python's backtracking engine. -/
def elemRes (s : Str) : RElem → Nat → Caps → List (Nat × Caps)
  | .lit c, pos, cs => if s.get? pos = some c then [(pos + 1, cs)] else []
  | .dotAny, pos, cs =>
    match s.get? pos with
    | some c => if c ≠ '\n' then [(pos + 1, cs)] else []
    | none => []
  | .anyPlusLazy, pos, cs => (plusEnds s pos).map (fun p => (p, cs))
  | .grp n sub, pos, cs =>
    (seqRes s sub pos cs).map
      (fun r => (r.1, alSet r.2 n ((s.drop pos).take (r.1 - pos))))
  | .ncap sub, pos, cs => seqRes s sub pos cs
  | .opt sub, pos, cs => seqRes s sub pos cs ++ [(pos, cs)]
  | .refp n, pos, cs =>
    match alGet cs n with
    | none => []
    | some t =>
      if (s.drop pos).take t.length = t then [(pos + t.length, cs)] else []
  | .bos, pos, cs => if pos = 0 then [(pos, cs)] else []
  | .eos, pos, cs =>
    if pos = s.length ∨ (pos + 1 = s.length ∧ s.get? pos = some '\n') then
      [(pos, cs)]
    else []

/-- All candidate results of matching a sequence from `pos`, in priority
order: the first element's candidates, each continued by the rest. -/
def seqRes (s : Str) : List RElem → Nat → Caps → List (Nat × Caps)
  | [], pos, cs => [(pos, cs)]
  | e :: rest, pos, cs =>
    (elemRes s e pos cs).flatMap (fun r => seqRes s rest r.1 r.2)

end

mutual

/-- Group names defined by an element, in order of appearance. -/
def grpNamesE : RElem → List Str
  | .grp n sub => n :: grpNamesL sub
  | .ncap sub => grpNamesL sub
  | .opt sub => grpNamesL sub
  | _ => []

/-- Group names defined by a pattern, in order of appearance. -/
def grpNamesL : List RElem → List Str
  | [] => []
  | e :: rest => grpNamesE e ++ grpNamesL rest

end

/-- Keep the first occurrence of each element. -/
def dedupKeep : List Str → List Str
  | [] => []
  | x :: xs => x :: (dedupKeep xs).filter (fun y => y ≠ x)

/-- `match.groupdict()`: every named group of the pattern, mapped to its
capture or `None`. -/
def groupdictOf (ps : List RElem) (cs : Caps) : List (Str × Option Str) :=
  (dedupKeep (grpNamesL ps)).map (fun n => (n, alGet cs n))

/-- `re.match(pattern, s)` for the supported fragment: `none` for an
unsupported pattern, otherwise the first result of the backtracking
enumeration. -/
def reMatchStr (pat : Str) (s : Str) : Except Unit (Option (Nat × Caps)) :=
  match parseTop pat with
  | none => .error ()
  | some ps => .ok (seqRes s ps 0 []).head?

/-- `Branch.match` (src/python/pipe/fs.py lines 427-441): anchor the
convention as `^(nc)$` (after expanding a leading `~`) and run
`re.match` against the name. -/
def matchB (anc : List BrCfg) (self : BrCfg) (parents : Bool)
    (mount : Option Str) (platform : Option Str) (name : Str) :
    Except MErr (Option (Nat × Caps)) := do
  let nc ← match getConvention anc self parents mount platform false with
    | .error e => .error (MErr.convErr e)
    | .ok nc => pure nc
  let nc := if nc.head? = some '~' then homeDir ++ nc.tail else nc
  match reMatchStr (('^' :: '(' :: nc) ++ [')', '$']) name with
  | .error _ => .error MErr.compileErr
  | .ok m => .ok m

/-- `Branch.parse` (lines 484-500): the named-group dict of the match
when it succeeds, `None` otherwise. -/
def parseB (anc : List BrCfg) (self : BrCfg) (parents : Bool)
    (mount : Option Str) (platform : Option Str) (name : Str) :
    Except MErr (Option (List (Str × Option Str))) := do
  let nc ← match getConvention anc self parents mount platform false with
    | .error e => .error (MErr.convErr e)
    | .ok nc => pure nc
  let nc := if nc.head? = some '~' then homeDir ++ nc.tail else nc
  match parseTop (('^' :: '(' :: nc) ++ [')', '$']) with
  | none => .error MErr.compileErr
  | some ps =>
    match (seqRes name ps 0 []).head? with
    | some r => .ok (some (groupdictOf ps r.2))
    | none => .ok none

/-! ## `Branch.get_tokens` and `Branch.valid` -/

/-- A branch as held by a caller: the configs of its strict ancestors
(root first) and its own config. -/
abbrev BranchSt := List BrCfg × BrCfg

/-- State-threaded `get_convention`. -/
def getConventionSt (st : BranchSt) (parents : Bool) (mount : Option Str)
    (platform : Option Str) (pretty : Bool) : Except CErr Str × BranchSt :=
  (getConvention st.1 st.2 parents mount platform pretty, st)

/-- State-threaded `merge`. -/
def mergeSt (st : BranchSt) (parents : Bool) (mount : Option Str)
    (platform : Option Str) (ctx : Ctx) : Except MErr Str × BranchSt :=
  (mergeB st.1 st.2 parents mount platform ctx, st)

/-- State-threaded `match`. -/
def matchSt (st : BranchSt) (parents : Bool) (mount : Option Str)
    (platform : Option Str) (name : Str) :
    Except MErr (Option (Nat × Caps)) × BranchSt :=
  (matchB st.1 st.2 parents mount platform name, st)

/-- State-threaded `parse`. -/
def parseSt (st : BranchSt) (parents : Bool) (mount : Option Str)
    (platform : Option Str) (name : Str) :
    Except MErr (Option (List (Str × Option Str))) × BranchSt :=
  (parseB st.1 st.2 parents mount platform name, st)

/-- Decidable equality on `Except` results. -/
instance {e a : Type} [DecidableEq e] [DecidableEq a] :
    DecidableEq (Except e a) := fun x y =>
  match x, y with
  | .ok u, .ok v =>
    if h : u = v then isTrue (by rw [h])
    else isFalse (fun hh => h (Except.ok.inj hh))
  | .error u, .error v =>
    if h : u = v then isTrue (by rw [h])
    else isFalse (fun hh => h (Except.error.inj hh))
  | .ok _, .error _ => isFalse (fun hh => Except.noConfusion hh)
  | .error _, .ok _ => isFalse (fun hh => Except.noConfusion hh)

/-! ## Concrete branches used by counterexamples and witnesses -/

/-- A tokenized branch whose convention separates two tokens by `_`. -/
def cfgAB : BrCfg :=
  .mk ("ab".toList) ("folder".toList) (some ("{a}_{b}".toList)) false [] [] none

/-- The context whose values collide with the `_` separator. -/
def ctxAB : Ctx :=
  [(("a".toList), some ("x_y".toList)), (("b".toList), some ("z".toList))]

/-- A tokenized branch whose convention holds a backreference before the
token it refers to. -/
def cfgBad : BrCfg :=
  .mk ("bad".toList) ("folder".toList) (some ("(?P=x){x}".toList)) false [] [] none

/-- A branch whose convention is the literal `a` (its id). -/
def cfgLit : BrCfg :=
  .mk ("a".toList) ("folder".toList) none false [] [] none

/-- A tokenized branch with one mandatory and one optional token. -/
def cfgOpt : BrCfg :=
  .mk ("o".toList) ("folder".toList) (some ("{a}(?:_{b})?".toList)) false [] [] none

/-! ## Structured views of generated conventions

The bridge theorems quantify over conventions given with their structure:
a flat item sequence (literal text, named groups, backreferences) for the
`cleanup` stage, a segment sequence that additionally groups the optional
`(?:...)?` spans for the `merge` stage, and a token/literal sequence for
tokenized round trips.  Rendering turns the structure back into the
exact string the engine manipulates; well-formedness restricts the
literal text so that the scanners cannot misfire across boundaries. -/

mutual

/-- No `^`/`$` anchors inside an element. -/
def noAnchorE : RElem → Bool
  | .grp _ sub => noAnchorL sub
  | .ncap sub => noAnchorL sub
  | .opt sub => noAnchorL sub
  | .bos => false
  | .eos => false
  | _ => true

/-- No `^`/`$` anchors inside a pattern. -/
def noAnchorL : List RElem → Bool
  | [] => true
  | e :: rest => noAnchorE e && noAnchorL rest

end

/-- A flat piece of a generated convention: literal regex text, a named
group, or a backreference. -/
inductive FlatIt where
  | fplain (s : Str)
  | fg (name rule : Str)
  | fr (name : Str)
deriving DecidableEq, Repr

/-- Render a flat piece to its regex text. -/
def renderFlat : FlatIt → Str
  | .fplain s => s
  | .fg n r => ("(?P<".toList) ++ n ++ ('>' :: r) ++ [')']
  | .fr n => ("(?P=".toList) ++ n ++ [')']

/-- Render a flat sequence. -/
def renderFlats (its : List FlatIt) : Str := (its.map renderFlat).flatten

/-- A segment of a generated convention: literal text, a named group, a
backreference, or an optional group of flat pieces. -/
inductive Seg where
  | plain (s : Str)
  | gseg (name rule : Str)
  | rseg (name : Str)
  | oseg (inner : List FlatIt)
deriving DecidableEq, Repr

/-- Render a segment to its regex text. -/
def renderSeg : Seg → Str
  | .plain s => s
  | .gseg n r => renderFlat (.fg n r)
  | .rseg n => renderFlat (.fr n)
  | .oseg inner => ("(?:".toList) ++ renderFlats inner ++ [')', '?']

/-- Render a segment sequence. -/
def renderSegs (segs : List Seg) : Str := (segs.map renderSeg).flatten

/-- Flatten a segment into flat pieces (optional-group delimiters become
literal text). -/
def flattenSeg : Seg → List FlatIt
  | .plain s => [.fplain s]
  | .gseg n r => [.fg n r]
  | .rseg n => [.fr n]
  | .oseg inner => .fplain ("(?:".toList) :: inner ++ [.fplain [')', '?']]

/-- Flatten a segment sequence. -/
def flattenSegs (segs : List Seg) : List FlatIt :=
  (segs.map flattenSeg).flatten

/-- Does the string contain the start `(?P` of a named-group or
backreference match? -/
def hasNgpStart : Str → Bool
  | '(' :: '?' :: 'P' :: _ => true
  | _ :: rest => hasNgpStart rest
  | [] => false

/-- Characters allowed in well-formed literal segment text: nothing that
could start or close a group, quantify, anchor, or span lines.
Backslashes and dots (the characters `get_convention` escapes) are
allowed. -/
def plainCharOK (c : Char) : Bool :=
  !(c = '(' || c = ')' || c = '\n' || c = '[' || c = ']' || c = '|' ||
    c = '+' || c = '*' || c = '?' || c = '^' || c = '$' || c = '~' ||
    c = lbrace || c = rbrace)

/-- A well-formed group name: `[a-zA-Z_]\w*`. -/
def nameOK (n : Str) : Bool :=
  match n with
  | [] => false
  | c :: cs => isNameStart c && cs.all isWordChar

/-- A well-formed rule: non-empty, and the scanners' delimiters cannot
misfire inside it. -/
def ruleOK (r : Str) : Bool :=
  !r.isEmpty && r.all (fun c => !(c = ')' || c = '(' || c = '\n' || c = '\\'))

/-- Well-formedness of a flat piece. -/
def flatOK : FlatIt → Bool
  | .fplain s => s.all plainCharOK
  | .fg n r => nameOK n && ruleOK r
  | .fr n => nameOK n

/-- Does a flat sequence contain a group or backreference?  (Only then
is `(?:...)?` matched by `OPTIONAL_GROUP_PATTERN`.) -/
def flatHasTok (l : List FlatIt) : Bool :=
  l.any (fun it => match it with
    | .fplain _ => false
    | _ => true)

/-- Well-formedness of a segment. -/
def segOK : Seg → Bool
  | .plain s => s.all plainCharOK
  | .gseg n r => nameOK n && ruleOK r
  | .rseg n => nameOK n
  | .oseg inner => inner.all flatOK && flatHasTok inner

/-- Well-formedness of a segment sequence. -/
def segsOK (l : List Seg) : Bool := l.all segOK

/-- Token names of one segment occurring outside optional groups. -/
def segTokNames : Seg → List Str
  | .gseg n _ => [n]
  | .rseg n => [n]
  | _ => []

/-- The non-optional token names of a convention, in the sense of claim
C4: tokens with an occurrence outside every optional group. -/
def nonOptSegNames (l : List Seg) : List Str :=
  (l.map segTokNames).flatten

/-- Token name of a flat piece, if any. -/
def flatName : FlatIt → Option Str
  | .fplain _ => none
  | .fg n _ => some n
  | .fr n => some n

/-- Context value of a token for `merge`'s final substitution. -/
def ctxVal (ctx : Ctx) (n : Str) : Except MErr Str :=
  match alGet ctx n with
  | some (some v) => .ok v
  | some none => .error MErr.typeErr
  | none => .error (MErr.valueErr n)

/-- Is a token of an optional group present with a truthy value? -/
def flatValOk (ctx : Ctx) (it : FlatIt) : Bool :=
  match flatName it with
  | none => true
  | some n =>
    match alGet ctx n with
    | some (some v) => !v.isEmpty
    | _ => false

/-- Rendering of one flat piece of an entered optional group: literal
text and substituted values, with backslashes stripped (optional-group
substitution happens before `merge`'s backslash strip). -/
def flatMergeVal (ctx : Ctx) : FlatIt → Str
  | .fplain s => stripBack s
  | .fg n _ => stripBack (((alGet ctx n).join).getD [])
  | .fr n => stripBack (((alGet ctx n).join).getD [])

/-- The merge of one segment, as claim C4 describes it: literal text
with backslashes stripped; a token substituted by its context value
(`ValueError` when absent); an optional group rendered empty when any of
its tokens is absent or falsy, and rendered with its substituted content
otherwise. -/
def mergeSeg (ctx : Ctx) : Seg → Except MErr Str
  | .plain s => .ok (stripBack s)
  | .gseg n _ => ctxVal ctx n
  | .rseg n => ctxVal ctx n
  | .oseg inner =>
    if inner.all (flatValOk ctx) then
      .ok ((inner.map (flatMergeVal ctx)).flatten)
    else .ok []

/-- Segment-level merge: the per-segment merges concatenated, failing at
the first missing top-level token. -/
def mergeSegs (segs : List Seg) (ctx : Ctx) : Except MErr Str :=
  match segs with
  | [] => .ok []
  | sg :: rest => do
    let a ← mergeSeg ctx sg
    let b ← mergeSegs rest ctx
    .ok (a ++ b)

/-! ## The tokenized fragment for round trips (claim C1) -/

/-- An element of a simple tokenized convention: a literal character or
a token. -/
inductive TokEl where
  | tlit (c : Char)
  | tgrp (name : Str)
deriving DecidableEq, Repr

/-- Render an element to the regex text `get_convention` produces for
it: a dot is escaped, a token becomes a lazily matching named group. -/
def renderTokEl : TokEl → Str
  | .tlit c => if c = '.' then ['\\', '.'] else [c]
  | .tgrp n => ("(?P<".toList) ++ n ++ (">.+?)".toList)

/-- Render a tokenized convention. -/
def renderToks (l : List TokEl) : Str := (l.map renderTokEl).flatten

/-- Well-formedness of a tokenized element: literal characters are
scanner-safe and unescaped; names are word-like. -/
def tokElOK : TokEl → Bool
  | .tlit c => plainCharOK c && c ≠ '\\'
  | .tgrp n => nameOK n

/-- The token names of a tokenized convention, in order. -/
def tokNames (l : List TokEl) : List Str :=
  l.filterMap (fun e => match e with
    | .tgrp n => some n
    | _ => none)

/-- Well-formedness of a tokenized convention: well-formed elements and
no repeated token. -/
def toksOK (l : List TokEl) : Bool :=
  l.all tokElOK && (tokNames l).Nodup

/-- The pattern element a tokenized element matches as. -/
def toRE : TokEl → RElem
  | .tlit c => .lit c
  | .tgrp n => .grp n [.anyPlusLazy]

/-- The pattern of a tokenized convention. -/
def toksRE (l : List TokEl) : List RElem := l.map toRE

/-- Merge of a tokenized convention, as the round-trip claim describes
it: literals stand for themselves, tokens for their context values. -/
def mergeToks (l : List TokEl) (ctx : Ctx) : Except MErr Str :=
  match l with
  | [] => .ok []
  | .tlit c :: rest => do
    let b ← mergeToks rest ctx
    .ok (c :: b)
  | .tgrp n :: rest => do
    let a ← ctxVal ctx n
    let b ← mergeToks rest ctx
    .ok (a ++ b)

/-- The segment a tokenized element renders as, connecting the simple
tokenized fragment to the segment view of the merge pipeline. -/
def tokSeg : TokEl → Seg
  | .tlit c => .plain (renderTokEl (.tlit c))
  | .tgrp n => .gseg n (".+?".toList)

/-! ## The user-level tokenized convention (claim C2) -/

/-- A piece of a user-written tokenized naming convention: literal text
or a `{token}`. -/
inductive Chunk where
  | klit (s : Str)
  | ktok (name : Str)
deriving DecidableEq, Repr

/-- Render a piece back to the user string. -/
def renderChunk : Chunk → Str
  | .klit s => s
  | .ktok n => lbrace :: n ++ [rbrace]

/-- Render a user convention. -/
def renderChunks (l : List Chunk) : Str := (l.map renderChunk).flatten

/-- The flat piece a chunk becomes after escaping and token
substitution. -/
def chunkToFlat : Chunk → FlatIt
  | .klit s => .fplain (escapeNC s)
  | .ktok n => .fg n (".+?".toList)

/-- Well-formedness of a chunk: literal text without braces or
newlines whose escaping cannot start a named-group match; word-like
token names. -/
def chunkOK : Chunk → Bool
  | .klit s =>
    s.all (fun c => !(c = lbrace || c = rbrace || c = '\n')) &&
    !hasNgpStart (escapeNC s)
  | .ktok n => nameOK n

/-- The item-level reference for the `cleanup` substitution, written
from the amended claim: literal text passes through; the first
occurrence of a token becomes a named group with its rule and is
recorded; a recurrence with the same stored rule (or any recurrence of a
token first seen as a backreference) becomes a backreference; a
recurrence whose rule differs from the stored one raises `re.error`.  A
backreference occurring first becomes a group with the default rule and
records a stored rule of `None`. -/
def specCleanupIt (tokens : List (Str × Option Str)) :
    FlatIt → Except Unit (Str × List (Str × Option Str))
  | .fplain s => .ok (s, tokens)
  | .fg n r =>
    match alGet tokens n with
    | none => .ok (renderFlat (.fg n r), alSet tokens n (some r))
    | some stored =>
      if stored = some r then .ok (renderFlat (.fr n), tokens)
      else .error ()
  | .fr n =>
    match alGet tokens n with
    | none => .ok (renderFlat (.fg n (".+?".toList)), alSet tokens n none)
    | some _ => .ok (renderFlat (.fr n), tokens)

/-- The reference `cleanup` over a flat sequence. -/
def specCleanupGo (tokens : List (Str × Option Str)) :
    List FlatIt → Except Unit (Str × List (Str × Option Str))
  | [] => .ok ([], tokens)
  | it :: rest => do
    let (out, tokens') ← specCleanupIt tokens it
    let (out', tokens'') ← specCleanupGo tokens' rest
    .ok (out ++ out', tokens'')

/-- The reference `cleanup` result for a flat sequence. -/
def specCleanup (its : List FlatIt) : Except Unit Str :=
  (specCleanupGo [] its).map (fun x => x.1)

/-- Interleave the flat sequences of the hierarchy's conventions with
the `/` separators of `os.path.join`. -/
def joinFlats : List (List FlatIt) → List FlatIt
  | [] => []
  | [x] => x
  | x :: y :: rest => x ++ (.fplain ['/']) :: joinFlats (y :: rest)

/-- The named-group item a flat piece contributes, if any. -/
def flatItem : FlatIt → Option NGItem
  | .fplain _ => none
  | .fg n r => some (.group n r)
  | .fr n => some (.backref n)

/-- The value a flat piece contributes during the optional-group
substitution (before the backslash strip): literal text stands for
itself, tokens for the raw context value. -/
def flatSubVal (ctx : Ctx) : FlatIt → Str
  | .fplain s => s
  | .fg n _ => ((alGet ctx n).join).getD []
  | .fr n => ((alGet ctx n).join).getD []

/-- The text one segment becomes under the optional-group substitution
pass of `merge`: non-optional segments pass through unchanged; an
optional group becomes the empty string when one of its tokens is absent
or falsy, and its substituted content otherwise. -/
def optSegOut (ctx : Ctx) : Seg → Str
  | .plain s => s
  | .gseg n r => renderFlat (.fg n r)
  | .rseg n => renderFlat (.fr n)
  | .oseg inner =>
    if inner.all (flatValOk ctx) then (inner.map (flatSubVal ctx)).flatten
    else []

/-- The context discipline under which `merge`'s passes cannot interfere:
every value is an actual string (`None` would make `re.sub` raise
`TypeError`) and contains no `(`, so a substituted value is never itself
matched by a later substitution pass. -/
def ctxMergeOK (ctx : Ctx) : Bool :=
  ctx.all (fun p => match p.2 with
    | some v => v.all (fun c => c ≠ '(')
    | none => false)

/-- The reference form of one `NAMED_GROUP_PATTERN` substitution pass
over a flat sequence: plain text is copied, each group or backreference
is replaced by the callback's output, threading its state. -/
def ngpFold {st e : Type} (repl : NGItem → st → Except e (Str × st)) :
    List FlatIt → st → Except e (Str × st)
  | [], acc => .ok ([], acc)
  | .fplain s :: rest, acc => do
    let (out, acc2) ← ngpFold repl rest acc
    .ok (s ++ out, acc2)
  | .fg n r :: rest, acc => do
    let (rep, acc2) ← repl (.group n r) acc
    let (out, acc3) ← ngpFold repl rest acc2
    .ok (rep ++ out, acc3)
  | .fr n :: rest, acc => do
    let (rep, acc2) ← repl (.backref n) acc
    let (out, acc3) ← ngpFold repl rest acc2
    .ok (rep ++ out, acc3)

/-- A concrete branch config used by counterexamples: a plain folder. -/
def sampleCfg : BrCfg :=
  .mk ("scripts".toList) ("folder".toList) none false [] [] none

/-- The well-formedness condition of claim C8 on a serialized config:
every branch dict either omits the `children` key or maps it to a
non-empty list of configs satisfying the same condition. -/
def goodCfg : BrCfg → Prop
  | .mk _ _ _ _ _ _ none => True
  | .mk _ _ _ _ _ _ (some none) => False
  | .mk _ _ _ _ _ _ (some (some cs)) =>
    cs ≠ [] ∧ ∀ c ∈ cs.attach, goodCfg c.1
decreasing_by
  have h1 := List.sizeOf_lt_of_mem c.2
  simp only [BrCfg.mk.sizeOf_spec, Option.some.sizeOf_spec]
  omega

end Posers

namespace Posers

/-! ## Supporting lemmas (shared) -/

theorem chainLt_getLast {f : Int × Bool → Int × Bool → Prop}
    (hf : ∀ a b, f a b → a.1 ≤ b.1) :
    ∀ {l : List (Int × Bool)} {a la : Int × Bool},
      List.Chain' f (a :: l) → (a :: l).getLast? = some la → a.1 ≤ la.1 := by
  intro l
  induction l with
  | nil =>
    intro a la _ hl
    simp only [List.getLast?_singleton, Option.some.injEq] at hl
    subst hl
    exact le_refl _
  | cons b t ih =>
    intro a la hc hl
    have h1 : f a b := (List.chain'_cons.mp hc).1
    have h2 : List.Chain' f (b :: t) := (List.chain'_cons.mp hc).2
    have h3 : (b :: t).getLast? = some la := by
      rw [← hl, List.getLast?_cons_cons]
    exact le_trans (hf a b h1) (ih h2 h3)

theorem filter_ne_getLast :
    ∀ {l : List (Int × Bool)} {la : Int × Bool},
      List.Chain' (fun a b => a.1 < b.1) l → l.getLast? = some la →
      l.filter (fun e => e.1 ≠ la.1) = l.dropLast := by
  intro l
  induction l with
  | nil => intro la _ hl; simp at hl
  | cons a t ih =>
    intro la hc hl
    cases t with
    | nil =>
      simp only [List.getLast?_singleton, Option.some.injEq] at hl
      subst hl
      simp
    | cons b t' =>
      have h2 : List.Chain' (fun a b : Int × Bool => a.1 < b.1) (b :: t') :=
        (List.chain'_cons.mp hc).2
      have h3 : (b :: t').getLast? = some la := by
        rw [← hl, List.getLast?_cons_cons]
      have h4 : a.1 < la.1 :=
        lt_of_lt_of_le (List.chain'_cons.mp hc).1
          (chainLt_getLast (fun x y h => le_of_lt h) h2 h3)
      have h5 : (decide (a.1 ≠ la.1)) = true := by
        simp only [decide_eq_true_eq]
        exact ne_of_lt h4
      simp only [List.filter_cons, h5, if_true, ih h2 h3, List.dropLast_cons₂]

theorem goodCfg_iff (i t : Str) (nc : Option Str) (re : Bool)
    (m : List (Str × List (Str × Str))) (r : List (Str × Str))
    (cs : List BrCfg) :
    goodCfg (.mk i t nc re m r (some (some cs))) ↔
      cs ≠ [] ∧ ∀ c ∈ cs, goodCfg c := by
  rw [goodCfg]
  simp only [ne_eq, List.mem_attach, forall_const, Subtype.forall]

theorem branch_round_aux (n : Nat) :
    ∀ c : BrCfg, sizeOf c ≤ n → goodCfg c →
      branchSerialize (branchInit c) = c := by
  induction n with
  | zero =>
    intro c hs _
    exact absurd hs (by cases c; simp only [BrCfg.mk.sizeOf_spec]; omega)
  | succ n ih =>
    intro c hs hg
    cases c with
    | mk i t nc re m r ch =>
      match ch with
      | some none =>
        rw [goodCfg] at hg
        exact hg.elim
      | none =>
        rw [branchInit]
        by_cases hf : t = ("file".toList)
        · rw [if_pos hf, branchSerialize]
        · rw [if_neg hf, branchSerialize]
      | some (some cs) =>
        rw [branchInit]
        rw [goodCfg_iff] at hg
        obtain ⟨hne, hall⟩ := hg
        have hmap : cs.attach.map (fun c => branchInit c.1) = cs.map branchInit := by
          rw [List.attach_map_coe]
        rw [hmap]
        cases cs with
        | nil => exact absurd rfl hne
        | cons c0 cs' =>
          simp only [List.map_cons]
          rw [branchSerialize]
          have hsz : ∀ x ∈ c0 :: cs', sizeOf x ≤ n := by
            intro x hx
            have := List.sizeOf_lt_of_mem hx
            simp only [BrCfg.mk.sizeOf_spec, Option.some.sizeOf_spec] at hs
            omega
          have hrec : ∀ x ∈ c0 :: cs', branchSerialize (branchInit x) = x := by
            intro x hx
            exact ih x (hsz x hx) (hall x hx)
          have hmap2 :
              (branchInit c0 :: cs'.map branchInit).attach.map
                (fun x => branchSerialize x.1) =
              (branchInit c0 :: cs'.map branchInit).map branchSerialize := by
            rw [List.attach_map_coe]
          rw [hmap2]
          simp only [List.map_cons, List.map_map, BrCfg.setChildren]
          have hhead : branchSerialize (branchInit c0) = c0 :=
            hrec c0 (List.mem_cons_self c0 cs')
          have htail : List.map (branchSerialize ∘ branchInit) cs' = cs' := by
            have : ∀ x ∈ cs', (branchSerialize ∘ branchInit) x = x := by
              intro x hx
              exact hrec x (List.mem_cons_of_mem c0 hx)
            exact (List.map_congr_left this).trans (List.map_id cs')
          rw [hhead, htail]

theorem branch_round (c : BrCfg) (h : goodCfg c) :
    branchSerialize (branchInit c) = c :=
  branch_round_aux (sizeOf c) c (le_refl _) h

theorem serialize_deserialize (config : List BrCfg)
    (h : ∀ c ∈ config, goodCfg c) :
    fsSerialize (fsDeserialize config) = config := by
  unfold fsSerialize fsDeserialize
  simp only [List.map_map]
  have : ∀ c ∈ config, (branchSerialize ∘ branchInit) c = c := by
    intro c hc
    exact branch_round c (h c hc)
  exact (List.map_congr_left this).trans (List.map_id config)

theorem alGet_alSet {α β : Type} [DecidableEq α]
    (d : List (α × β)) (k : α) (v : β) : alGet (alSet d k v) k = some v := by
  induction d with
  | nil => simp [alSet, alGet]
  | cons kv rest ih =>
    obtain ⟨k0, v0⟩ := kv
    by_cases h : k0 = k
    · subst h
      simp [alSet, alGet]
    · simp [alSet, alGet, h, ih]

/-! ## Claim theorems: posers and persistence -/

/-- C9: for every `Poser` (including `NumberPoser`), `remove_pose` with an
index below 1 raises `ValueError` and leaves the pose stack untouched, so
the neutral pose at index 0 can never be removed; with `index=None`,
`Poser.remove_pose` resolves the index to the last multi index and
removes that last pose (when it is a removable, non-neutral pose). -/
theorem remove_pose_protects_neutral (st : PoserSt) (nst : NumPoserSt)
    (i : Int) (hi : i < 1)
    (hchain : List.Chain' (fun a b : Int × Bool => a.1 < b.1) st.entries) :
    removePose st (some i) = (some PErr.valueErr, st) ∧
    numRemovePose nst i = (some PErr.valueErr, nst) ∧
    (∀ last, st.entries.getLast? = some last → 1 ≤ last.1 →
      removePose st none = (none, ⟨st.entries.dropLast⟩)) := by
  refine ⟨?_, ?_, ?_⟩
  · simp [removePose, hi]
  · simp [numRemovePose, hi]
  · intro last hlast hpos
    have hfilter := filter_ne_getLast hchain hlast
    unfold removePose
    rw [hlast]
    simp only [Option.map_some']
    rw [if_neg (not_lt.mpr hpos), hfilter]

/-- Witness for C9 at a concrete two-pose stack. -/
theorem remove_pose_protects_neutral_witness :
    removePose ⟨[(0, false), (1, true)]⟩ (some 0) =
      (some PErr.valueErr, ⟨[(0, false), (1, true)]⟩) ∧
    numRemovePose ⟨[0, 1], [1]⟩ 0 = (some PErr.valueErr, ⟨[0, 1], [1]⟩) ∧
    (∀ last, (([(0, false), (1, true)] : List (Int × Bool)).getLast? = some last) →
      1 ≤ last.1 →
      removePose ⟨[(0, false), (1, true)]⟩ none = (none, ⟨[(0, false)]⟩)) :=
  remove_pose_protects_neutral ⟨[(0, false), (1, true)]⟩ ⟨[0, 1], [1]⟩ 0
    (by decide) (by norm_num [List.chain'_cons, List.chain'_singleton])

/-- C8: serialization round-trip.  For every config list in which each
branch dict either omits the `children` key or maps it to a non-empty
list of child configs, `FS.deserialize(config).serialize()` returns the
original config; `Branch.serialize` re-inserts the `children` key that
`Branch.__init__` removed. -/
theorem fs_serialize_roundtrip (config : List BrCfg)
    (h : ∀ c ∈ config, goodCfg c) :
    fsSerialize (fsDeserialize config) = config :=
  serialize_deserialize config h

/-- Witness for C8: a folder with one file child round-trips. -/
theorem fs_serialize_roundtrip_witness :
    fsSerialize (fsDeserialize
      [BrCfg.mk ("shots".toList) ("folder".toList) none false [] []
        (some (some [BrCfg.mk ("cut".toList) ("file".toList) none false [] [] none]))]) =
      [BrCfg.mk ("shots".toList) ("folder".toList) none false [] []
        (some (some [BrCfg.mk ("cut".toList) ("file".toList) none false [] [] none]))] := by
  apply fs_serialize_roundtrip
  intro c hc
  simp only [List.mem_singleton] at hc
  subst hc
  rw [goodCfg_iff]
  refine ⟨by simp, ?_⟩
  intro c hc
  simp only [List.mem_singleton] at hc
  subst hc
  rw [goodCfg]
  trivial

/-- C6: `FS.save` raises `IOError` (touching neither the FS nor the disk)
exactly when both the filepath argument and the `filepath` attribute are
empty; otherwise it writes the serialization returned by `FS.serialize`
at the effective path (the non-empty argument, else the attribute). -/
theorem fs_save_behaviour (fs : FSm) (d : Disk) :
    (fs.filepath = [] → fsSave fs none d = (some FsErr.ioErr, fs, d)) ∧
    (∀ p : Str, p ≠ [] →
      fsSave fs (some p) d = (none, fs, alSet d p (fsSerialize fs))) ∧
    (fs.filepath ≠ [] →
      fsSave fs none d = (none, fs, alSet d fs.filepath (fsSerialize fs))) := by
  refine ⟨?_, ?_, ?_⟩
  · intro h
    unfold fsSave
    simp [h]
  · intro p hp
    unfold fsSave
    simp [hp]
  · intro h
    unfold fsSave
    simp [h]

/-- Witness for C6 on a concrete FS and disk. -/
theorem fs_save_behaviour_witness :
    (((⟨[], []⟩ : FSm).filepath = []) →
      fsSave ⟨[], []⟩ none [] = (some FsErr.ioErr, ⟨[], []⟩, [])) ∧
    (∀ p : Str, p ≠ [] →
      fsSave ⟨[], []⟩ (some p) [] = (none, ⟨[], []⟩, alSet [] p (fsSerialize ⟨[], []⟩))) ∧
    (((⟨[], []⟩ : FSm).filepath ≠ []) →
      fsSave ⟨[], []⟩ none [] = (none, ⟨[], []⟩, alSet [] ([] : Str) (fsSerialize ⟨[], []⟩))) :=
  fs_save_behaviour ⟨[], []⟩ []

end Posers

namespace Posers

/-- C5 counterexample: the codebase does own a persistent storage format.
`FS.save` writes the JSON serialization of the FS's own branch configs to
a path on disk, and `FS.load` reads the same representation back into an
equivalent `FS` — here at a concrete one-branch FS, refuting the claim
that no operation of the program defines, writes, or reads back an
on-disk serialization of its own state. -/
theorem fs_owns_storage_format :
    fsSave ⟨[], [branchInit sampleCfg]⟩ (some ("/pipe/fs.json".toList)) [] =
      (none, ⟨[], [branchInit sampleCfg]⟩,
        [(("/pipe/fs.json".toList : Str), [sampleCfg])]) ∧
    fsLoadAt ("/pipe/fs.json".toList)
        [(("/pipe/fs.json".toList : Str), [sampleCfg])] =
      .ok ⟨("/pipe/fs.json".toList), [branchInit sampleCfg]⟩ := by
  constructor
  · unfold fsSave
    simp +decide [fsSerialize, branchSerialize, branchInit, sampleCfg, alSet]
  · unfold fsLoadAt
    simp +decide [alGet, fsDeserialize, branchInit, sampleCfg]

/-- C5 amended: the FS configuration is the one persistent storage format
the codebase owns — `FS.save` writes `FS.serialize`'s JSON representation
to the effective path and `FS.load` reads it back into an FS with the
same serialization and that path recorded; all other persistence is
delegated to the host application. -/
theorem fs_persistence_roundtrip (fs : FSm) (p : Str) (d : Disk)
    (hp : p ≠ []) (hgood : ∀ c ∈ fsSerialize fs, goodCfg c) :
    fsSave fs (some p) d = (none, fs, alSet d p (fsSerialize fs)) ∧
    fsLoadAt p (alSet d p (fsSerialize fs)) =
      .ok { fsDeserialize (fsSerialize fs) with filepath := p } ∧
    fsSerialize { fsDeserialize (fsSerialize fs) with filepath := p } =
      fsSerialize fs := by
  refine ⟨?_, ?_, ?_⟩
  · unfold fsSave
    simp [hp]
  · unfold fsLoadAt
    rw [alGet_alSet]
  · have h1 : fsSerialize { fsDeserialize (fsSerialize fs) with filepath := p } =
        fsSerialize (fsDeserialize (fsSerialize fs)) := rfl
    rw [h1]
    exact serialize_deserialize (fsSerialize fs) hgood

/-- Witness for the amended C5 at a concrete FS. -/
theorem fs_persistence_roundtrip_witness :
    fsSave ⟨[], [branchInit sampleCfg]⟩ (some ("/pipe/fs.json".toList)) [] =
      (none, ⟨[], [branchInit sampleCfg]⟩,
        alSet [] ("/pipe/fs.json".toList)
          (fsSerialize ⟨[], [branchInit sampleCfg]⟩)) ∧
    fsLoadAt ("/pipe/fs.json".toList)
        (alSet [] ("/pipe/fs.json".toList)
          (fsSerialize ⟨[], [branchInit sampleCfg]⟩)) =
      .ok { fsDeserialize (fsSerialize ⟨[], [branchInit sampleCfg]⟩) with
              filepath := ("/pipe/fs.json".toList) } ∧
    fsSerialize { fsDeserialize (fsSerialize ⟨[], [branchInit sampleCfg]⟩) with
                    filepath := ("/pipe/fs.json".toList) } =
      fsSerialize ⟨[], [branchInit sampleCfg]⟩ := by
  apply fs_persistence_roundtrip
  · simp
  · intro c hc
    have h1 : fsSerialize (⟨[], [branchInit sampleCfg]⟩ : FSm) = [sampleCfg] := by
      simp +decide [fsSerialize, branchSerialize, branchInit, sampleCfg]
    rw [h1] at hc
    simp only [List.mem_singleton] at hc
    subst hc
    rw [sampleCfg, goodCfg]
    trivial

end Posers

namespace Posers

/-- C7: the naming engine is pure and deterministic.  In state-threaded
form, `get_convention`, `merge`, `match` and `parse` leave the branch
hierarchy unchanged, and a second call on the state returned by the
first yields the identical result: the outputs are functions of the
hierarchy configs, the `mount`/`platform`/`pretty` arguments and the
input context or name alone (with the OS and home directory fixed). -/
theorem engine_deterministic (st : BranchSt) (parents : Bool)
    (mount platform : Option Str) (pretty : Bool) (ctx : Ctx) (name : Str) :
    (getConventionSt st parents mount platform pretty).2 = st ∧
    (mergeSt st parents mount platform ctx).2 = st ∧
    (matchSt st parents mount platform name).2 = st ∧
    (parseSt st parents mount platform name).2 = st ∧
    (getConventionSt (getConventionSt st parents mount platform pretty).2
        parents mount platform pretty).1 =
      (getConventionSt st parents mount platform pretty).1 ∧
    (mergeSt (mergeSt st parents mount platform ctx).2
        parents mount platform ctx).1 =
      (mergeSt st parents mount platform ctx).1 ∧
    (matchSt (matchSt st parents mount platform name).2
        parents mount platform name).1 =
      (matchSt st parents mount platform name).1 ∧
    (parseSt (parseSt st parents mount platform name).2
        parents mount platform name).1 =
      (parseSt st parents mount platform name).1 :=
  ⟨rfl, rfl, rfl, rfl, rfl, rfl, rfl, rfl⟩

/-- C1 counterexample: on the tokenized branch with convention
`{a}_{b}` and the context `a='x_y'`, `b='z'` — both values non-empty and
fully matching the rule `.+?` — `merge` produces `x_y_z`, but `parse` of
that string returns `a='x'`, `b='y_z'`, which disagrees with the context
on token `a`: the lazy ambiguity breaks the round trip. -/
theorem merge_parse_roundtrip_counterexample :
    mergeB [] cfgAB false none none ctxAB = .ok ("x_y_z".toList) ∧
    parseB [] cfgAB false none none ("x_y_z".toList) =
      .ok (some [(("a".toList), some ("x".toList)),
                 (("b".toList), some ("y_z".toList))]) ∧
    alGet ctxAB ("a".toList) = some (some ("x_y".toList)) ∧
    reMatchStr ("^(.+?)$".toList) ("x_y".toList) =
      .ok (some (3, [])) ∧
    reMatchStr ("^(.+?)$".toList) ("z".toList) = .ok (some (1, [])) := by
  refine ⟨by decide, by decide, by decide, by decide, by decide⟩

/-- C2 counterexample: on the tokenized branch with convention
`(?P=x){x}`, the token `x` occurs once as a backreference (no rule) and
once with the default rule `.+?` — never with two different non-empty
rules — yet `get_convention` raises `re.error`: the stored rule for the
first occurrence is `None`, and the later occurrence's `.+?` differs
from it. -/
theorem convention_generation_counterexample :
    getConvention [] cfgBad false none none false = .error CErr.reErr ∧
    (itemsOfStr (subTokens (escapeNC ("(?P=x){x}".toList)))).map NGItem.name =
      [("x".toList), ("x".toList)] ∧
    (itemsOfStr (subTokens (escapeNC ("(?P=x){x}".toList)))).map NGItem.ruleOpt =
      [none, some (".+?".toList)] := by
  refine ⟨by decide, by decide, by decide⟩

/-- C3 counterexample: on the branch whose convention is the literal
`a`, `match` succeeds on the name `a\n` although the whole of that name
does not match the convention (no enumeration of the bare pattern
consumes both characters): Python's `$` also matches just before a
trailing newline. -/
theorem match_anchoring_counterexample :
    matchB [] cfgLit false none none ("a\n".toList) = .ok (some (1, [])) ∧
    getConvention [] cfgLit false none none false = .ok ("a".toList) ∧
    parseTop ("a".toList) = some [.lit 'a'] ∧
    seqRes ("a\n".toList) [.lit 'a'] 0 [] = [(1, [])] ∧
    ("a\n".toList).length = 2 := by
  refine ⟨by decide, by decide, by rfl, by rfl, by rfl⟩

end Posers

namespace Posers

/-! ## Scanner lemmas: consumption and computation -/

theorem dropPre_render (p t : Str) : dropPre p (p ++ t) = some t := by
  induction p with
  | nil => rfl
  | cons c cs ih => simp [dropPre, ih]

theorem dropPre_len :
    ∀ {p s r : Str}, dropPre p s = some r → s.length = p.length + r.length := by
  intro p
  induction p with
  | nil =>
    intro s r h
    simp only [dropPre, Option.some.injEq] at h
    subst h
    simp
  | cons c cs ih =>
    intro s r h
    cases s with
    | nil => simp [dropPre] at h
    | cons d ds =>
      simp only [dropPre] at h
      by_cases hd : d = c
      · rw [if_pos hd] at h
        have := ih h
        simp [this]
        omega
      · rw [if_neg hd] at h
        exact absurd h (by simp)

theorem nameGo_len :
    ∀ {stop : Char} {s acc nm r : Str},
      nameGo stop s acc = some (nm, r) → r.length < s.length := by
  intro stop s
  induction s with
  | nil => intro acc nm r h; simp [nameGo] at h
  | cons c cs ih =>
    intro acc nm r h
    simp only [nameGo] at h
    by_cases h1 : c = stop
    · rw [if_pos h1] at h
      simp only [Option.some.injEq, Prod.mk.injEq] at h
      simp [← h.2]
    · rw [if_neg h1] at h
      by_cases h2 : isWordChar c
      · rw [if_pos h2] at h
        have := ih h
        simp only [List.length_cons]
        omega
      · rw [if_neg h2] at h
        exact absurd h (by simp)

theorem nameScan_len {stop : Char} {s nm r : Str} :
    nameScan stop s = some (nm, r) → r.length < s.length := by
  intro h
  cases s with
  | nil => simp [nameScan] at h
  | cons c cs =>
    simp only [nameScan] at h
    by_cases h1 : isNameStart c
    · rw [if_pos h1] at h
      have := nameGo_len h
      simp only [List.length_cons]
      omega
    · rw [if_neg h1] at h
      exact absurd h (by simp)

theorem ruleGo_len :
    ∀ {s acc rl r : Str}, ruleGo s acc = some (rl, r) → r.length < s.length := by
  intro s
  induction s with
  | nil => intro acc rl r h; simp [ruleGo] at h
  | cons c cs ih =>
    intro acc rl r h
    simp only [ruleGo] at h
    by_cases h1 : c = ')'
    · rw [if_pos h1] at h
      simp only [Option.some.injEq, Prod.mk.injEq] at h
      simp [← h.2]
    · rw [if_neg h1] at h
      by_cases h2 : c = '\n'
      · rw [if_pos h2] at h
        exact absurd h (by simp)
      · rw [if_neg h2] at h
        have := ih h
        simp only [List.length_cons]
        omega

theorem ruleScan_len {s rl r : Str} :
    ruleScan s = some (rl, r) → r.length < s.length := by
  intro h
  cases s with
  | nil => simp [ruleScan] at h
  | cons c cs =>
    simp only [ruleScan] at h
    by_cases h1 : c = '\n'
    · rw [if_pos h1] at h
      exact absurd h (by simp)
    · rw [if_neg h1] at h
      have := ruleGo_len h
      simp only [List.length_cons]
      omega

theorem tokenGo_len :
    ∀ {s acc tok r : Str}, tokenGo s acc = some (tok, r) → r.length < s.length := by
  intro s
  induction s with
  | nil => intro acc tok r h; simp [tokenGo] at h
  | cons c cs ih =>
    intro acc tok r h
    simp only [tokenGo] at h
    by_cases h1 : c = rbrace
    · rw [if_pos h1] at h
      simp only [Option.some.injEq, Prod.mk.injEq] at h
      simp [← h.2]
    · rw [if_neg h1] at h
      by_cases h2 : c = '\n'
      · rw [if_pos h2] at h
        exact absurd h (by simp)
      · rw [if_neg h2] at h
        have := ih h
        simp only [List.length_cons]
        omega

theorem tokenAt_len {s tok r : Str} :
    tokenAt s = some (tok, r) → r.length < s.length := by
  intro h
  cases s with
  | nil => simp [tokenAt] at h
  | cons c cs =>
    simp only [tokenAt] at h
    by_cases h1 : c = lbrace
    · rw [if_pos h1] at h
      cases cs with
      | nil => exact absurd h (by simp)
      | cons c0 cs' =>
        have h' : (if c0 = '\n' then none else tokenGo cs' [c0]) = some (tok, r) := h
        by_cases h2 : c0 = '\n'
        · rw [if_pos h2] at h'
          exact absurd h' (by simp)
        · rw [if_neg h2] at h'
          have := tokenGo_len h'
          simp only [List.length_cons]
          omega
    · rw [if_neg h1] at h
      exact absurd h (by simp)

theorem ngpAt_len {s : Str} {it : NGItem} {r : Str} :
    ngpAt s = some (it, r) → r.length < s.length := by
  intro h
  unfold ngpAt at h
  split at h
  next r1 heq =>
    split at h
    next nm r2 heq2 =>
      split at h
      next rl r3 heq3 =>
        simp only [Option.some.injEq, Prod.mk.injEq] at h
        have hl1 := dropPre_len heq
        have hl2 := nameScan_len heq2
        have hl3 := ruleScan_len heq3
        rw [← h.2]
        simp only [List.length_append] at hl1
        omega
      next => exact absurd h (by simp)
    next => exact absurd h (by simp)
  next heq =>
    split at h
    next r1 heq4 =>
      split at h
      next nm r2 heq5 =>
        simp only [Option.some.injEq, Prod.mk.injEq] at h
        have hl1 := dropPre_len heq4
        have hl2 := nameScan_len heq5
        rw [← h.2]
        simp only [List.length_append] at hl1
        omega
      next => exact absurd h (by simp)
    next => exact absurd h (by simp)

theorem findNgp_len :
    ∀ {s : Str} {off : Nat} {it : NGItem} {r : Str},
      findNgp s = some (off, it, r) → r.length < s.length := by
  intro s
  induction s with
  | nil => intro off it r h; simp [findNgp] at h
  | cons c cs ih =>
    intro off it r h
    simp only [findNgp] at h
    split at h
    next it' rest heq =>
      simp only [Option.some.injEq, Prod.mk.injEq] at h
      have := ngpAt_len heq
      have h3 : r = rest := h.2.2.symm
      subst h3
      exact this
    next heq =>
      split at h
      next => exact absurd h (by simp)
      next =>
        cases h3 : findNgp cs with
        | none => simp [h3] at h
        | some x =>
          obtain ⟨o, it', r'⟩ := x
          simp only [h3, Option.map_some', Option.some.injEq, Prod.mk.injEq] at h
          have := ih h3
          have h4 : r = r' := h.2.2.symm
          subst h4
          simp only [List.length_cons]
          omega

theorem optAt_len {s content : Str} {it : NGItem} {r : Str} :
    optAt s = some ((content, it), r) → r.length < s.length := by
  intro h
  unfold optAt at h
  split at h
  next => exact absurd h (by simp)
  next r1 heq =>
    split at h
    next => exact absurd h (by simp)
    next off it' afterNgp heq2 =>
      split at h
      next => exact absurd h (by simp)
      next e heq3 =>
        simp only [Option.some.injEq, Prod.mk.injEq] at h
        have hl1 := dropPre_len heq
        have hl2 := findNgp_len heq2
        have h4 : r = afterNgp.drop (e + 2) := h.2.symm
        subst h4
        have h5 : (afterNgp.drop (e + 2)).length ≤ afterNgp.length := by
          simp [List.length_drop]
        simp only [List.length_append] at hl1
        omega

/-! ## Generic lemmas about the substitution pass -/

theorem reSub_nil {b st e : Type} (pat : Str → Option (b × Str))
    (repl : b → st → Except e (Str × st)) (f : Nat) (acc : st) :
    reSub pat repl f [] acc = .ok ([], acc) := by
  cases f <;> rfl

theorem reSub_fuel {b st e : Type} {pat : Str → Option (b × Str)}
    (hpat : ∀ s m r, pat s = some (m, r) → r.length < s.length)
    (repl : b → st → Except e (Str × st)) :
    ∀ (f g : Nat) (s : Str) (acc : st), s.length ≤ f → s.length ≤ g →
      reSub pat repl f s acc = reSub pat repl g s acc := by
  intro f
  induction f with
  | zero =>
    intro g s acc hf _
    have : s = [] := List.length_eq_zero.mp (Nat.le_zero.mp hf)
    subst this
    rw [reSub_nil, reSub_nil]
  | succ f ih =>
    intro g s acc hf hg
    cases s with
    | nil => rw [reSub_nil, reSub_nil]
    | cons c cs =>
      cases g with
      | zero => simp at hg
      | succ g' =>
        show reSub pat repl (f + 1) (c :: cs) acc =
          reSub pat repl (g' + 1) (c :: cs) acc
        rw [reSub, reSub]
        cases hm : pat (c :: cs) with
        | some p =>
          obtain ⟨m, rest⟩ := p
          simp only [hm]
          have hr := hpat _ _ _ hm
          simp only [List.length_cons] at hf hg hr
          have hrw : reSub pat repl f rest = reSub pat repl g' rest :=
            funext (fun a => ih g' rest a (by omega) (by omega))
          rw [hrw]
        | none =>
          simp only [hm]
          simp only [List.length_cons] at hf hg
          have hrw : reSub pat repl f cs = reSub pat repl g' cs :=
            funext (fun a => ih g' cs a (by omega) (by omega))
          rw [hrw]

theorem reSubRun_nil {b st e : Type} (pat : Str → Option (b × Str))
    (repl : b → st → Except e (Str × st)) (acc : st) :
    reSubRun pat repl [] acc = .ok ([], acc) := rfl

theorem reSubRun_cons_none {b st e : Type} {pat : Str → Option (b × Str)}
    (repl : b → st → Except e (Str × st)) {c : Char} {cs : Str}
    (h : pat (c :: cs) = none) (acc : st) :
    reSubRun pat repl (c :: cs) acc = (do
      let (out, acc') ← reSubRun pat repl cs acc
      .ok (c :: out, acc')) := by
  show reSub pat repl (cs.length + 1) (c :: cs) acc = _
  rw [reSub, h]
  rfl

theorem reSubRun_hit {b st e : Type} {pat : Str → Option (b × Str)}
    (hpat : ∀ s m r, pat s = some (m, r) → r.length < s.length)
    (repl : b → st → Except e (Str × st)) {s : Str} {m : b} {rest : Str}
    (h : pat s = some (m, rest)) (acc : st) :
    reSubRun pat repl s acc = (do
      let (rep, acc') ← repl m acc
      let (out, acc'') ← reSubRun pat repl rest acc'
      .ok (rep ++ out, acc'')) := by
  cases s with
  | nil =>
    have := hpat _ _ _ h
    simp at this
  | cons c cs =>
    show reSub pat repl (cs.length + 1) (c :: cs) acc = _
    simp only [reSub, h]
    have hr := hpat _ _ _ h
    simp only [List.length_cons] at hr
    have hrw : reSub pat repl cs.length rest = reSub pat repl rest.length rest :=
      funext (fun a => reSub_fuel hpat repl cs.length rest.length rest a
        (by omega) (le_refl _))
    rw [hrw]
    rfl

theorem reSubRun_plain {b st e : Type} {pat : Str → Option (b × Str)}
    (hpat : ∀ s m r, pat s = some (m, r) → r.length < s.length)
    (repl : b → st → Except e (Str × st)) :
    ∀ (s t : Str) (acc : st),
      (∀ i, i < s.length → pat (s.drop i ++ t) = none) →
      reSubRun pat repl (s ++ t) acc = (do
        let (out, acc') ← reSubRun pat repl t acc
        .ok (s ++ out, acc')) := by
  intro s
  induction s with
  | nil =>
    intro t acc _
    simp only [List.nil_append]
    cases h : reSubRun pat repl t acc with
    | ok x =>
      obtain ⟨o, a2⟩ := x
      rfl
    | error err => rfl
  | cons c s' ih =>
    intro t acc hskip
    have h0 : pat (c :: (s' ++ t)) = none := by
      have := hskip 0 (by simp)
      simpa using this
    rw [List.cons_append, reSubRun_cons_none repl h0 acc]
    have hrec := ih t acc (fun i hi => by
      have := hskip (i + 1) (by simp; omega)
      simpa using this)
    rw [hrec]
    cases h : reSubRun pat repl t acc with
    | ok x =>
      obtain ⟨o, a2⟩ := x
      rfl
    | error err => rfl

end Posers

namespace Posers

/-! ## Association-list lemmas -/

theorem alGet_alSet_ne {α β : Type} [DecidableEq α]
    {d : List (α × β)} {k k' : α} {v : β} (h : k' ≠ k) :
    alGet (alSet d k v) k' = alGet d k' := by
  induction d with
  | nil =>
    simp only [alSet, alGet]
    rw [if_neg (fun hh => h hh.symm)]
  | cons kv rest ih =>
    obtain ⟨k0, v0⟩ := kv
    by_cases h0 : k0 = k
    · subst h0
      simp [alSet, alGet, h, Ne.symm h]
    · simp only [alSet, if_neg h0, alGet]
      by_cases h1 : k0 = k'
      · simp [h1]
      · simp [h1, ih]

theorem alGet_mem {α β : Type} [DecidableEq α] :
    ∀ {d : List (α × β)} {k : α} {v : β}, alGet d k = some v → (k, v) ∈ d := by
  intro d
  induction d with
  | nil => intro k v h; simp [alGet] at h
  | cons kv rest ih =>
    intro k v h
    obtain ⟨k0, v0⟩ := kv
    simp only [alGet] at h
    by_cases h0 : k0 = k
    · subst h0
      rw [if_pos rfl] at h
      simp only [Option.some.injEq] at h
      subst h
      exact List.mem_cons_self _ _
    · rw [if_neg h0] at h
      exact List.mem_cons_of_mem _ (ih h)

theorem bind_ok_exc {e a b2 : Type} (x : a) (f : a → Except e b2) :
    (Except.ok x : Except e a) >>= f = f x := rfl

theorem bind_err_exc {e a b2 : Type} (err : e) (f : a → Except e b2) :
    (Except.error err : Except e a) >>= f = Except.error err := rfl

theorem map_ok_exc {e a b2 : Type} (f : a → b2) (x : a) :
    Except.map f (.ok x : Except e a) = .ok (f x) := rfl

theorem map_err_exc {e a b2 : Type} (f : a → b2) (err : e) :
    Except.map f (.error err : Except e a) = .error err := rfl

end Posers

namespace Posers

theorem lt_takeWhile_iff {α : Type} (q : α → Bool) :
    ∀ (l : List α) (j : Nat), j ≤ (l.takeWhile q).length ↔
      (j ≤ l.length ∧ ∀ i, i < j → ∀ x, l.get? i = some x → q x) := by
  intro l
  induction l with
  | nil =>
    intro j
    simp [List.takeWhile]
  | cons c cs ih =>
    intro j
    cases j with
    | zero => simp
    | succ j' =>
      simp only [List.takeWhile]
      cases hq : q c with
      | false =>
        simp only [List.length_nil]
        constructor
        · intro h; omega
        · intro ⟨h1, h2⟩
          have := h2 0 (by omega) c rfl
          rw [hq] at this
          exact absurd this (by simp)
      | true =>
        simp only [List.length_cons]
        rw [Nat.succ_le_succ_iff, ih j']
        constructor
        · intro ⟨h1, h2⟩
          refine ⟨by simp; omega, ?_⟩
          intro i hi x hx
          cases i with
          | zero =>
            simp only [List.get?] at hx
            cases hx
            exact hq
          | succ i' =>
            exact h2 i' (by omega) x hx
        · intro ⟨h1, h2⟩
          refine ⟨by simp at h1; omega, ?_⟩
          intro i hi x hx
          exact h2 (i + 1) (by omega) x hx

theorem mem_plusEnds {s : Str} {pos p : Nat} :
    p ∈ plusEnds s pos ↔
      (pos < p ∧ p ≤ s.length ∧
        ∀ i, pos ≤ i → i < p → s.get? i ≠ some '\n') := by
  unfold plusEnds
  simp only [List.mem_map, List.mem_range]
  constructor
  · intro ⟨k, hk, hp⟩
    have h1 : k + 1 ≤ ((s.drop pos).takeWhile (fun c => c ≠ '\n')).length := by omega
    rw [lt_takeWhile_iff] at h1
    obtain ⟨h2, h3⟩ := h1
    refine ⟨by omega, by simp at h2; omega, ?_⟩
    intro i hi1 hi2 hcon
    have h4 := h3 (i - pos) (by omega) '\n'
      (by rw [List.get?_drop]; rw [show pos + (i - pos) = i by omega]; exact hcon)
    simp at h4
  · intro ⟨h1, h2, h3⟩
    refine ⟨p - pos - 1, ?_, by omega⟩
    have h4 : (p - pos) ≤ ((s.drop pos).takeWhile (fun c => c ≠ '\n')).length := by
      rw [lt_takeWhile_iff]
      refine ⟨by simp; omega, ?_⟩
      intro i hi x hx
      rw [List.get?_drop] at hx
      have := h3 (pos + i) (by omega) (by omega)
      simp only [ne_eq, decide_not]
      by_cases hxn : x = '\n'
      · subst hxn; exact absurd hx this
      · simp [hxn]
    omega

end Posers

namespace Posers

theorem matcherInd (P : RElem → Prop) (Q : List RElem → Prop)
    (hlit : ∀ c, P (.lit c)) (hdot : P .dotAny) (hplus : P .anyPlusLazy)
    (hgrp : ∀ n sub, Q sub → P (.grp n sub))
    (hncap : ∀ sub, Q sub → P (.ncap sub))
    (hopt : ∀ sub, Q sub → P (.opt sub))
    (href : ∀ n, P (.refp n)) (hbos : P .bos) (heos : P .eos)
    (hnil : Q []) (hcons : ∀ e rest, P e → Q rest → Q (e :: rest)) :
    (∀ e, P e) ∧ (∀ ps, Q ps) := by
  have aux : ∀ n : Nat, (∀ e : RElem, sizeOf e ≤ n → P e) ∧
      (∀ ps : List RElem, sizeOf ps ≤ n → Q ps) := by
    intro n
    induction n with
    | zero =>
      constructor
      · intro e he
        exact absurd he (by cases e <;> simp <;> omega)
      · intro ps hps
        exact absurd hps (by cases ps <;> simp <;> omega)
    | succ n ih =>
      constructor
      · intro e he
        cases e with
        | lit c => exact hlit c
        | dotAny => exact hdot
        | anyPlusLazy => exact hplus
        | grp nm sub =>
          refine hgrp nm sub (ih.2 sub ?_)
          simp only [RElem.grp.sizeOf_spec] at he
          omega
        | ncap sub =>
          refine hncap sub (ih.2 sub ?_)
          simp only [RElem.ncap.sizeOf_spec] at he
          omega
        | opt sub =>
          refine hopt sub (ih.2 sub ?_)
          simp only [RElem.opt.sizeOf_spec] at he
          omega
        | refp nm => exact href nm
        | bos => exact hbos
        | eos => exact heos
      · intro ps hps
        cases ps with
        | nil => exact hnil
        | cons e rest =>
          simp only [List.cons.sizeOf_spec] at hps
          refine hcons e rest (ih.1 e ?_) (ih.2 rest ?_) <;> omega
  exact ⟨fun e => (aux (sizeOf e)).1 e (le_refl _),
         fun ps => (aux (sizeOf ps)).2 ps (le_refl _)⟩

theorem matcher_pos_le (s : Str) :
    (∀ e pos cs, ∀ r ∈ elemRes s e pos cs, pos ≤ r.1) ∧
    (∀ ps pos cs, ∀ r ∈ seqRes s ps pos cs, pos ≤ r.1) := by
  refine matcherInd
    (fun e => ∀ pos cs, ∀ r ∈ elemRes s e pos cs, pos ≤ r.1)
    (fun ps => ∀ pos cs, ∀ r ∈ seqRes s ps pos cs, pos ≤ r.1)
    ?_ ?_ ?_ ?_ ?_ ?_ ?_ ?_ ?_ ?_ ?_
  · intro c pos cs r hr
    simp only [elemRes] at hr
    split at hr
    · simp only [List.mem_singleton] at hr
      simp [hr]
    · simp at hr
  · intro pos cs r hr
    simp only [elemRes] at hr
    split at hr
    next c heq =>
      split at hr
      · simp only [List.mem_singleton] at hr
        simp [hr]
      · simp at hr
    next => simp at hr
  · intro pos cs r hr
    simp only [elemRes, List.mem_map] at hr
    obtain ⟨p, hp, hr⟩ := hr
    rw [mem_plusEnds] at hp
    rw [← hr]
    omega
  · intro n sub ihsub pos cs r hr
    simp only [elemRes, List.mem_map] at hr
    obtain ⟨r', hr', hmap⟩ := hr
    have := ihsub pos cs r' hr'
    rw [← hmap]
    exact this
  · intro sub ihsub pos cs r hr
    exact ihsub pos cs r hr
  · intro sub ihsub pos cs r hr
    simp only [elemRes, List.mem_append] at hr
    rcases hr with hr | hr
    · exact ihsub pos cs r hr
    · simp only [List.mem_singleton] at hr
      simp [hr]
  · intro n pos cs r hr
    simp only [elemRes] at hr
    split at hr
    next => simp at hr
    next t0 heq =>
      split at hr
      · simp only [List.mem_singleton] at hr
        simp [hr]
      · simp at hr
  · intro pos cs r hr
    simp only [elemRes] at hr
    split at hr
    · simp only [List.mem_singleton] at hr
      simp [hr]
    · simp at hr
  · intro pos cs r hr
    simp only [elemRes] at hr
    split at hr
    · simp only [List.mem_singleton] at hr
      simp [hr]
    · simp at hr
  · intro pos cs r hr
    simp only [seqRes, List.mem_singleton] at hr
    simp [hr]
  · intro e rest ihe ihrest pos cs r hr
    simp only [seqRes, List.mem_flatMap] at hr
    obtain ⟨r1, hr1, hr⟩ := hr
    exact le_trans (ihe pos cs r1 hr1) (ihrest r1.1 r1.2 r hr)

end Posers

namespace Posers

theorem slice_append_eq {s t : Str} {pos k : Nat} (h : pos + k ≤ s.length) :
    ((s ++ t).drop pos).take k = (s.drop pos).take k := by
  rw [List.drop_append_of_le_length (by omega)]
  rw [List.take_append_of_le_length (by simp [List.length_drop]; omega)]

theorem get?_append_left {s t : Str} {i : Nat} (h : i < s.length) :
    (s ++ t).get? i = s.get? i :=
  List.get?_append h

/-- The matcher over an extended string agrees with the matcher over the
original on runs staying inside the original, for anchor-free patterns;
and runs of anchor-free patterns never leave the string. -/
theorem matcher_ext (s t : Str) :
    (∀ e, noAnchorE e = true → ∀ pos cs, pos ≤ s.length → ∀ r,
      ((r ∈ elemRes (s ++ t) e pos cs ∧ r.1 ≤ s.length) ↔ r ∈ elemRes s e pos cs) ∧
      (r ∈ elemRes s e pos cs → r.1 ≤ s.length)) ∧
    (∀ ps, noAnchorL ps = true → ∀ pos cs, pos ≤ s.length → ∀ r,
      ((r ∈ seqRes (s ++ t) ps pos cs ∧ r.1 ≤ s.length) ↔ r ∈ seqRes s ps pos cs) ∧
      (r ∈ seqRes s ps pos cs → r.1 ≤ s.length)) := by
  refine matcherInd
    (fun e => noAnchorE e = true → ∀ pos cs, pos ≤ s.length → ∀ r,
      ((r ∈ elemRes (s ++ t) e pos cs ∧ r.1 ≤ s.length) ↔ r ∈ elemRes s e pos cs) ∧
      (r ∈ elemRes s e pos cs → r.1 ≤ s.length))
    (fun ps => noAnchorL ps = true → ∀ pos cs, pos ≤ s.length → ∀ r,
      ((r ∈ seqRes (s ++ t) ps pos cs ∧ r.1 ≤ s.length) ↔ r ∈ seqRes s ps pos cs) ∧
      (r ∈ seqRes s ps pos cs → r.1 ≤ s.length))
    ?_ ?_ ?_ ?_ ?_ ?_ ?_ ?_ ?_ ?_ ?_
  -- lit
  · intro c _ pos cs hpos r
    constructor
    · constructor
      · rintro ⟨hin, hle⟩
        simp only [elemRes] at hin ⊢
        split at hin
        next hg =>
          simp only [List.mem_singleton] at hin
          subst hin
          simp only [List.length_cons] at hle
          have hlt : pos < s.length := by omega
          rw [get?_append_left hlt] at hg
          rw [List.get?_eq_getElem?] at hg
          simp [hg]
        next => simp at hin
      · intro hin
        simp only [elemRes] at hin ⊢
        split at hin
        next hg =>
          simp only [List.mem_singleton] at hin
          subst hin
          have hlt : pos < s.length := by
            rcases List.get?_eq_some.mp hg with ⟨h1, _⟩
            exact h1
          rw [if_pos (by rw [get?_append_left hlt]; exact hg)]
          simp
          omega
        next => simp at hin
    · intro hin
      simp only [elemRes] at hin
      split at hin
      next hg =>
        simp only [List.mem_singleton] at hin
        subst hin
        rcases List.get?_eq_some.mp hg with ⟨h1, _⟩
        simp
        omega
      next => simp at hin
  -- dotAny
  · intro _ pos cs hpos r
    constructor
    · constructor
      · rintro ⟨hin, hle⟩
        simp only [elemRes] at hin ⊢
        split at hin
        next c hg =>
          split at hin
          next hnl =>
            simp only [List.mem_singleton] at hin
            subst hin
            simp only [List.length_cons] at hle
            have hlt : pos < s.length := by omega
            rw [get?_append_left hlt] at hg
            rw [hg]
            simp [hnl]
          next => simp at hin
        next => simp at hin
      · intro hin
        simp only [elemRes] at hin ⊢
        split at hin
        next c hg =>
          split at hin
          next hnl =>
            simp only [List.mem_singleton] at hin
            subst hin
            have hlt : pos < s.length := by
              rcases List.get?_eq_some.mp hg with ⟨h1, _⟩
              exact h1
            rw [get?_append_left hlt, hg]
            simp [hnl]
            omega
          next => simp at hin
        next => simp at hin
    · intro hin
      simp only [elemRes] at hin
      split at hin
      next c hg =>
        split at hin
        next =>
          simp only [List.mem_singleton] at hin
          subst hin
          rcases List.get?_eq_some.mp hg with ⟨h1, _⟩
          simp
          omega
        next => simp at hin
      next => simp at hin
  -- anyPlusLazy
  · intro _ pos cs hpos r
    constructor
    · constructor
      · rintro ⟨hin, hle⟩
        simp only [elemRes, List.mem_map] at hin ⊢
        obtain ⟨p, hp, hr⟩ := hin
        rw [mem_plusEnds] at hp
        refine ⟨p, ?_, hr⟩
        rw [mem_plusEnds]
        have hple : p ≤ s.length := by rw [← hr] at hle; exact hle
        refine ⟨hp.1, hple, ?_⟩
        intro i hi1 hi2
        have := hp.2.2 i hi1 hi2
        rw [get?_append_left (by omega)] at this
        exact this
      · intro hin
        simp only [elemRes, List.mem_map] at hin ⊢
        obtain ⟨p, hp, hr⟩ := hin
        rw [mem_plusEnds] at hp
        constructor
        · refine ⟨p, ?_, hr⟩
          rw [mem_plusEnds]
          refine ⟨hp.1, by simp; omega, ?_⟩
          intro i hi1 hi2
          rw [get?_append_left (by omega)]
          exact hp.2.2 i hi1 hi2
        · rw [← hr]
          exact hp.2.1
    · intro hin
      simp only [elemRes, List.mem_map] at hin
      obtain ⟨p, hp, hr⟩ := hin
      rw [mem_plusEnds] at hp
      rw [← hr]
      exact hp.2.1
  -- grp
  · intro n sub ihsub hna pos cs hpos r
    have hposle := (matcher_pos_le (s ++ t)).2 sub pos cs
    have hih := ihsub hna pos cs hpos
    constructor
    · constructor
      · rintro ⟨hin, hle⟩
        simp only [elemRes, List.mem_map] at hin ⊢
        obtain ⟨r', hr', hmap⟩ := hin
        have hr'le : r'.1 ≤ s.length := by
          rw [← hmap] at hle
          exact hle
        have hsmall : r' ∈ seqRes s sub pos cs := ((hih r').1).mp ⟨hr', hr'le⟩
        refine ⟨r', hsmall, ?_⟩
        rw [← hmap]
        have hsl : ((s ++ t).drop pos).take (r'.1 - pos) = (s.drop pos).take (r'.1 - pos) :=
          slice_append_eq (by omega)
        rw [hsl]
      · intro hin
        simp only [elemRes, List.mem_map] at hin ⊢
        obtain ⟨r', hr', hmap⟩ := hin
        have hr'le : r'.1 ≤ s.length := (hih r').2 hr'
        have hbig : r' ∈ seqRes (s ++ t) sub pos cs := (((hih r').1).mpr hr').1
        constructor
        · refine ⟨r', hbig, ?_⟩
          rw [← hmap]
          have hsl : ((s ++ t).drop pos).take (r'.1 - pos) = (s.drop pos).take (r'.1 - pos) :=
            slice_append_eq (by omega)
          rw [hsl]
        · rw [← hmap]
          exact hr'le
    · intro hin
      simp only [elemRes, List.mem_map] at hin
      obtain ⟨r', hr', hmap⟩ := hin
      have := (hih r').2 hr'
      rw [← hmap]
      exact this
  -- ncap
  · intro sub ihsub hna pos cs hpos r
    exact ihsub hna pos cs hpos r
  -- opt
  · intro sub ihsub hna pos cs hpos r
    have hih := ihsub hna pos cs hpos
    constructor
    · constructor
      · rintro ⟨hin, hle⟩
        simp only [elemRes, List.mem_append] at hin ⊢
        rcases hin with hin | hin
        · exact Or.inl (((hih r).1).mp ⟨hin, hle⟩)
        · exact Or.inr hin
      · intro hin
        simp only [elemRes, List.mem_append] at hin ⊢
        rcases hin with hin | hin
        · have := ((hih r).1).mpr hin
          exact ⟨Or.inl this.1, this.2⟩
        · simp only [List.mem_singleton] at hin
          subst hin
          exact ⟨Or.inr (by simp), hpos⟩
    · intro hin
      simp only [elemRes, List.mem_append] at hin
      rcases hin with hin | hin
      · exact (hih r).2 hin
      · simp only [List.mem_singleton] at hin
        subst hin
        exact hpos
  -- refp
  · intro n _ pos cs hpos r
    constructor
    · constructor
      · rintro ⟨hin, hle⟩
        simp only [elemRes] at hin ⊢
        split at hin
        next => simp at hin
        next t0 heq =>
          split at hin
          next htake =>
            simp only [List.mem_singleton] at hin
            subst hin
            simp only at hle
            have hsl : ((s ++ t).drop pos).take t0.length = (s.drop pos).take t0.length :=
              slice_append_eq (by omega)
            rw [hsl] at htake
            rw [if_pos htake]
            simp
          next => simp at hin
      · intro hin
        simp only [elemRes] at hin ⊢
        split at hin
        next => simp at hin
        next t0 heq =>
          split at hin
          next htake =>
            simp only [List.mem_singleton] at hin
            subst hin
            have hlen : t0.length ≤ s.length - pos := by
              have := congrArg List.length htake
              simp only [List.length_take, List.length_drop] at this
              omega
            have hsl : ((s ++ t).drop pos).take t0.length = (s.drop pos).take t0.length :=
              slice_append_eq (by omega)
            rw [hsl, if_pos htake]
            simp
            omega
          next => simp at hin
    · intro hin
      simp only [elemRes] at hin
      split at hin
      next => simp at hin
      next t0 heq =>
        split at hin
        next htake =>
          simp only [List.mem_singleton] at hin
          subst hin
          have hlen : t0.length ≤ s.length - pos := by
            have := congrArg List.length htake
            simp only [List.length_take, List.length_drop] at this
            omega
          simp
          omega
        next => simp at hin
  -- bos
  · intro h
    simp [noAnchorE] at h
  -- eos
  · intro h
    simp [noAnchorE] at h
  -- nil
  · intro _ pos cs hpos r
    constructor
    · constructor
      · rintro ⟨hin, _⟩
        simpa [seqRes] using hin
      · intro hin
        simp only [seqRes, List.mem_singleton] at hin ⊢
        subst hin
        exact ⟨by simp, hpos⟩
    · intro hin
      simp only [seqRes, List.mem_singleton] at hin
      subst hin
      exact hpos
  -- cons
  · intro e rest ihe ihrest hna pos cs hpos r
    simp only [noAnchorL, Bool.and_eq_true] at hna
    obtain ⟨hnae, hnar⟩ := hna
    constructor
    · constructor
      · rintro ⟨hin, hle⟩
        simp only [seqRes, List.mem_flatMap] at hin ⊢
        obtain ⟨r1, hr1, hr⟩ := hin
        have hmono1 : pos ≤ r1.1 := (matcher_pos_le (s ++ t)).1 e pos cs r1 hr1
        have hmono2 : r1.1 ≤ r.1 := (matcher_pos_le (s ++ t)).2 rest r1.1 r1.2 r hr
        have hr1le : r1.1 ≤ s.length := by omega
        have hsmall1 : r1 ∈ elemRes s e pos cs :=
          ((ihe hnae pos cs hpos r1).1).mp ⟨hr1, hr1le⟩
        have hsmall2 : r ∈ seqRes s rest r1.1 r1.2 :=
          ((ihrest hnar r1.1 r1.2 hr1le r).1).mp ⟨hr, hle⟩
        exact ⟨r1, hsmall1, hsmall2⟩
      · intro hin
        simp only [seqRes, List.mem_flatMap] at hin ⊢
        obtain ⟨r1, hr1, hr⟩ := hin
        have hr1le : r1.1 ≤ s.length := (ihe hnae pos cs hpos r1).2 hr1
        have hbig1 : r1 ∈ elemRes (s ++ t) e pos cs :=
          (((ihe hnae pos cs hpos r1).1).mpr hr1).1
        have hih2 := (ihrest hnar r1.1 r1.2 hr1le r).1.mpr hr
        exact ⟨⟨r1, hbig1, hih2.1⟩, hih2.2⟩
    · intro hin
      simp only [seqRes, List.mem_flatMap] at hin
      obtain ⟨r1, hr1, hr⟩ := hin
      have hr1le : r1.1 ≤ s.length := (ihe hnae pos cs hpos r1).2 hr1
      exact ((ihrest hnar r1.1 r1.2 hr1le r).1.mpr hr).2

theorem seqRes_anchored (name : Str) (ps : List RElem) :
    seqRes name [.bos, .ncap ps, .eos] 0 [] =
      (seqRes name ps 0 []).flatMap
        (fun r => if r.1 = name.length ∨
            (r.1 + 1 = name.length ∧ name.get? r.1 = some '\n') then
            [(r.1, r.2)] else []) := by
  show (elemRes name .bos 0 []).flatMap _ = _
  have h1 : elemRes name .bos 0 [] = [(0, [])] := by
    simp [elemRes]
  rw [h1]
  simp only [List.flatMap_cons, List.flatMap_nil, List.append_nil]
  show (elemRes name (.ncap ps) 0 []).flatMap _ = _
  show (seqRes name ps 0 []).flatMap _ = _
  congr 1
  funext r
  show (elemRes name .eos r.1 r.2).flatMap _ = _
  by_cases hc : r.1 = name.length ∨ (r.1 + 1 = name.length ∧ name.get? r.1 = some '\n')
  · rw [if_pos hc]
    simp only [elemRes, if_pos hc]
    rfl
  · rw [if_neg hc]
    simp only [elemRes, if_neg hc]
    rfl

theorem getLast?_of_get? {l : Str} {c : Char} (h : l.get? (l.length - 1) = some c)
    (hne : l ≠ []) : l.getLast? = some c := by
  rw [List.getLast?_eq_getElem?]
  rw [List.get?_eq_getElem?] at h
  exact h

theorem get?_of_getLast? {l : Str} {c : Char} (h : l.getLast? = some c) :
    l.get? (l.length - 1) = some c := by
  rw [List.getLast?_eq_getElem?] at h
  rw [List.get?_eq_getElem?]
  exact h

/-- C3 amended: `match` anchors the convention as `^(nc)$`, so it
returns a match exactly when the whole of the name — or the name minus a
single trailing newline, which Python's `$` also accepts — matches the
generated convention; and `parse` returns the match's named-group dict
when `match` succeeds and `None` when it does not. -/
theorem match_anchoring (anc : List BrCfg) (self : BrCfg) (parents : Bool)
    (mount platform : Option Str) (nc : Str) (ps : List RElem) (name : Str)
    (hconv : getConvention anc self parents mount platform false = .ok nc)
    (hhome : nc.head? ≠ some '~')
    (hanch : parseTop (('^' :: '(' :: nc) ++ [')', '$']) =
      some [.bos, .ncap ps, .eos])
    (hna : noAnchorL ps = true) :
    ((∃ m, matchB anc self parents mount platform name = .ok (some m)) ↔
      ((∃ r ∈ seqRes name ps 0 [], r.1 = name.length) ∨
       (name.getLast? = some '\n' ∧
        ∃ r ∈ seqRes name.dropLast ps 0 [], r.1 = name.dropLast.length))) ∧
    (parseB anc self parents mount platform name =
      (matchB anc self parents mount platform name).map
        (fun o => o.map (fun m => groupdictOf [.bos, .ncap ps, .eos] m.2))) := by
  have hmB : matchB anc self parents mount platform name =
      .ok (seqRes name [.bos, .ncap ps, .eos] 0 []).head? := by
    unfold matchB
    rw [hconv]
    show (match reMatchStr
        (('^' :: '(' :: (if nc.head? = some '~' then homeDir ++ nc.tail else nc)) ++
          [')', '$']) name with
      | Except.error _ => (Except.error MErr.compileErr : Except MErr _)
      | Except.ok m => Except.ok m) = _
    rw [if_neg hhome]
    unfold reMatchStr
    rw [hanch]
  have hpB : parseB anc self parents mount platform name =
      .ok ((seqRes name [.bos, .ncap ps, .eos] 0 []).head?.map
        (fun m => groupdictOf [.bos, .ncap ps, .eos] m.2)) := by
    unfold parseB
    rw [hconv]
    show (match parseTop
        (('^' :: '(' :: (if nc.head? = some '~' then homeDir ++ nc.tail else nc)) ++
          [')', '$']) with
      | none => (Except.error MErr.compileErr : Except MErr _)
      | some ps2 =>
        match (seqRes name ps2 0 []).head? with
        | some r => Except.ok (some (groupdictOf ps2 r.2))
        | none => Except.ok none) = _
    rw [if_neg hhome, hanch]
    show (match (seqRes name [RElem.bos, RElem.ncap ps, RElem.eos] 0 []).head? with
      | some r =>
        Except.ok (some (groupdictOf [RElem.bos, RElem.ncap ps, RElem.eos] r.2))
      | none => (Except.ok none : Except MErr _)) = _
    cases hh : (seqRes name [RElem.bos, RElem.ncap ps, RElem.eos] 0 []).head? with
    | some r => rfl
    | none => rfl
  constructor
  · rw [hmB]
    have hne : (∃ m, (Except.ok (seqRes name [.bos, .ncap ps, .eos] 0 []).head? :
        Except MErr _) = .ok (some m)) ↔
        seqRes name [.bos, .ncap ps, .eos] 0 [] ≠ [] := by
      cases hL : seqRes name [.bos, .ncap ps, .eos] 0 [] with
      | nil => simp
      | cons x xs => simp
    rw [hne, seqRes_anchored]
    have hmem : ((seqRes name ps 0 []).flatMap
        (fun r => if r.1 = name.length ∨
            (r.1 + 1 = name.length ∧ name.get? r.1 = some '\n') then
            [(r.1, r.2)] else []) ≠ []) ↔
        ∃ r ∈ seqRes name ps 0 [],
          (r.1 = name.length ∨
            (r.1 + 1 = name.length ∧ name.get? r.1 = some '\n')) := by
      constructor
      · intro h
        obtain ⟨x, hx⟩ := List.exists_mem_of_ne_nil _ h
        rw [List.mem_flatMap] at hx
        obtain ⟨r, hr, hxr⟩ := hx
        refine ⟨r, hr, ?_⟩
        by_contra hc
        rw [if_neg hc] at hxr
        simp at hxr
      · rintro ⟨r, hr, hc⟩
        intro h0
        have hx : (r.1, r.2) ∈ (seqRes name ps 0 []).flatMap
            (fun r => if r.1 = name.length ∨
                (r.1 + 1 = name.length ∧ name.get? r.1 = some '\n') then
                [(r.1, r.2)] else []) := by
          rw [List.mem_flatMap]
          refine ⟨r, hr, ?_⟩
          rw [if_pos hc]
          simp
        rw [h0] at hx
        simp at hx
    rw [hmem]
    constructor
    · rintro ⟨r, hr, hc | ⟨h1, h2⟩⟩
      · exact Or.inl ⟨r, hr, hc⟩
      · right
        have hnn : name ≠ [] := by
          intro h
          subst h
          rw [List.length_nil] at h1
          omega
        have hlast : name.getLast? = some '\n' := by
          apply getLast?_of_get? _ hnn
          have he : name.length - 1 = r.1 := by omega
          rw [he]
          exact h2
        refine ⟨hlast, ?_⟩
        have hdec : name.dropLast ++ [name.getLast hnn] = name :=
          List.dropLast_append_getLast hnn
        have hlen : name.dropLast.length = r.1 := by
          rw [List.length_dropLast]
          omega
        have hext := (matcher_ext name.dropLast [name.getLast hnn]).2 ps hna 0 []
          (Nat.zero_le _) r
        have hrin : r ∈ seqRes (name.dropLast ++ [name.getLast hnn]) ps 0 [] := by
          rw [hdec]
          exact hr
        exact ⟨r, (hext.1).mp ⟨hrin, by omega⟩, hlen.symm⟩
    · rintro (⟨r, hr, hc⟩ | ⟨hlast, r, hr, hc⟩)
      · exact ⟨r, hr, Or.inl hc⟩
      · have hnn : name ≠ [] := by
          intro h
          subst h
          simp at hlast
        have hdec : name.dropLast ++ [name.getLast hnn] = name :=
          List.dropLast_append_getLast hnn
        have hext := (matcher_ext name.dropLast [name.getLast hnn]).2 ps hna 0 []
          (Nat.zero_le _) r
        have hrin2 : r ∈ seqRes (name.dropLast ++ [name.getLast hnn]) ps 0 [] :=
          ((hext.1).mpr hr).1
        rw [hdec] at hrin2
        have hpos : 0 < name.length := List.length_pos.mpr hnn
        have hlen2 : name.dropLast.length = name.length - 1 :=
          List.length_dropLast name
        refine ⟨r, hrin2, Or.inr ⟨by omega, ?_⟩⟩
        have hg := get?_of_getLast? hlast
        have he : r.1 = name.length - 1 := by omega
        rw [he]
        exact hg
  · rw [hpB, hmB]
    rfl

theorem match_anchoring_witness :
    getConvention [] cfgLit false none (some ("linux".toList)) false =
      .ok ("a".toList) ∧
    (((∃ m, matchB [] cfgLit false none (some ("linux".toList)) ("a".toList) =
        .ok (some m)) ↔
      ((∃ r ∈ seqRes ("a".toList) [.lit 'a'] 0 [], r.1 = ("a".toList).length) ∨
       (("a".toList).getLast? = some '\n' ∧
        ∃ r ∈ seqRes ("a".toList).dropLast [.lit 'a'] 0 [],
          r.1 = (("a".toList).dropLast).length))) ∧
     (parseB [] cfgLit false none (some ("linux".toList)) ("a".toList) =
       (matchB [] cfgLit false none (some ("linux".toList)) ("a".toList)).map
         (fun o => o.map
           (fun m => groupdictOf [.bos, .ncap [.lit 'a'], .eos] m.2)))) :=
  ⟨by simp +decide [getConvention],
   match_anchoring [] cfgLit false none (some ("linux".toList)) ("a".toList)
     [.lit 'a'] ("a".toList)
     (by simp +decide [getConvention]) (by decide) (by rfl) (by rfl)⟩

/-! ## Scanner computation on rendered conventions -/

theorem ngpAt_ne_lparen {c : Char} (cs : Str) (hc : c ≠ '(') :
    ngpAt (c :: cs) = none := by
  unfold ngpAt
  have hl1 : ("(?P<".toList) = '(' :: '?' :: 'P' :: '<' :: [] := rfl
  have hl2 : ("(?P=".toList) = '(' :: '?' :: 'P' :: '=' :: [] := rfl
  rw [hl1, hl2]
  simp [dropPre, hc]

theorem optAt_ne_lparen {c : Char} (cs : Str) (hc : c ≠ '(') :
    optAt (c :: cs) = none := by
  unfold optAt
  have hl : ("(?:".toList) = '(' :: '?' :: ':' :: [] := rfl
  rw [hl]
  simp [dropPre, hc]

theorem optAt_lparen_ne_q (X : Str) (hX : X.head? ≠ some '?') :
    optAt ('(' :: X) = none := by
  unfold optAt
  have hl : ("(?:".toList) = '(' :: '?' :: ':' :: [] := rfl
  rw [hl]
  cases X with
  | nil => simp [dropPre]
  | cons c cs =>
    have hc : c ≠ '?' := by simpa using hX
    simp [dropPre, hc]

theorem optAt_ngp_start (cs : Str) : optAt ('(' :: '?' :: 'P' :: cs) = none := by
  unfold optAt
  have hl : ("(?:".toList) = '(' :: '?' :: ':' :: [] := rfl
  rw [hl]
  simp +decide [dropPre]

theorem skip_of_no_lparen {b : Type} {pat : Str → Option (b × Str)}
    (pat0 : ∀ (c : Char) (cs : Str), c ≠ '(' → pat (c :: cs) = none)
    (s t : Str) (h : ∀ c ∈ s, c ≠ '(') :
    ∀ i, i < s.length → pat (s.drop i ++ t) = none := by
  intro i hi
  have hd : s.drop i = s[i] :: s.drop (i + 1) := List.drop_eq_getElem_cons hi
  rw [hd, List.cons_append]
  exact pat0 _ _ (h _ (s.getElem_mem hi))

theorem nameGo_render (stop : Char) (hstop : isWordChar stop = false) :
    ∀ (n acc t : Str), n.all isWordChar = true →
      nameGo stop (n ++ stop :: t) acc = some (acc.reverse ++ n, t) := by
  intro n
  induction n with
  | nil =>
    intro acc t _
    simp [nameGo]
  | cons c n' ih =>
    intro acc t hall
    simp only [List.all_cons, Bool.and_eq_true] at hall
    have hcs : c ≠ stop := by
      intro h
      rw [h, hstop] at hall
      exact absurd hall.1 (by simp)
    simp only [List.cons_append, nameGo, if_neg hcs, hall.1, if_pos,
      List.append_eq]
    rw [ih (c :: acc) t hall.2]
    simp

theorem nameScan_render (stop : Char) (hstop : isWordChar stop = false)
    (n t : Str) (hn : nameOK n = true) :
    nameScan stop (n ++ stop :: t) = some (n, t) := by
  cases n with
  | nil => simp [nameOK] at hn
  | cons c cs =>
    simp only [nameOK, Bool.and_eq_true] at hn
    simp only [List.cons_append, nameScan, hn.1, if_pos, List.append_eq]
    rw [nameGo_render stop hstop cs [c] t hn.2]
    simp

theorem ne_of_pred {α : Type} {f : α → Bool} {c d : α} (h : f c = true)
    (hd : f d = false) : c ≠ d := by
  intro he
  rw [he, hd] at h
  exact absurd h (by simp)

theorem ruleOK_chars {r : Str} (hr : ruleOK r = true) :
    r ≠ [] ∧ ∀ c ∈ r, c ≠ ')' ∧ c ≠ '(' ∧ c ≠ '\n' ∧ c ≠ '\\' := by
  simp only [ruleOK, Bool.and_eq_true, List.all_eq_true, Bool.not_eq_true',
    Bool.or_eq_false_iff, decide_eq_false_iff_not] at hr
  constructor
  · intro he
    rw [he] at hr
    simp at hr
  · intro c hc
    have := hr.2 c hc
    exact ⟨this.1.1.1, this.1.1.2, this.1.2, this.2⟩

theorem nameOK_chars {n : Str} (hn : nameOK n = true) :
    n ≠ [] ∧ ∀ c ∈ n, isWordChar c = true := by
  cases n with
  | nil => simp [nameOK] at hn
  | cons c cs =>
    simp only [nameOK, Bool.and_eq_true, List.all_eq_true] at hn
    refine ⟨by simp, ?_⟩
    intro x hx
    rcases List.mem_cons.mp hx with h | h
    · subst h
      have : isNameStart x = true := hn.1
      simp only [isNameStart, isWordChar, Bool.or_eq_true] at this ⊢
      rcases this with h2 | h2
      · exact Or.inl (by simp [Char.isAlphanum, h2])
      · exact Or.inr h2
    · exact hn.2 x h

theorem ruleGo_render :
    ∀ (r acc t : Str), (∀ c ∈ r, c ≠ ')' ∧ c ≠ '\n') →
      ruleGo (r ++ ')' :: t) acc = some (acc.reverse ++ r, t) := by
  intro r
  induction r with
  | nil =>
    intro acc t _
    simp [ruleGo]
  | cons c cs ih =>
    intro acc t hall
    have h1 := hall c (List.mem_cons_self c cs)
    simp only [List.cons_append, ruleGo, if_neg h1.1, if_neg h1.2,
      List.append_eq]
    rw [ih (c :: acc) t (fun x hx => hall x (List.mem_cons_of_mem c hx))]
    simp

theorem ruleScan_render (r t : Str) (hr : ruleOK r = true) :
    ruleScan (r ++ ')' :: t) = some (r, t) := by
  obtain ⟨hne, hch⟩ := ruleOK_chars hr
  cases r with
  | nil => exact absurd rfl hne
  | cons c cs =>
    have h1 := hch c (List.mem_cons_self c cs)
    simp only [List.cons_append, ruleScan, if_neg h1.2.2.1]
    rw [ruleGo_render cs [c] t
      (fun x hx => ⟨(hch x (List.mem_cons_of_mem c hx)).1,
        (hch x (List.mem_cons_of_mem c hx)).2.2.1⟩)]
    simp

theorem ngpAt_fg (n r t : Str) (hn : nameOK n = true) (hr : ruleOK r = true) :
    ngpAt (renderFlat (.fg n r) ++ t) = some (.group n r, t) := by
  have hsh : renderFlat (.fg n r) ++ t =
      ("(?P<".toList) ++ (n ++ '>' :: (r ++ ')' :: t)) := by
    simp [renderFlat]
  rw [hsh]
  unfold ngpAt
  simp only [dropPre_render, nameScan_render '>' (by decide) n (r ++ ')' :: t) hn,
    ruleScan_render r t hr]

theorem ngpAt_fr (n t : Str) (hn : nameOK n = true) :
    ngpAt (renderFlat (.fr n) ++ t) = some (.backref n, t) := by
  have hsh : renderFlat (.fr n) ++ t =
      ("(?P=".toList) ++ (n ++ ')' :: t) := by
    simp [renderFlat]
  rw [hsh]
  unfold ngpAt
  have hfail : dropPre ("(?P<".toList) (("(?P=".toList) ++ (n ++ ')' :: t)) =
      none := by
    have hl1 : ("(?P<".toList) = '(' :: '?' :: 'P' :: '<' :: [] := rfl
    have hl2 : ("(?P=".toList) = '(' :: '?' :: 'P' :: '=' :: [] := rfl
    rw [hl1, hl2]
    simp +decide [dropPre]
  simp only [hfail, dropPre_render, nameScan_render ')' (by decide) n t hn]

theorem renderFlats_cons (it : FlatIt) (rest : List FlatIt) :
    renderFlats (it :: rest) = renderFlat it ++ renderFlats rest := by
  simp [renderFlats]

theorem renderSegs_cons (sg : Seg) (rest : List Seg) :
    renderSegs (sg :: rest) = renderSeg sg ++ renderSegs rest := by
  simp [renderSegs]

theorem findNgp_plainskip (s X : Str) (h : ∀ c ∈ s, plainCharOK c = true) :
    findNgp (s ++ X) =
      (findNgp X).map (fun x => (x.1 + s.length, x.2.1, x.2.2)) := by
  induction s with
  | nil => cases hx : findNgp X <;> simp [hx]
  | cons c s' ih =>
    have hc := h c (List.mem_cons_self c s')
    have hlp : c ≠ '(' := ne_of_pred hc (by decide)
    have hnl : c ≠ '\n' := ne_of_pred hc (by decide)
    simp only [List.cons_append, findNgp, ngpAt_ne_lparen _ hlp, if_neg hnl,
      List.append_eq]
    rw [ih (fun x hx => h x (List.mem_cons_of_mem c hx))]
    cases hx : findNgp X with
    | none => simp
    | some x =>
      simp only [Option.map_some', List.length_cons]
      refine congrArg some ?_
      refine Prod.ext ?_ rfl
      show x.1 + s'.length + 1 = x.1 + (s'.length + 1)
      omega

theorem findCloseQ_chars (s X : Str) (h : ∀ c ∈ s, c ≠ ')' ∧ c ≠ '\n') :
    findCloseQ (s ++ X) = (findCloseQ X).map (· + s.length) := by
  induction s with
  | nil => cases hx : findCloseQ X <;> simp [hx]
  | cons c s' ih =>
    have hc := h c (List.mem_cons_self c s')
    simp only [List.cons_append, findCloseQ, List.append_eq]
    rw [if_neg (fun hh => hc.1 hh.1), if_neg hc.2]
    rw [ih (fun x hx => h x (List.mem_cons_of_mem c hx))]
    cases hx : findCloseQ X with
    | none => simp
    | some x =>
      simp only [Option.map_some', List.length_cons]
      refine congrArg some ?_
      omega

theorem findCloseQ_rparen (X : Str) (hX : X.head? ≠ some '?') :
    findCloseQ (')' :: X) = (findCloseQ X).map (· + 1) := by
  simp only [findCloseQ]
  rw [if_neg (fun hh => hX hh.2), if_neg (by decide : ¬ (')' = '\n'))]

theorem flats_head_not_q (l : List FlatIt) (hok : l.all flatOK = true)
    (t : Str) (ht : t.head? ≠ some '?') :
    (renderFlats l ++ t).head? ≠ some '?' := by
  induction l with
  | nil => simpa [renderFlats] using ht
  | cons it rest ih =>
    simp only [List.all_cons, Bool.and_eq_true] at hok
    rw [renderFlats_cons, List.append_assoc]
    cases it with
    | fplain s =>
      cases s with
      | nil => simpa [renderFlat] using ih hok.2
      | cons c cs =>
        have hc : plainCharOK c = true := by
          have h2 := hok.1
          simp only [flatOK, List.all_cons, Bool.and_eq_true] at h2
          exact h2.1
        have hq : c ≠ '?' := ne_of_pred hc (by decide)
        simp only [renderFlat, List.cons_append, List.head?_cons]
        intro hcon
        exact hq (by injection hcon)
    | fg n r =>
      have hl : renderFlat (.fg n r) = '(' :: ("?P<".toList ++ n ++ ('>' :: r) ++ [')']) := by
        show ("(?P<".toList) ++ n ++ ('>' :: r) ++ [')'] = _
        have h0 : ("(?P<".toList) = '(' :: "?P<".toList := rfl
        rw [h0]
        simp
      rw [hl]
      simp +decide
    | fr n =>
      have hl : renderFlat (.fr n) = '(' :: ("?P=".toList ++ n ++ [')']) := by
        show ("(?P=".toList) ++ n ++ [')'] = _
        have h0 : ("(?P=".toList) = '(' :: "?P=".toList := rfl
        rw [h0]
        simp
      rw [hl]
      simp +decide

theorem fg_pre_chars (n r : Str) (hn : nameOK n = true) (hr : ruleOK r = true) :
    ∀ c ∈ ("(?P<".toList) ++ n ++ '>' :: r, c ≠ ')' ∧ c ≠ '\n' := by
  intro c hc
  have hw := (nameOK_chars hn).2
  have hrr := (ruleOK_chars hr).2
  simp only [List.append_assoc, List.mem_append, List.mem_cons] at hc
  rcases hc with h | h | h | h
  · have h2 : c ∈ ['(', '?', 'P', '<'] := h
    fin_cases h2 <;> exact ⟨by decide, by decide⟩
  · exact ⟨ne_of_pred (hw c h) (by decide), ne_of_pred (hw c h) (by decide)⟩
  · subst h
    exact ⟨by decide, by decide⟩
  · exact ⟨(hrr c h).1, (hrr c h).2.2.1⟩

theorem fr_pre_chars (n : Str) (hn : nameOK n = true) :
    ∀ c ∈ ("(?P=".toList) ++ n, c ≠ ')' ∧ c ≠ '\n' := by
  intro c hc
  have hw := (nameOK_chars hn).2
  simp only [List.mem_append] at hc
  rcases hc with h | h
  · have h2 : c ∈ ['(', '?', 'P', '='] := h
    fin_cases h2 <;> exact ⟨by decide, by decide⟩
  · exact ⟨ne_of_pred (hw c h) (by decide), ne_of_pred (hw c h) (by decide)⟩

theorem findCloseQ_flats :
    ∀ (l : List FlatIt) (t : Str), l.all flatOK = true →
      findCloseQ (renderFlats l ++ ')' :: '?' :: t) =
        some (renderFlats l).length := by
  intro l
  induction l with
  | nil =>
    intro t _
    simp +decide [renderFlats, findCloseQ]
  | cons it rest ih =>
    intro t hok
    simp only [List.all_cons, Bool.and_eq_true] at hok
    rw [renderFlats_cons, List.append_assoc]
    cases it with
    | fplain s =>
      have hch : ∀ c ∈ s, c ≠ ')' ∧ c ≠ '\n' := by
        intro c hc
        have h2 := hok.1
        simp only [flatOK, List.all_eq_true] at h2
        exact ⟨ne_of_pred (h2 c hc) (by decide), ne_of_pred (h2 c hc) (by decide)⟩
      show findCloseQ (s ++ _) = _
      rw [findCloseQ_chars s _ hch, ih t hok.2]
      simp only [Option.map_some', renderFlats_cons]
      refine congrArg some ?_
      simp only [renderFlat, List.length_append]
      omega
    | fg n r =>
      have hok1 := hok.1
      simp only [flatOK, Bool.and_eq_true] at hok1
      have hsh : renderFlat (.fg n r) ++ (renderFlats rest ++ ')' :: '?' :: t) =
          (("(?P<".toList) ++ n ++ '>' :: r) ++
            ')' :: (renderFlats rest ++ ')' :: '?' :: t) := by
        simp [renderFlat]
      rw [hsh]
      rw [findCloseQ_chars _ _ (fg_pre_chars n r hok1.1 hok1.2)]
      rw [findCloseQ_rparen _ (flats_head_not_q rest hok.2 _ (by simp))]
      rw [ih t hok.2]
      simp only [Option.map_some', renderFlats_cons]
      refine congrArg some ?_
      simp only [renderFlat, List.length_append, List.length_cons]
      have hL : ("(?P<".toList).length = 4 := by decide
      have hN : ([] : Str).length = 0 := rfl
      omega
    | fr n =>
      have hok1 : nameOK n = true := by
        have := hok.1
        simpa [flatOK] using this
      have hsh : renderFlat (.fr n) ++ (renderFlats rest ++ ')' :: '?' :: t) =
          (("(?P=".toList) ++ n) ++
            ')' :: (renderFlats rest ++ ')' :: '?' :: t) := by
        simp [renderFlat]
      rw [hsh]
      rw [findCloseQ_chars _ _ (fr_pre_chars n hok1)]
      rw [findCloseQ_rparen _ (flats_head_not_q rest hok.2 _ (by simp))]
      rw [ih t hok.2]
      simp only [Option.map_some', renderFlats_cons]
      refine congrArg some ?_
      simp only [renderFlat, List.length_append, List.length_cons]
      have hL : ("(?P=".toList).length = 4 := by decide
      have hN : ([] : Str).length = 0 := rfl
      omega

theorem findNgp_of_ngpAt {s : Str} {it : NGItem} {rest : Str}
    (h : ngpAt s = some (it, rest)) : findNgp s = some (0, it, rest) := by
  cases s with
  | nil =>
    have hl1 : ("(?P<".toList) = '(' :: '?' :: 'P' :: '<' :: [] := rfl
    have hl2 : ("(?P=".toList) = '(' :: '?' :: 'P' :: '=' :: [] := rfl
    simp [ngpAt, hl1, hl2, dropPre] at h
  | cons c cs => simp [findNgp, h]

theorem findNgp_off_len :
    ∀ {s : Str} {off : Nat} {it : NGItem} {r : Str},
      findNgp s = some (off, it, r) → off + r.length < s.length := by
  intro s
  induction s with
  | nil => intro off it r h; simp [findNgp] at h
  | cons c cs ih =>
    intro off it r h
    simp only [findNgp] at h
    split at h
    next it2 rest heq =>
      simp only [Option.some.injEq, Prod.mk.injEq] at h
      have := ngpAt_len heq
      obtain ⟨h1, _, h3⟩ := h
      subst h3
      subst h1
      simpa using this
    next heq =>
      split at h
      next => exact absurd h (by simp)
      next =>
        cases h3 : findNgp cs with
        | none => simp [h3] at h
        | some x =>
          obtain ⟨o, it2, r2⟩ := x
          simp only [h3, Option.map_some', Option.some.injEq,
            Prod.mk.injEq] at h
          have := ih h3
          obtain ⟨h1, _, h4⟩ := h
          subst h4
          simp only [List.length_cons]
          omega

theorem findNgp_flats :
    ∀ (inner : List FlatIt) (t2 : Str),
      inner.all flatOK = true → flatHasTok inner = true →
      ∃ off it rest2, (rest2 : List FlatIt).all flatOK = true ∧
        findNgp (renderFlats inner ++ t2) =
          some (off, it, renderFlats rest2 ++ t2) := by
  intro inner
  induction inner with
  | nil => intro t2 _ htok; simp [flatHasTok] at htok
  | cons it rest ih =>
    intro t2 hok htok
    simp only [List.all_cons, Bool.and_eq_true] at hok
    rw [renderFlats_cons, List.append_assoc]
    cases it with
    | fplain s =>
      have hpc : ∀ c ∈ s, plainCharOK c = true := by
        have h2 := hok.1
        simpa only [flatOK, List.all_eq_true] using h2
      have htok2 : flatHasTok rest = true := by
        simpa [flatHasTok] using htok
      obtain ⟨off, it2, rest2, hok2, heq⟩ := ih t2 hok.2 htok2
      refine ⟨off + s.length, it2, rest2, hok2, ?_⟩
      show findNgp (s ++ _) = _
      rw [findNgp_plainskip s _ hpc, heq]
      simp

    | fg n r =>
      have hok1 := hok.1
      simp only [flatOK, Bool.and_eq_true] at hok1
      refine ⟨0, .group n r, rest, hok.2, ?_⟩
      exact findNgp_of_ngpAt (ngpAt_fg n r _ hok1.1 hok1.2)
    | fr n =>
      have hok1 : nameOK n = true := by
        have := hok.1
        simpa [flatOK] using this
      refine ⟨0, .backref n, rest, hok.2, ?_⟩
      exact findNgp_of_ngpAt (ngpAt_fr n _ hok1)

theorem optAt_oseg (inner : List FlatIt) (t : Str)
    (hok : inner.all flatOK = true) (htok : flatHasTok inner = true) :
    ∃ it, optAt (renderSeg (.oseg inner) ++ t) =
      some ((renderFlats inner, it), t) := by
  have hsh : renderSeg (.oseg inner) ++ t =
      ("(?:".toList) ++ (renderFlats inner ++ ')' :: '?' :: t) := by
    simp [renderSeg]
  obtain ⟨off, it, rest2, hok2, hfind⟩ :=
    findNgp_flats inner (')' :: '?' :: t) hok htok
  refine ⟨it, ?_⟩
  rw [hsh]
  unfold optAt
  rw [dropPre_render]
  simp only [hfind, findCloseQ_flats rest2 t hok2]
  have hB := findNgp_off_len hfind
  simp only [List.length_append, List.length_cons] at hB
  have h1 : (renderFlats inner ++ ')' :: '?' :: t).take
      (off + ((renderFlats inner ++ ')' :: '?' :: t).length - off -
        (renderFlats rest2 ++ ')' :: '?' :: t).length) +
        (renderFlats rest2).length) = renderFlats inner := by
    have hk : off + ((renderFlats inner ++ ')' :: '?' :: t).length - off -
        (renderFlats rest2 ++ ')' :: '?' :: t).length) +
        (renderFlats rest2).length = (renderFlats inner).length := by
      simp only [List.length_append, List.length_cons]
      omega
    rw [hk]
    exact List.take_left _ _
  have h2 : (renderFlats rest2 ++ ')' :: '?' :: t).drop
      ((renderFlats rest2).length + 2) = t := by
    have hsh2 : renderFlats rest2 ++ ')' :: '?' :: t =
        (renderFlats rest2 ++ [')', '?']) ++ t := by
      simp
    rw [hsh2]
    have hlen : (renderFlats rest2).length + 2 =
        (renderFlats rest2 ++ [')', '?']).length := by
      simp
    rw [hlen, List.drop_left]
  rw [h1, h2]

theorem ngpPass_flats {st e2 : Type} (repl : NGItem → st → Except e2 (Str × st)) :
    ∀ (l : List FlatIt) (t : Str) (acc : st), l.all flatOK = true →
      reSubRun ngpAt repl (renderFlats l ++ t) acc = (do
        let (a, acc2) ← ngpFold repl l acc
        let (b2, acc3) ← reSubRun ngpAt repl t acc2
        (.ok (a ++ b2, acc3) : Except e2 (Str × st))) := by
  have hpat : ∀ (s2 : Str) (m : NGItem) (r2 : Str),
      ngpAt s2 = some (m, r2) → r2.length < s2.length :=
    fun s2 m r2 h => ngpAt_len h
  intro l
  induction l with
  | nil =>
    intro t acc _
    simp only [renderFlats, List.map_nil, List.flatten_nil, List.nil_append,
      ngpFold, bind_ok_exc]
    cases h : reSubRun ngpAt repl t acc with
    | ok x =>
      obtain ⟨b2, a3⟩ := x
      simp [bind_ok_exc]
    | error err => rfl
  | cons it rest ih =>
    intro t acc hok
    simp only [List.all_cons, Bool.and_eq_true] at hok
    rw [renderFlats_cons, List.append_assoc]
    cases it with
    | fplain s =>
      have hskip : ∀ i, i < s.length →
          ngpAt (s.drop i ++ (renderFlats rest ++ t)) = none := by
        apply skip_of_no_lparen (fun c cs hc => ngpAt_ne_lparen cs hc)
        intro c hc
        have h2 := hok.1
        simp only [flatOK, List.all_eq_true] at h2
        exact ne_of_pred (h2 c hc) (by decide)
      show reSubRun ngpAt repl (s ++ (renderFlats rest ++ t)) acc = _
      rw [reSubRun_plain hpat repl s _ acc hskip]
      rw [ih t acc hok.2]
      simp only [ngpFold]
      cases h1 : ngpFold repl rest acc with
      | error err => simp [h1, bind_err_exc]
      | ok x =>
        obtain ⟨a, acc2⟩ := x
        simp only [h1, bind_ok_exc]
        cases h2 : reSubRun ngpAt repl t acc2 with
        | error err => simp [bind_err_exc]
        | ok y =>
          obtain ⟨b2, acc3⟩ := y
          simp [bind_ok_exc]
    | fg n r =>
      have hok1 := hok.1
      simp only [flatOK, Bool.and_eq_true] at hok1
      rw [reSubRun_hit hpat repl (ngpAt_fg n r _ hok1.1 hok1.2) acc]
      simp only [ngpFold]
      cases h1 : repl (.group n r) acc with
      | error err => simp [h1, bind_err_exc]
      | ok x =>
        obtain ⟨rep, acc2⟩ := x
        simp only [h1, bind_ok_exc]
        rw [ih t acc2 hok.2]
        cases h2 : ngpFold repl rest acc2 with
        | error err => simp [bind_err_exc]
        | ok y =>
          obtain ⟨a, acc3⟩ := y
          simp only [bind_ok_exc]
          cases h3 : reSubRun ngpAt repl t acc3 with
          | error err => simp [bind_err_exc]
          | ok z =>
            obtain ⟨b2, acc4⟩ := z
            simp [bind_ok_exc]
    | fr n =>
      have hok1 : nameOK n = true := by
        have := hok.1
        simpa [flatOK] using this
      rw [reSubRun_hit hpat repl (ngpAt_fr n _ hok1) acc]
      simp only [ngpFold]
      cases h1 : repl (.backref n) acc with
      | error err => simp [h1, bind_err_exc]
      | ok x =>
        obtain ⟨rep, acc2⟩ := x
        simp only [h1, bind_ok_exc]
        rw [ih t acc2 hok.2]
        cases h2 : ngpFold repl rest acc2 with
        | error err => simp [bind_err_exc]
        | ok y =>
          obtain ⟨a, acc3⟩ := y
          simp only [bind_ok_exc]
          cases h3 : reSubRun ngpAt repl t acc3 with
          | error err => simp [bind_err_exc]
          | ok z =>
            obtain ⟨b2, acc4⟩ := z
            simp [bind_ok_exc]

theorem ngpFold_items :
    ∀ (l : List FlatIt) (acc : List NGItem),
      ∃ outStr, ngpFold (fun it acc2 =>
          (.ok ([], acc2 ++ [it]) : Except Unit (Str × List NGItem))) l acc =
        .ok (outStr, acc ++ l.filterMap flatItem) := by
  intro l
  induction l with
  | nil =>
    intro acc
    exact ⟨[], by simp [ngpFold]⟩
  | cons it rest ih =>
    intro acc
    cases it with
    | fplain s =>
      obtain ⟨o, ho⟩ := ih acc
      refine ⟨s ++ o, ?_⟩
      simp only [ngpFold, ho, bind_ok_exc]
      simp [flatItem]
    | fg n r =>
      obtain ⟨o, ho⟩ := ih (acc ++ [NGItem.group n r])
      refine ⟨o, ?_⟩
      simp only [ngpFold, bind_ok_exc, ho]
      simp [flatItem]
    | fr n =>
      obtain ⟨o, ho⟩ := ih (acc ++ [NGItem.backref n])
      refine ⟨o, ?_⟩
      simp only [ngpFold, bind_ok_exc, ho]
      simp [flatItem]

theorem itemsOfStr_flats (l : List FlatIt) (hok : l.all flatOK = true) :
    itemsOfStr (renderFlats l) = l.filterMap flatItem := by
  unfold itemsOfStr
  have h0 : renderFlats l = renderFlats l ++ [] := by simp
  rw [h0, ngpPass_flats _ l [] [] hok]
  obtain ⟨o, ho⟩ := ngpFold_items l []
  rw [ho]
  simp only [bind_ok_exc, reSubRun_nil, List.nil_append]

theorem ngpFold_vals (ctx : Ctx) :
    ∀ (l : List FlatIt), l.all (flatValOk ctx) = true →
      ngpFold (fun it (_ : Unit) =>
        match alGet ctx it.name with
        | some (some v) => .ok (v, ())
        | some none => .error MErr.typeErr
        | none => .error (MErr.valueErr it.name)) l () =
      .ok ((l.map (flatSubVal ctx)).flatten, ()) := by
  intro l
  induction l with
  | nil => intro _; simp [ngpFold]
  | cons it rest ih =>
    intro hval
    simp only [List.all_cons, Bool.and_eq_true] at hval
    cases it with
    | fplain s =>
      simp only [ngpFold, ih hval.2, bind_ok_exc]
      simp [flatSubVal]
    | fg n r =>
      have h1 := hval.1
      simp only [flatValOk, flatName] at h1
      cases halg : alGet ctx n with
      | none => rw [halg] at h1; exact absurd h1 (by simp)
      | some vo =>
        cases vo with
        | none => rw [halg] at h1; exact absurd h1 (by simp)
        | some v =>
          simp only [ngpFold]
          rw [show NGItem.name (NGItem.group n r) = n from rfl]
          simp only [halg, bind_ok_exc, ih hval.2]
          simp [flatSubVal, halg]
    | fr n =>
      have h1 := hval.1
      simp only [flatValOk, flatName] at h1
      cases halg : alGet ctx n with
      | none => rw [halg] at h1; exact absurd h1 (by simp)
      | some vo =>
        cases vo with
        | none => rw [halg] at h1; exact absurd h1 (by simp)
        | some v =>
          simp only [ngpFold]
          rw [show NGItem.name (NGItem.backref n) = n from rfl]
          simp only [halg, bind_ok_exc, ih hval.2]
          simp [flatSubVal, halg]

theorem ngpSubVals_flats (l : List FlatIt) (ctx : Ctx)
    (hok : l.all flatOK = true) (hval : l.all (flatValOk ctx) = true) :
    ngpSubVals (renderFlats l) ctx =
      .ok ((l.map (flatSubVal ctx)).flatten) := by
  unfold ngpSubVals
  have h0 : renderFlats l = renderFlats l ++ [] := by simp
  rw [h0, ngpPass_flats _ l [] () hok, ngpFold_vals ctx l hval]
  simp only [bind_ok_exc, reSubRun_nil]
  show Except.map (fun x => x.1)
    (Except.ok ((List.map (flatSubVal ctx) l).flatten ++ [], ())) = _
  rw [List.append_nil]
  rfl

theorem any_bad_eq (ctx : Ctx) :
    ∀ (l : List FlatIt),
      ((l.filterMap flatItem).any (fun it =>
        match alGet ctx it.name with
        | none => true
        | some none => true
        | some (some v) => v = [])) = !l.all (flatValOk ctx) := by
  intro l
  induction l with
  | nil => simp
  | cons it rest ih =>
    cases it with
    | fplain s =>
      have h0 : List.filterMap flatItem (FlatIt.fplain s :: rest) =
          List.filterMap flatItem rest := by simp [flatItem]
      rw [h0, ih]
      have h1 : flatValOk ctx (.fplain s) = true := rfl
      simp only [List.all_cons, h1, Bool.true_and]
    | fg n r =>
      have h0 : List.filterMap flatItem (FlatIt.fg n r :: rest) =
          NGItem.group n r :: List.filterMap flatItem rest := by
        simp [flatItem]
      rw [h0]
      simp only [List.any_cons, List.all_cons, ih, Bool.not_and]
      have hbad : (match alGet ctx (NGItem.name (NGItem.group n r)) with
          | none => true
          | some none => true
          | some (some v) => decide (v = [])) =
          !flatValOk ctx (.fg n r) := by
        rw [show NGItem.name (NGItem.group n r) = n from rfl]
        simp only [flatValOk, flatName]
        cases halg : alGet ctx n with
        | none => rfl
        | some vo =>
          cases vo with
          | none => rfl
          | some v =>
            cases v with
            | nil => rfl
            | cons c cs => simp
      rw [hbad]
    | fr n =>
      have h0 : List.filterMap flatItem (FlatIt.fr n :: rest) =
          NGItem.backref n :: List.filterMap flatItem rest := by
        simp [flatItem]
      rw [h0]
      simp only [List.any_cons, List.all_cons, ih, Bool.not_and]
      have hbad : (match alGet ctx (NGItem.name (NGItem.backref n)) with
          | none => true
          | some none => true
          | some (some v) => decide (v = [])) =
          !flatValOk ctx (.fr n) := by
        rw [show NGItem.name (NGItem.backref n) = n from rfl]
        simp only [flatValOk, flatName]
        cases halg : alGet ctx n with
        | none => rfl
        | some vo =>
          cases vo with
          | none => rfl
          | some v =>
            cases v with
            | nil => rfl
            | cons c cs => simp
      rw [hbad]

theorem optCallback_flats (ctx : Ctx) (inner : List FlatIt)
    (hok : inner.all flatOK = true) :
    optCallback ctx (renderFlats inner) =
      .ok (if inner.all (flatValOk ctx) then
        (inner.map (flatSubVal ctx)).flatten else []) := by
  unfold optCallback
  rw [itemsOfStr_flats inner hok, any_bad_eq ctx inner]
  cases hv : inner.all (flatValOk ctx) with
  | true =>
    simp only [Bool.not_true, Bool.false_eq_true, if_false, if_true]
    exact ngpSubVals_flats inner ctx hok hv
  | false =>
    simp only [Bool.not_false, Bool.false_eq_true, if_false, if_true]

theorem fg_cons_shape (n r : Str) :
    renderFlat (.fg n r) = '(' :: ("?P<".toList ++ n ++ ('>' :: r) ++ [')']) := by
  show ("(?P<".toList) ++ n ++ ('>' :: r) ++ [')'] = _
  have h0 : ("(?P<".toList) = '(' :: "?P<".toList := rfl
  rw [h0]
  simp

theorem fr_cons_shape (n : Str) :
    renderFlat (.fr n) = '(' :: ("?P=".toList ++ n ++ [')']) := by
  show ("(?P=".toList) ++ n ++ [')'] = _
  have h0 : ("(?P=".toList) = '(' :: "?P=".toList := rfl
  rw [h0]
  simp

theorem fg_tail_no_lparen (n r : Str) (hn : nameOK n = true)
    (hr : ruleOK r = true) :
    ∀ c ∈ "?P<".toList ++ n ++ ('>' :: r) ++ [')'], c ≠ '(' := by
  intro c hc
  have hw := (nameOK_chars hn).2
  have hrr := (ruleOK_chars hr).2
  simp only [List.append_assoc, List.mem_append, List.mem_cons,
    List.mem_singleton] at hc
  rcases hc with h | h | (h | h) | h | h
  · have h2 : c ∈ ['?', 'P', '<'] := h
    fin_cases h2 <;> decide
  · exact ne_of_pred (hw c h) (by decide)
  · subst h; decide
  · exact (hrr c h).2.1
  · subst h; decide
  · simp at h

theorem fr_tail_no_lparen (n : Str) (hn : nameOK n = true) :
    ∀ c ∈ "?P=".toList ++ n ++ [')'], c ≠ '(' := by
  intro c hc
  have hw := (nameOK_chars hn).2
  simp only [List.append_assoc, List.mem_append, List.mem_cons,
    List.mem_singleton] at hc
  rcases hc with h | h | h | h
  · have h2 : c ∈ ['?', 'P', '='] := h
    fin_cases h2 <;> decide
  · exact ne_of_pred (hw c h) (by decide)
  · subst h; decide
  · simp at h

theorem optAt_skip_fg (n r : Str) (hn : nameOK n = true) (hr : ruleOK r = true)
    (t : Str) : ∀ i, i < (renderFlat (.fg n r)).length →
      optAt ((renderFlat (.fg n r)).drop i ++ t) = none := by
  intro i hi
  rw [fg_cons_shape] at hi ⊢
  cases i with
  | zero =>
    simp only [List.drop_zero]
    have h0 : ('(' :: ("?P<".toList ++ n ++ ('>' :: r) ++ [')'])) ++ t =
        '(' :: '?' :: 'P' :: (("<".toList ++ n ++ ('>' :: r) ++ [')']) ++ t) := by
      have h1 : ("?P<".toList) = '?' :: 'P' :: "<".toList := rfl
      rw [h1]
      simp
    rw [h0]
    exact optAt_ngp_start _
  | succ j =>
    simp only [List.drop_succ_cons]
    simp only [List.length_cons] at hi
    exact skip_of_no_lparen (fun c cs hc => optAt_ne_lparen cs hc) _ t
      (fg_tail_no_lparen n r hn hr) j (by omega)

theorem optAt_skip_fr (n : Str) (hn : nameOK n = true) (t : Str) :
    ∀ i, i < (renderFlat (.fr n)).length →
      optAt ((renderFlat (.fr n)).drop i ++ t) = none := by
  intro i hi
  rw [fr_cons_shape] at hi ⊢
  cases i with
  | zero =>
    simp only [List.drop_zero]
    have h0 : ('(' :: ("?P=".toList ++ n ++ [')'])) ++ t =
        '(' :: '?' :: 'P' :: (("=".toList ++ n ++ [')']) ++ t) := by
      have h1 : ("?P=".toList) = '?' :: 'P' :: "=".toList := rfl
      rw [h1]
      simp
    rw [h0]
    exact optAt_ngp_start _
  | succ j =>
    simp only [List.drop_succ_cons]
    simp only [List.length_cons] at hi
    exact skip_of_no_lparen (fun c cs hc => optAt_ne_lparen cs hc) _ t
      (fr_tail_no_lparen n hn) j (by omega)

theorem segs_head_not_q (segs : List Seg) (hok : segsOK segs = true) (t : Str)
    (ht : t.head? ≠ some '?') : (renderSegs segs ++ t).head? ≠ some '?' := by
  induction segs with
  | nil => simpa [renderSegs] using ht
  | cons sg rest ih =>
    have hok2 : segOK sg = true ∧ segsOK rest = true := by
      simpa [segsOK, List.all_cons] using hok
    rw [renderSegs_cons, List.append_assoc]
    cases sg with
    | plain s =>
      cases s with
      | nil => simpa [renderSeg] using ih hok2.2
      | cons c cs =>
        have hc : plainCharOK c = true := by
          have h2 := hok2.1
          simp only [segOK, List.all_cons, Bool.and_eq_true] at h2
          exact h2.1
        have hq : c ≠ '?' := ne_of_pred hc (by decide)
        simp only [renderSeg, List.cons_append, List.head?_cons]
        intro hcon
        exact hq (by injection hcon)
    | gseg n r =>
      simp only [renderSeg]
      rw [fg_cons_shape]
      simp +decide
    | rseg n =>
      simp only [renderSeg]
      rw [fr_cons_shape]
      simp +decide
    | oseg inner =>
      have hsh : renderSeg (.oseg inner) =
          '(' :: ("?:".toList ++ renderFlats inner ++ [')', '?']) := by
        show ("(?:".toList) ++ renderFlats inner ++ [')', '?'] = _
        have h0 : ("(?:".toList) = '(' :: "?:".toList := rfl
        rw [h0]
        simp
      rw [hsh]
      simp +decide

theorem optPass_segs (ctx : Ctx) :
    ∀ (segs : List Seg) (t tOut : Str),
      segsOK segs = true →
      reSubRun optAt (fun m (_ : Unit) =>
        (optCallback ctx m.1).map (fun r2 => (r2, ()))) t () = .ok (tOut, ()) →
      reSubRun optAt (fun m (_ : Unit) =>
        (optCallback ctx m.1).map (fun r2 => (r2, ())))
        (renderSegs segs ++ t) () =
        .ok ((segs.map (optSegOut ctx)).flatten ++ tOut, ()) := by
  have hpatO : ∀ (s2 : Str) (m : Str × NGItem) (r2 : Str),
      optAt s2 = some (m, r2) → r2.length < s2.length := by
    intro s2 m r2 h
    obtain ⟨c, i⟩ := m
    exact optAt_len h
  intro segs
  induction segs with
  | nil =>
    intro t tOut _ ht
    simpa [renderSegs] using ht
  | cons sg rest ih =>
    intro t tOut hok ht
    have hok2 : segOK sg = true ∧ segsOK rest = true := by
      simpa [segsOK, List.all_cons] using hok
    rw [renderSegs_cons, List.append_assoc]
    have hrest := ih t tOut hok2.2 ht
    cases sg with
    | plain s =>
      have hskip : ∀ i, i < s.length →
          optAt (s.drop i ++ (renderSegs rest ++ t)) = none := by
        apply skip_of_no_lparen (fun c cs hc => optAt_ne_lparen cs hc)
        intro c hc
        have h2 := hok2.1
        simp only [segOK, List.all_eq_true] at h2
        exact ne_of_pred (h2 c hc) (by decide)
      show reSubRun _ _ (s ++ (renderSegs rest ++ t)) () = _
      rw [reSubRun_plain hpatO _ s _ () hskip, hrest]
      simp only [bind_ok_exc]
      simp [optSegOut]
    | gseg n r =>
      have h2 := hok2.1
      simp only [segOK, Bool.and_eq_true] at h2
      show reSubRun _ _ (renderFlat (.fg n r) ++ (renderSegs rest ++ t)) () = _
      rw [reSubRun_plain hpatO _ (renderFlat (.fg n r)) _ ()
        (optAt_skip_fg n r h2.1 h2.2 _), hrest]
      simp only [bind_ok_exc]
      simp [optSegOut, renderFlat]
    | rseg n =>
      have h2 : nameOK n = true := by
        have := hok2.1
        simpa [segOK] using this
      show reSubRun _ _ (renderFlat (.fr n) ++ (renderSegs rest ++ t)) () = _
      rw [reSubRun_plain hpatO _ (renderFlat (.fr n)) _ ()
        (optAt_skip_fr n h2 _), hrest]
      simp only [bind_ok_exc]
      simp [optSegOut, renderFlat]
    | oseg inner =>
      have h2 := hok2.1
      simp only [segOK, Bool.and_eq_true] at h2
      obtain ⟨it, hopt⟩ := optAt_oseg inner (renderSegs rest ++ t) h2.1 h2.2
      rw [reSubRun_hit hpatO _ hopt ()]
      simp only [optCallback_flats ctx inner h2.1, map_ok_exc, bind_ok_exc]
      rw [hrest]
      simp only [bind_ok_exc]
      simp [optSegOut]

theorem stripBack_append (a b2 : Str) :
    stripBack (a ++ b2) = stripBack a ++ stripBack b2 := by
  simp [stripBack, List.filter_append]

theorem stripBack_flatten :
    ∀ (L : List Str), stripBack L.flatten = (L.map stripBack).flatten := by
  intro L
  induction L with
  | nil => rfl
  | cons x xs ih =>
    simp only [List.flatten_cons, stripBack_append, ih, List.map_cons]

theorem stripBack_sub (s : Str) : ∀ c ∈ stripBack s, c ∈ s := by
  intro c hc
  exact (List.mem_filter.mp hc).1

theorem fg_no_bs (n r : Str) (hn : nameOK n = true) (hr : ruleOK r = true) :
    ∀ c ∈ renderFlat (.fg n r), c ≠ '\\' := by
  intro c hc
  rw [fg_cons_shape] at hc
  have hw := (nameOK_chars hn).2
  have hrr := (ruleOK_chars hr).2
  rcases List.mem_cons.mp hc with h | hc2
  · subst h; decide
  · simp only [List.append_assoc, List.mem_append, List.mem_cons,
      List.mem_singleton] at hc2
    rcases hc2 with h | h | (h | h) | h | h
    · have h2 : c ∈ ['?', 'P', '<'] := h
      fin_cases h2 <;> decide
    · exact ne_of_pred (hw c h) (by decide)
    · subst h; decide
    · exact (hrr c h).2.2.2
    · subst h; decide
    · simp at h

theorem fr_no_bs (n : Str) (hn : nameOK n = true) :
    ∀ c ∈ renderFlat (.fr n), c ≠ '\\' := by
  intro c hc
  rw [fr_cons_shape] at hc
  have hw := (nameOK_chars hn).2
  rcases List.mem_cons.mp hc with h | hc2
  · subst h; decide
  · simp only [List.append_assoc, List.mem_append, List.mem_cons,
      List.mem_singleton] at hc2
    rcases hc2 with h | h | h | h
    · have h2 : c ∈ ['?', 'P', '='] := h
      fin_cases h2 <;> decide
    · exact ne_of_pred (hw c h) (by decide)
    · subst h; decide
    · simp at h

theorem stripBack_id_of (s : Str) (h : ∀ c ∈ s, c ≠ '\\') :
    stripBack s = s := by
  unfold stripBack
  apply List.filter_eq_self.mpr
  intro c hc
  simpa using h c hc

theorem cut_anchors (a : Str) : ((a ++ [')', '$']).dropLast).dropLast = a := by
  have h1 : a ++ [')', '$'] = (a ++ [')']) ++ ['$'] := by simp
  rw [h1, List.dropLast_concat, List.dropLast_concat]

theorem flatMergeVal_strip (ctx : Ctx) (it : FlatIt) :
    flatMergeVal ctx it = stripBack (flatSubVal ctx it) := by
  cases it <;> rfl

theorem strip_optSegOut (ctx : Ctx) (inner : List FlatIt) :
    stripBack (optSegOut ctx (.oseg inner)) =
      if inner.all (flatValOk ctx) then
        (inner.map (flatMergeVal ctx)).flatten else [] := by
  simp only [optSegOut]
  cases hv : inner.all (flatValOk ctx) with
  | true =>
    simp only [if_true]
    rw [stripBack_flatten, List.map_map]
    refine congrArg List.flatten ?_
    apply List.map_congr_left
    intro it _
    exact (flatMergeVal_strip ctx it).symm
  | false => simp [stripBack]

theorem ctxMergeOK_val {ctx : Ctx} (hctx : ctxMergeOK ctx = true) {n v : Str}
    (h : alGet ctx n = some (some v)) : ∀ c ∈ v, c ≠ '(' := by
  have hmem := alGet_mem h
  unfold ctxMergeOK at hctx
  rw [List.all_eq_true] at hctx
  have := hctx _ hmem
  simp only [List.all_eq_true, decide_eq_true_eq] at this
  exact this

theorem oseg_out_no_lparen (ctx : Ctx) (hctx : ctxMergeOK ctx = true)
    (inner : List FlatIt) (hok : inner.all flatOK = true) :
    ∀ c ∈ stripBack (optSegOut ctx (.oseg inner)), c ≠ '(' := by
  intro c hc
  have hc2 := stripBack_sub _ c hc
  simp only [optSegOut] at hc2
  rw [List.all_eq_true] at hok
  cases hv : inner.all (flatValOk ctx) with
  | false =>
    rw [hv] at hc2
    simp at hc2
  | true =>
    rw [hv] at hc2
    simp only [if_true] at hc2
    rw [List.mem_flatten] at hc2
    obtain ⟨l, hl, hcl⟩ := hc2
    rw [List.mem_map] at hl
    obtain ⟨it, hit, hrfl⟩ := hl
    subst hrfl
    cases it with
    | fplain s2 =>
      have h2 := hok _ hit
      simp only [flatOK, List.all_eq_true] at h2
      exact ne_of_pred (h2 c hcl) (by decide)
    | fg n r =>
      simp only [flatSubVal] at hcl
      cases halg : alGet ctx n with
      | none => rw [halg] at hcl; simp at hcl
      | some vo =>
        cases vo with
        | none => rw [halg] at hcl; simp at hcl
        | some v =>
          rw [halg] at hcl
          simp only [Option.join, Option.getD] at hcl
          exact ctxMergeOK_val hctx halg c hcl
    | fr n =>
      simp only [flatSubVal] at hcl
      cases halg : alGet ctx n with
      | none => rw [halg] at hcl; simp at hcl
      | some vo =>
        cases vo with
        | none => rw [halg] at hcl; simp at hcl
        | some v =>
          rw [halg] at hcl
          simp only [Option.join, Option.getD] at hcl
          exact ctxMergeOK_val hctx halg c hcl

theorem valsPass_segs (ctx : Ctx) (hctx : ctxMergeOK ctx = true) :
    ∀ (segs : List Seg), segsOK segs = true → ∀ (t tOut : Str),
      reSubRun ngpAt (fun it (_ : Unit) =>
        match alGet ctx it.name with
        | some (some v) => .ok (v, ())
        | some none => .error MErr.typeErr
        | none => .error (MErr.valueErr it.name)) t () = .ok (tOut, ()) →
      reSubRun ngpAt (fun it (_ : Unit) =>
        match alGet ctx it.name with
        | some (some v) => .ok (v, ())
        | some none => .error MErr.typeErr
        | none => .error (MErr.valueErr it.name))
        ((segs.map (fun sg => stripBack (optSegOut ctx sg))).flatten ++ t) () =
        (match mergeSegs segs ctx with
         | .ok s2 => .ok (s2 ++ tOut, ())
         | .error e2 => .error e2) := by
  have hpatN : ∀ (s2 : Str) (m : NGItem) (r2 : Str),
      ngpAt s2 = some (m, r2) → r2.length < s2.length :=
    fun s2 m r2 h => ngpAt_len h
  intro segs
  induction segs with
  | nil =>
    intro _ t tOut hbase
    simpa [mergeSegs] using hbase
  | cons sg rest ih =>
    intro hok t tOut hbase
    have hok2 : segOK sg = true ∧ segsOK rest = true := by
      simpa [segsOK, List.all_cons] using hok
    have hrest := ih hok2.2 t tOut hbase
    simp only [List.map_cons, List.flatten_cons, List.append_assoc]
    cases sg with
    | plain s =>
      have hskip : ∀ i, i < (stripBack s).length →
          ngpAt ((stripBack s).drop i ++
            ((rest.map (fun sg => stripBack (optSegOut ctx sg))).flatten ++ t)) =
            none := by
        apply skip_of_no_lparen (fun c cs hc => ngpAt_ne_lparen cs hc)
        intro c hc
        have h2 := hok2.1
        simp only [segOK, List.all_eq_true] at h2
        exact ne_of_pred (h2 c (stripBack_sub s c hc)) (by decide)
      show reSubRun _ _ (stripBack s ++ _) () = _
      rw [reSubRun_plain hpatN _ (stripBack s) _ () hskip, hrest]
      simp only [mergeSegs, mergeSeg, bind_ok_exc]
      cases hms : mergeSegs rest ctx with
      | ok b2 => simp [bind_ok_exc]
      | error e2 => simp [bind_err_exc]
    | gseg n r =>
      have h2 := hok2.1
      simp only [segOK, Bool.and_eq_true] at h2
      have hp : stripBack (optSegOut ctx (.gseg n r)) = renderFlat (.fg n r) := by
        simp only [optSegOut]
        exact stripBack_id_of _ (fg_no_bs n r h2.1 h2.2)
      rw [hp]
      rw [reSubRun_hit hpatN _ (ngpAt_fg n r _ h2.1 h2.2) ()]
      rw [show NGItem.name (NGItem.group n r) = n from rfl]
      cases halg : alGet ctx n with
      | none =>
        simp only [halg, bind_err_exc, mergeSegs, mergeSeg, ctxVal]
      | some vo =>
        cases vo with
        | none =>
          simp only [halg, bind_err_exc, mergeSegs, mergeSeg, ctxVal]
        | some v =>
          simp only [halg, bind_ok_exc]
          rw [hrest]
          simp only [mergeSegs, mergeSeg, ctxVal, halg, bind_ok_exc]
          cases hms : mergeSegs rest ctx with
          | ok b2 => simp [bind_ok_exc]
          | error e2 => simp [bind_err_exc]
    | rseg n =>
      have h2 : nameOK n = true := by
        have := hok2.1
        simpa [segOK] using this
      have hp : stripBack (optSegOut ctx (.rseg n)) = renderFlat (.fr n) := by
        simp only [optSegOut]
        exact stripBack_id_of _ (fr_no_bs n h2)
      rw [hp]
      rw [reSubRun_hit hpatN _ (ngpAt_fr n _ h2) ()]
      rw [show NGItem.name (NGItem.backref n) = n from rfl]
      cases halg : alGet ctx n with
      | none =>
        simp only [halg, bind_err_exc, mergeSegs, mergeSeg, ctxVal]
      | some vo =>
        cases vo with
        | none =>
          simp only [halg, bind_err_exc, mergeSegs, mergeSeg, ctxVal]
        | some v =>
          simp only [halg, bind_ok_exc]
          rw [hrest]
          simp only [mergeSegs, mergeSeg, ctxVal, halg, bind_ok_exc]
          cases hms : mergeSegs rest ctx with
          | ok b2 => simp [bind_ok_exc]
          | error e2 => simp [bind_err_exc]
    | oseg inner =>
      have h2 := hok2.1
      simp only [segOK, Bool.and_eq_true] at h2
      have hskip : ∀ i, i < (stripBack (optSegOut ctx (.oseg inner))).length →
          ngpAt ((stripBack (optSegOut ctx (.oseg inner))).drop i ++
            ((rest.map (fun sg => stripBack (optSegOut ctx sg))).flatten ++ t)) =
            none := by
        apply skip_of_no_lparen (fun c cs hc => ngpAt_ne_lparen cs hc)
        exact oseg_out_no_lparen ctx hctx inner h2.1
      rw [reSubRun_plain hpatN _ (stripBack (optSegOut ctx (.oseg inner))) _ ()
        hskip, hrest]
      rw [strip_optSegOut]
      simp only [mergeSegs, mergeSeg, bind_ok_exc]
      cases hvb : inner.all (flatValOk ctx) with
      | true =>
        cases hms : mergeSegs rest ctx with
        | ok b2 => simp [bind_ok_exc]
        | error e2 => simp [bind_ok_exc, bind_err_exc]
      | false =>
        cases hms : mergeSegs rest ctx with
        | ok b2 => simp [bind_ok_exc]
        | error e2 => simp [bind_ok_exc, bind_err_exc]

theorem optSubMerge_conv (ctx : Ctx) (segs : List Seg)
    (hok : segsOK segs = true) :
    optSubMerge (('^' :: '(' :: renderSegs segs) ++ [')', '$']) ctx =
      .ok ('^' :: '(' :: ((segs.map (optSegOut ctx)).flatten ++ [')', '$'])) := by
  unfold optSubMerge
  have hbase : reSubRun optAt (fun m (_ : Unit) =>
      (optCallback ctx m.1).map (fun r2 => (r2, ()))) [')', '$'] () =
      .ok ([')', '$'], ()) := by
    rw [reSubRun_cons_none _ (optAt_ne_lparen _ (by decide)) ()]
    rw [reSubRun_cons_none _ (optAt_ne_lparen _ (by decide)) ()]
    rfl
  have hmain := optPass_segs ctx segs [')', '$'] [')', '$'] hok hbase
  have hq : optAt ('(' :: (renderSegs segs ++ [')', '$'])) = none :=
    optAt_lparen_ne_q _ (segs_head_not_q segs hok [')', '$'] (by decide))
  have hsh : ('^' :: '(' :: renderSegs segs) ++ [')', '$'] =
      '^' :: '(' :: (renderSegs segs ++ [')', '$']) := by simp
  rw [hsh]
  rw [reSubRun_cons_none _ (optAt_ne_lparen _ (by decide)) ()]
  rw [reSubRun_cons_none _ hq ()]
  rw [hmain]
  rfl

theorem ngpSubVals_segs (ctx : Ctx) (hctx : ctxMergeOK ctx = true)
    (segs : List Seg) (hok : segsOK segs = true) :
    ngpSubVals ((segs.map (fun sg => stripBack (optSegOut ctx sg))).flatten)
      ctx = mergeSegs segs ctx := by
  unfold ngpSubVals
  have h0 : (segs.map (fun sg => stripBack (optSegOut ctx sg))).flatten =
      (segs.map (fun sg => stripBack (optSegOut ctx sg))).flatten ++ [] := by
    simp
  rw [h0, valsPass_segs ctx hctx segs hok [] [] (reSubRun_nil _ _ ())]
  cases hms : mergeSegs segs ctx with
  | ok s2 => simp [map_ok_exc]
  | error e2 => rfl

theorem mergeB_segs (anc : List BrCfg) (self : BrCfg) (parents : Bool)
    (mount platform : Option Str) (ctx : Ctx) (segs : List Seg)
    (hconv : getConvention anc self parents mount platform false =
      .ok (renderSegs segs))
    (hok : segsOK segs = true)
    (hhome : (renderSegs segs).head? ≠ some '~')
    (hctx : ctxMergeOK ctx = true) :
    mergeB anc self parents mount platform ctx = mergeSegs segs ctx := by
  unfold mergeB
  rw [hconv]
  show (optSubMerge (('^' :: '(' ::
      (if (renderSegs segs).head? = some '~' then
        homeDir ++ (renderSegs segs).tail else renderSegs segs)) ++
      [')', '$']) ctx >>= fun s2 =>
      ngpSubVals (((stripBack s2).drop 2).dropLast.dropLast) ctx) = _
  rw [if_neg hhome]
  rw [optSubMerge_conv ctx segs hok, bind_ok_exc]
  have hstrip : stripBack ('^' :: '(' ::
      ((segs.map (optSegOut ctx)).flatten ++ [')', '$'])) =
      '^' :: '(' ::
        ((segs.map (fun sg => stripBack (optSegOut ctx sg))).flatten ++
          [')', '$']) := by
    have h1 : ∀ (X : Str), stripBack ('^' :: '(' :: X) =
        '^' :: '(' :: stripBack X := by
      intro X
      simp +decide [stripBack, List.filter_cons]
    rw [h1, stripBack_append, stripBack_flatten, List.map_map]
    have h2 : stripBack [')', '$'] = [')', '$'] := by decide
    rw [h2]
    rfl
  rw [hstrip]
  have hcut : (('^' :: '(' ::
      ((segs.map (fun sg => stripBack (optSegOut ctx sg))).flatten ++
        [')', '$'])).drop 2).dropLast.dropLast =
      (segs.map (fun sg => stripBack (optSegOut ctx sg))).flatten := by
    simp only [List.drop_succ_cons, List.drop_zero]
    exact cut_anchors _
  rw [hcut, ngpSubVals_segs ctx hctx segs hok]

theorem ctxMergeOK_not_none {ctx : Ctx} (hctx : ctxMergeOK ctx = true)
    (n : Str) : alGet ctx n ≠ some none := by
  intro h
  have hmem := alGet_mem h
  unfold ctxMergeOK at hctx
  rw [List.all_eq_true] at hctx
  have := hctx _ hmem
  simp at this

theorem mergeSegs_err (segs : List Seg) (ctx : Ctx)
    (hctx : ctxMergeOK ctx = true) :
    (∃ tok, mergeSegs segs ctx = .error (MErr.valueErr tok)) ↔
      ∃ n ∈ nonOptSegNames segs, alGet ctx n = none := by
  induction segs with
  | nil =>
    simp [mergeSegs, nonOptSegNames]
  | cons sg rest ih =>
    have hstep : ∀ (a : Str),
        mergeSeg ctx sg = .ok a →
        ((∃ tok, mergeSegs (sg :: rest) ctx = .error (MErr.valueErr tok)) ↔
          (∃ tok, mergeSegs rest ctx = .error (MErr.valueErr tok))) := by
      intro a ha
      simp only [mergeSegs, ha, bind_ok_exc]
      cases hms : mergeSegs rest ctx with
      | ok b2 =>
        constructor
        · rintro ⟨tok, htok⟩
          exact absurd htok (by simp [bind_ok_exc])
        · rintro ⟨tok, htok⟩
          exact absurd htok (by simp)
      | error e2 =>
        constructor
        · rintro ⟨tok, htok⟩
          simp only [bind_err_exc] at htok
          exact ⟨tok, htok⟩
        · rintro ⟨tok, htok⟩
          injection htok with h2
          subst h2
          exact ⟨tok, by simp [bind_err_exc]⟩
    cases sg with
    | plain s =>
      rw [hstep (stripBack s) rfl, ih]
      simp [nonOptSegNames, segTokNames]
    | gseg n r =>
      cases halg : alGet ctx n with
      | none =>
        constructor
        · intro _
          exact ⟨n, by simp [nonOptSegNames, segTokNames], halg⟩
        · intro _
          refine ⟨n, ?_⟩
          simp only [mergeSegs, mergeSeg, ctxVal, halg, bind_err_exc]
      | some vo =>
        cases vo with
        | none => exact absurd halg (ctxMergeOK_not_none hctx n)
        | some v =>
          have ha : mergeSeg ctx (.gseg n r) = .ok v := by
            simp [mergeSeg, ctxVal, halg]
          rw [hstep v ha, ih]
          constructor
          · rintro ⟨m, hm, hmnone⟩
            refine ⟨m, ?_, hmnone⟩
            simp only [nonOptSegNames, segTokNames, List.map_cons,
              List.flatten_cons]
            exact List.mem_append.mpr (Or.inr
              (by simpa [nonOptSegNames] using hm))
          · rintro ⟨m, hm, hmnone⟩
            simp only [nonOptSegNames, segTokNames, List.map_cons,
              List.flatten_cons] at hm
            rcases List.mem_append.mp hm with h | h
            · rw [List.mem_singleton] at h
              subst h
              exact absurd hmnone (by rw [halg]; simp)
            · refine ⟨m, ?_, hmnone⟩
              simpa [nonOptSegNames] using h
    | rseg n =>
      cases halg : alGet ctx n with
      | none =>
        constructor
        · intro _
          exact ⟨n, by simp [nonOptSegNames, segTokNames], halg⟩
        · intro _
          refine ⟨n, ?_⟩
          simp only [mergeSegs, mergeSeg, ctxVal, halg, bind_err_exc]
      | some vo =>
        cases vo with
        | none => exact absurd halg (ctxMergeOK_not_none hctx n)
        | some v =>
          have ha : mergeSeg ctx (.rseg n) = .ok v := by
            simp [mergeSeg, ctxVal, halg]
          rw [hstep v ha, ih]
          constructor
          · rintro ⟨m, hm, hmnone⟩
            refine ⟨m, ?_, hmnone⟩
            simp only [nonOptSegNames, segTokNames, List.map_cons,
              List.flatten_cons]
            exact List.mem_append.mpr (Or.inr
              (by simpa [nonOptSegNames] using hm))
          · rintro ⟨m, hm, hmnone⟩
            simp only [nonOptSegNames, segTokNames, List.map_cons,
              List.flatten_cons] at hm
            rcases List.mem_append.mp hm with h | h
            · rw [List.mem_singleton] at h
              subst h
              exact absurd hmnone (by rw [halg]; simp)
            · refine ⟨m, ?_, hmnone⟩
              simpa [nonOptSegNames] using h
    | oseg inner =>
      have ha : ∃ a, mergeSeg ctx (.oseg inner) = .ok a := by
        simp only [mergeSeg]
        cases hvb : inner.all (flatValOk ctx) with
        | true => exact ⟨_, by rw [if_pos rfl]⟩
        | false => exact ⟨[], by rw [if_neg (by simp)]⟩
      obtain ⟨a, ha⟩ := ha
      rw [hstep a ha, ih]
      simp [nonOptSegNames, segTokNames]

/-- Counterexample to claim C4 as stated: with the convention
`{a}(?:_{b})?` and a context giving both tokens values (so no
non-optional token is missing), `merge` still raises `ValueError` —
for the name `x` of a named group smuggled in through `b`'s value,
which the final token substitution re-matches, because substituted
optional-group values are rescanned by the later pass. -/
theorem merge_value_error_counterexample :
    (∀ n ∈ nonOptSegNames [.gseg ("a".toList) (".+?".toList),
        .oseg [.fplain ("_".toList), .fg ("b".toList) (".+?".toList)]],
      alGet [(("a".toList), some ("A".toList)),
        (("b".toList), some ("(?P<x>v)".toList))] n ≠ none) ∧
    alGet [(("a".toList), some ("A".toList)),
      (("b".toList), some ("(?P<x>v)".toList))] ("b".toList) ≠ none ∧
    getConvention [] cfgOpt false none (some ("linux".toList)) false =
      .ok (renderSegs [.gseg ("a".toList) (".+?".toList),
        .oseg [.fplain ("_".toList), .fg ("b".toList) (".+?".toList)]]) ∧
    mergeB [] cfgOpt false none (some ("linux".toList))
      [(("a".toList), some ("A".toList)),
       (("b".toList), some ("(?P<x>v)".toList))] =
      .error (MErr.valueErr ("x".toList)) := by
  refine ⟨by decide, by decide, by simp +decide [getConvention], ?_⟩
  have hconv : getConvention [] cfgOpt false none (some ("linux".toList))
      false = .ok ("(?P<a>.+?)(?:_(?P<b>.+?))?".toList) := by
    simp +decide [getConvention]
  unfold mergeB
  rw [hconv]
  decide

/-- C4 amended: under a context whose values are actual strings free of
`(` (so that substituted values cannot be re-matched by a later
substitution pass), `merge` on a well-formed convention computes the
segment-wise merge — optional groups whose tokens are all present and
truthy render as their substituted content and otherwise as the empty
string — and it raises `ValueError` exactly when some token occurring
outside every optional group has no value in the context. -/
theorem merge_value_error (anc : List BrCfg) (self : BrCfg) (parents : Bool)
    (mount platform : Option Str) (ctx : Ctx) (segs : List Seg)
    (hconv : getConvention anc self parents mount platform false =
      .ok (renderSegs segs))
    (hok : segsOK segs = true)
    (hhome : (renderSegs segs).head? ≠ some '~')
    (hctx : ctxMergeOK ctx = true) :
    mergeB anc self parents mount platform ctx = mergeSegs segs ctx ∧
    ((∃ tok, mergeB anc self parents mount platform ctx =
        .error (MErr.valueErr tok)) ↔
      ∃ n ∈ nonOptSegNames segs, alGet ctx n = none) := by
  have hb := mergeB_segs anc self parents mount platform ctx segs hconv hok
    hhome hctx
  refine ⟨hb, ?_⟩
  rw [hb]
  exact mergeSegs_err segs ctx hctx

theorem merge_value_error_witness :
    getConvention [] cfgOpt false none (some ("linux".toList)) false =
      .ok (renderSegs [.gseg ("a".toList) (".+?".toList),
        .oseg [.fplain ("_".toList), .fg ("b".toList) (".+?".toList)]]) ∧
    (mergeB [] cfgOpt false none (some ("linux".toList))
        [(("a".toList), some ("A".toList))] =
      mergeSegs [.gseg ("a".toList) (".+?".toList),
        .oseg [.fplain ("_".toList), .fg ("b".toList) (".+?".toList)]]
        [(("a".toList), some ("A".toList))] ∧
    ((∃ tok, mergeB [] cfgOpt false none (some ("linux".toList))
        [(("a".toList), some ("A".toList))] =
        .error (MErr.valueErr tok)) ↔
      ∃ n ∈ nonOptSegNames [.gseg ("a".toList) (".+?".toList),
        .oseg [.fplain ("_".toList), .fg ("b".toList) (".+?".toList)]],
        alGet [(("a".toList), some ("A".toList))] n = none)) :=
  ⟨by simp +decide [getConvention],
   merge_value_error [] cfgOpt false none (some ("linux".toList))
     [(("a".toList), some ("A".toList))]
     [.gseg ("a".toList) (".+?".toList),
      .oseg [.fplain ("_".toList), .fg ("b".toList) (".+?".toList)]]
     (by simp +decide [getConvention]) (by decide) (by decide) (by decide)⟩

theorem skip_of_head_ne {b : Type} {pat : Str → Option (b × Str)} (d : Char)
    (pat0 : ∀ (c : Char) (cs : Str), c ≠ d → pat (c :: cs) = none)
    (s t : Str) (h : ∀ c ∈ s, c ≠ d) :
    ∀ i, i < s.length → pat (s.drop i ++ t) = none := by
  intro i hi
  have hd : s.drop i = s[i] :: s.drop (i + 1) := List.drop_eq_getElem_cons hi
  rw [hd, List.cons_append]
  exact pat0 _ _ (h _ (s.getElem_mem hi))

theorem replaceAll_append (tc : Char) (r a b2 : Str) :
    replaceAll tc r (a ++ b2) = replaceAll tc r a ++ replaceAll tc r b2 := by
  induction a with
  | nil => rfl
  | cons c cs ih => simp [replaceAll, ih]

theorem escapeNC_append (a b2 : Str) :
    escapeNC (a ++ b2) = escapeNC a ++ escapeNC b2 := by
  simp [escapeNC, replaceAll_append]

theorem replaceAll_id (tc : Char) (r s : Str) (h : ∀ c ∈ s, c ≠ tc) :
    replaceAll tc r s = s := by
  induction s with
  | nil => rfl
  | cons c cs ih =>
    have hc := h c (List.mem_cons_self c cs)
    simp only [replaceAll, if_neg hc, List.singleton_append]
    rw [ih (fun x hx => h x (List.mem_cons_of_mem c hx))]

theorem replaceAll_mem (tc : Char) (r s : Str) :
    ∀ c ∈ replaceAll tc r s, c ∈ r ∨ c ∈ s := by
  induction s with
  | nil => intro c hc; simp [replaceAll] at hc
  | cons c0 cs ih =>
    intro c hc
    simp only [replaceAll, List.mem_append] at hc
    rcases hc with h | h
    · by_cases h0 : c0 = tc
      · rw [if_pos h0] at h
        exact Or.inl h
      · rw [if_neg h0] at h
        rw [List.mem_singleton] at h
        subst h
        exact Or.inr (List.mem_cons_self _ _)
    · rcases ih c h with h2 | h2
      · exact Or.inl h2
      · exact Or.inr (List.mem_cons_of_mem _ h2)

theorem escapeNC_id (s : Str) (h : ∀ c ∈ s, c ≠ '\\' ∧ c ≠ '.') :
    escapeNC s = s := by
  unfold escapeNC
  rw [replaceAll_id _ _ s (fun c hc => (h c hc).1)]
  exact replaceAll_id _ _ s (fun c hc => (h c hc).2)

theorem escapeNC_tok (n : Str) (hn : nameOK n = true) :
    escapeNC (lbrace :: n ++ [rbrace]) = lbrace :: n ++ [rbrace] := by
  apply escapeNC_id
  intro c hc
  have hw := (nameOK_chars hn).2
  rcases List.mem_cons.mp hc with h | h
  · subst h
    exact ⟨by decide, by decide⟩
  · rcases List.mem_append.mp h with h2 | h2
    · exact ⟨ne_of_pred (hw c h2) (by decide), ne_of_pred (hw c h2) (by decide)⟩
    · rw [List.mem_singleton] at h2
      subst h2
      exact ⟨by decide, by decide⟩

theorem tokenGo_render :
    ∀ (n acc t : Str), (∀ c ∈ n, c ≠ rbrace ∧ c ≠ '\n') →
      tokenGo (n ++ rbrace :: t) acc = some (acc.reverse ++ n, t) := by
  intro n
  induction n with
  | nil =>
    intro acc t _
    simp only [List.nil_append, tokenGo, if_pos rfl]
    simp
  | cons c cs ih =>
    intro acc t hall
    have h1 := hall c (List.mem_cons_self c cs)
    simp only [List.cons_append, tokenGo, if_neg h1.1, if_neg h1.2,
      List.append_eq]
    rw [ih (c :: acc) t (fun x hx => hall x (List.mem_cons_of_mem c hx))]
    simp

theorem tokenAt_render (n t : Str) (hn : nameOK n = true) :
    tokenAt (lbrace :: n ++ rbrace :: t) = some (n, t) := by
  obtain ⟨hne, hw⟩ := nameOK_chars hn
  cases n with
  | nil => exact absurd rfl hne
  | cons c cs =>
    have h1 : c ≠ '\n' := ne_of_pred (hw c (List.mem_cons_self c cs)) (by decide)
    simp only [List.cons_append, tokenAt, if_pos rfl, if_neg h1]
    rw [tokenGo_render cs [c] t
      (fun x hx => ⟨ne_of_pred (hw x (List.mem_cons_of_mem c hx)) (by decide),
        ne_of_pred (hw x (List.mem_cons_of_mem c hx)) (by decide)⟩)]
    simp

theorem tokenAt_ne_lbrace {c : Char} (cs : Str) (hc : c ≠ lbrace) :
    tokenAt (c :: cs) = none := by
  simp [tokenAt, hc]

theorem escapeNC_flatten (L : List Str) :
    escapeNC L.flatten = (L.map escapeNC).flatten := by
  induction L with
  | nil => rfl
  | cons x xs ih => simp only [List.flatten_cons, escapeNC_append, ih,
      List.map_cons]

theorem tokGroup_eq (n : Str) :
    tokGroup n = renderFlat (.fg n (".+?".toList)) := by
  show ("(?P<".toList) ++ n ++ (">.+?)".toList) =
    ("(?P<".toList) ++ n ++ ('>' :: ".+?".toList) ++ [')']
  have h0 : (">.+?)".toList) = ('>' :: ".+?".toList) ++ [')'] := rfl
  rw [h0]
  simp

theorem tokPass_chunks :
    ∀ (chunks : List Chunk) (t tOut : Str),
      ((chunks.map chunkToFlat).all flatOK = true) →
      reSubRun tokenAt (fun tok (_ : Unit) =>
        (.ok (tokGroup tok, ()) : Except Unit (Str × Unit))) t () =
        .ok (tOut, ()) →
      reSubRun tokenAt (fun tok (_ : Unit) =>
        (.ok (tokGroup tok, ()) : Except Unit (Str × Unit)))
        ((chunks.map (fun ch => escapeNC (renderChunk ch))).flatten ++ t) () =
        .ok (renderFlats (chunks.map chunkToFlat) ++ tOut, ()) := by
  have hpatT : ∀ (s2 : Str) (m : Str) (r2 : Str),
      tokenAt s2 = some (m, r2) → r2.length < s2.length :=
    fun s2 m r2 h => tokenAt_len h
  intro chunks
  induction chunks with
  | nil =>
    intro t tOut _ ht
    simpa [renderFlats] using ht
  | cons ch rest ih =>
    intro t tOut hok ht
    simp only [List.map_cons, List.all_cons, Bool.and_eq_true] at hok
    have hrest := ih t tOut (by simpa using hok.2) ht
    simp only [List.map_cons, List.flatten_cons, List.append_assoc]
    cases ch with
    | klit s2 =>
      have hpc : ∀ c ∈ escapeNC s2, plainCharOK c = true := by
        have h2 := hok.1
        simpa only [chunkToFlat, flatOK, List.all_eq_true] using h2
      have hskip : ∀ i, i < (escapeNC s2).length →
          tokenAt ((escapeNC s2).drop i ++
            ((rest.map (fun ch => escapeNC (renderChunk ch))).flatten ++ t)) =
            none := by
        apply skip_of_head_ne lbrace (fun c cs hc => tokenAt_ne_lbrace cs hc)
        intro c hc
        exact ne_of_pred (hpc c hc) (by decide)
      show reSubRun _ _ (escapeNC (renderChunk (.klit s2)) ++ _) () = _
      rw [show renderChunk (.klit s2) = s2 from rfl]
      rw [reSubRun_plain hpatT _ (escapeNC s2) _ () hskip, hrest]
      simp only [bind_ok_exc]
      simp [renderFlats_cons, chunkToFlat, renderFlat]
    | ktok n =>
      have hn : nameOK n = true := by
        have h2 := hok.1
        simp only [chunkToFlat, flatOK, Bool.and_eq_true] at h2
        exact h2.1
      show reSubRun _ _ (escapeNC (renderChunk (.ktok n)) ++ _) () = _
      rw [show renderChunk (.ktok n) = lbrace :: n ++ [rbrace] from rfl]
      rw [escapeNC_tok n hn]
      have hsh : (lbrace :: n ++ [rbrace]) ++
          ((rest.map (fun ch => escapeNC (renderChunk ch))).flatten ++ t) =
          lbrace :: n ++ rbrace ::
            ((rest.map (fun ch => escapeNC (renderChunk ch))).flatten ++ t) := by
        simp
      rw [hsh]
      rw [reSubRun_hit hpatT _ (tokenAt_render n _ hn) ()]
      simp only [bind_ok_exc]
      rw [hrest]
      simp only [bind_ok_exc]
      simp [renderFlats_cons, chunkToFlat, tokGroup_eq]

theorem subTokens_chunks (chunks : List Chunk)
    (hok : (chunks.map chunkToFlat).all flatOK = true) :
    subTokens (escapeNC (renderChunks chunks)) =
      renderFlats (chunks.map chunkToFlat) := by
  unfold subTokens
  have hesc : escapeNC (renderChunks chunks) =
      (chunks.map (fun ch => escapeNC (renderChunk ch))).flatten ++ [] := by
    unfold renderChunks
    rw [escapeNC_flatten, List.map_map]
    simp only [List.append_nil]
    rfl
  rw [hesc, tokPass_chunks chunks [] [] hok (reSubRun_nil _ _ ())]
  simp

theorem ngpFold_cleanup :
    ∀ (l : List FlatIt) (tokens : List (Str × Option Str)),
      ngpFold (fun it tokens => cleanupOne tokens it) l tokens =
        specCleanupGo tokens l := by
  intro l
  induction l with
  | nil => intro tokens; rfl
  | cons it rest ih =>
    intro tokens
    cases it with
    | fplain s2 =>
      simp only [ngpFold, specCleanupGo, specCleanupIt, ih, bind_ok_exc]
    | fg n r =>
      simp only [ngpFold, specCleanupGo, specCleanupIt]
      cases halg : alGet tokens n with
      | none =>
        have hco : cleanupOne tokens (NGItem.group n r) =
            .ok (renderFlat (.fg n r), alSet tokens n (some r)) := by
          unfold cleanupOne
          rw [show NGItem.name (NGItem.group n r) = n from rfl,
              show NGItem.ruleOpt (NGItem.group n r) = some r from rfl, halg]
          rfl
        rw [hco]
        simp only [bind_ok_exc, ih]
      | some stored =>
        by_cases hr : stored = some r
        · have hco : cleanupOne tokens (NGItem.group n r) =
              .ok (renderFlat (.fr n), tokens) := by
            unfold cleanupOne
            rw [show NGItem.name (NGItem.group n r) = n from rfl,
                show NGItem.ruleOpt (NGItem.group n r) = some r from rfl, halg,
                hr]
            simp [renderFlat]
          rw [hco]
          subst hr
          simp only [bind_ok_exc, ih]
          simp [bind_ok_exc]
        · have hco : cleanupOne tokens (NGItem.group n r) = .error () := by
            unfold cleanupOne
            rw [show NGItem.name (NGItem.group n r) = n from rfl,
                show NGItem.ruleOpt (NGItem.group n r) = some r from rfl, halg]
            exact if_pos (fun heq => hr heq.symm)
          rw [hco]
          simp only [bind_err_exc]
          simp [hr, bind_err_exc]
    | fr n =>
      simp only [ngpFold, specCleanupGo, specCleanupIt]
      cases halg : alGet tokens n with
      | none =>
        have hco : cleanupOne tokens (NGItem.backref n) =
            .ok (renderFlat (.fg n (".+?".toList)), alSet tokens n none) := by
          unfold cleanupOne
          rw [show NGItem.name (NGItem.backref n) = n from rfl,
              show NGItem.ruleOpt (NGItem.backref n) = none from rfl, halg]
          rfl
        rw [hco]
        simp only [bind_ok_exc, ih]
      | some stored =>
        have hco : cleanupOne tokens (NGItem.backref n) =
            .ok (renderFlat (.fr n), tokens) := by
          unfold cleanupOne
          rw [show NGItem.name (NGItem.backref n) = n from rfl,
              show NGItem.ruleOpt (NGItem.backref n) = none from rfl, halg]
          rfl
        rw [hco]
        simp only [bind_ok_exc, ih]

theorem cleanupAll_flats (l : List FlatIt) (hok : l.all flatOK = true) :
    cleanupAll (renderFlats l) = specCleanup l := by
  unfold cleanupAll specCleanup
  have h0 : renderFlats l = renderFlats l ++ [] := by simp
  rw [h0, ngpPass_flats _ l [] [] hok, ngpFold_cleanup l []]
  cases h : specCleanupGo [] l with
  | ok x =>
    obtain ⟨o, tk⟩ := x
    simp only [bind_ok_exc, reSubRun_nil]
    show Except.map (fun x => x.1) (Except.ok (o ++ [], tk)) =
      Except.map (fun x => x.1) (Except.ok (o, tk))
    simp
  | error e2 => rfl

theorem ncLoop_toks (platform : Option Str) :
    ∀ (ps : List BrCfg) (chs : List (List Chunk)) (mSt : Option (Option Str)),
      List.Forall₂ (fun p ch => p.typeStr ≠ ("root".toList) ∧
        p.reFlag = false ∧ p.ncOpt.getD p.idStr = renderChunks ch) ps chs →
      ncLoop platform ps mSt =
        .ok (chs.map (fun ch => subTokens (escapeNC (renderChunks ch)))) := by
  intro ps
  induction ps with
  | nil =>
    intro chs mSt hf
    cases hf
    rfl
  | cons p ps' ih =>
    intro chs mSt hf
    cases hf with
    | cons hp hrest =>
      rename_i ch chs'
      obtain ⟨htype, hre, hnc⟩ := hp
      have hstep : ncStep p platform mSt =
          .ok (subTokens (escapeNC (renderChunks ch)), mSt) := by
        unfold ncStep
        rw [if_neg htype]
        simp only [bind_ok_exc, hre, hnc]
        rfl
      simp only [ncLoop, hstep, bind_ok_exc, ih chs' mSt hrest, List.map_cons]

theorem renderFlats_append (a b2 : List FlatIt) :
    renderFlats (a ++ b2) = renderFlats a ++ renderFlats b2 := by
  simp [renderFlats]

theorem posixJoin_aux :
    ∀ (L : List (List FlatIt)) (acc : Str),
      acc ≠ [] → acc.getLast? ≠ some '/' →
      (∀ fl ∈ L, renderFlats fl ≠ [] ∧
        (renderFlats fl).head? ≠ some '/' ∧
        (renderFlats fl).getLast? ≠ some '/') →
      (L.map renderFlats).foldl joinTwo acc =
        acc ++ (L.map (fun fl => '/' :: renderFlats fl)).flatten := by
  intro L
  induction L with
  | nil =>
    intro acc _ _ _
    simp
  | cons fl rest ih =>
    intro acc hne hlast hL
    have hfl := hL fl (List.mem_cons_self fl rest)
    have hjoin : joinTwo acc (renderFlats fl) = acc ++ '/' :: renderFlats fl := by
      unfold joinTwo
      rw [if_neg hfl.2.1, if_neg]
      intro hcon
      rcases hcon with h | h
      · exact hne h
      · exact hlast h
    simp only [List.map_cons, List.foldl_cons, hjoin]
    rw [ih (acc ++ '/' :: renderFlats fl)
      (by simp)
      (by
        cases hr : renderFlats fl with
        | nil => exact absurd hr hfl.1
        | cons c cs =>
          rw [List.getLast?_append, List.getLast?_cons_cons]
          have h3 : (c :: cs).getLast? ≠ some '/' := by
            rw [← hr]
            exact hfl.2.2
          cases hgl : (c :: cs).getLast? with
          | none => simp [List.getLast?_eq_none_iff] at hgl
          | some z =>
            rw [hgl] at h3
            simpa [Option.or] using h3)
      (fun x hx => hL x (List.mem_cons_of_mem fl hx))]
    simp

theorem renderFlats_joinFlats :
    ∀ (rest : List (List FlatIt)) (fl : List FlatIt),
      renderFlats (joinFlats (fl :: rest)) =
        renderFlats fl ++ (rest.map (fun fl2 => '/' :: renderFlats fl2)).flatten := by
  intro rest
  induction rest with
  | nil =>
    intro fl
    simp [joinFlats]
  | cons y r2 ih =>
    intro fl
    show renderFlats (fl ++ .fplain ['/'] :: joinFlats (y :: r2)) = _
    rw [renderFlats_append, renderFlats_cons, ih y]
    simp [renderFlat]

theorem posixJoin_flats (L : List (List FlatIt))
    (hL : ∀ fl ∈ L, renderFlats fl ≠ [] ∧
      (renderFlats fl).head? ≠ some '/' ∧
      (renderFlats fl).getLast? ≠ some '/') :
    posixJoin (L.map renderFlats) = renderFlats (joinFlats L) := by
  cases L with
  | nil => rfl
  | cons fl rest =>
    show (rest.map renderFlats).foldl joinTwo (renderFlats fl) = _
    rw [posixJoin_aux rest (renderFlats fl)
      (hL fl (List.mem_cons_self fl rest)).1
      (hL fl (List.mem_cons_self fl rest)).2.2
      (fun x hx => hL x (List.mem_cons_of_mem fl hx))]
    rw [renderFlats_joinFlats rest fl]

theorem joinFlats_flatOK :
    ∀ (L : List (List FlatIt)), (∀ fl ∈ L, fl.all flatOK = true) →
      (joinFlats L).all flatOK = true := by
  intro L
  induction L with
  | nil => intro _; rfl
  | cons fl rest ih =>
    intro hL
    cases rest with
    | nil =>
      show fl.all flatOK = true
      exact hL fl (List.mem_cons_self fl [])
    | cons y r2 =>
      show (fl ++ .fplain ['/'] :: joinFlats (y :: r2)).all flatOK = true
      rw [List.all_append, List.all_cons]
      refine (Bool.and_eq_true _ _).mpr ⟨hL fl (List.mem_cons_self fl _), ?_⟩
      refine (Bool.and_eq_true _ _).mpr ⟨by decide, ?_⟩
      exact ih (fun x hx => hL x (List.mem_cons_of_mem fl hx))

theorem forall₂_right {α β : Type} {R : α → β → Prop} :
    ∀ {l1 : List α} {l2 : List β}, List.Forall₂ R l1 l2 →
      ∀ b2 ∈ l2, ∃ a, R a b2 := by
  intro l1 l2 h
  induction h with
  | nil => intro b2 hb; simp at hb
  | cons hr hrest ih =>
    intro b2 hb
    rcases List.mem_cons.mp hb with h2 | h2
    · subst h2
      exact ⟨_, hr⟩
    · exact ih b2 h2

/-- C2 amended: for a hierarchy of tokenized (non-`re`, non-root)
branches whose literal text is scanner-plain, `get_convention(pretty:=
False)` equals the reference substitution over the slash-joined flat
pieces: the first occurrence of each token becomes the named group
`(?P<token>rule)` (rule `.+?` when none is given), a recurrence with an
unchanged rule becomes the backreference `(?P=token)`, and the pass
raises `re.error` on a recurrence whose rule differs from the stored
one — where a token first seen as an explicit backreference stores no
rule, so any rule on its later occurrences also raises. -/
theorem convention_generation (anc : List BrCfg) (self : BrCfg)
    (mount platform : Option Str) (chunksList : List (List Chunk))
    (hf : List.Forall₂ (fun p ch =>
        p.typeStr ≠ ("root".toList) ∧ p.reFlag = false ∧
        p.ncOpt.getD p.idStr = renderChunks ch ∧
        (ch.map chunkToFlat).all flatOK = true ∧
        renderFlats (ch.map chunkToFlat) ≠ [] ∧
        (renderFlats (ch.map chunkToFlat)).head? ≠ some '/' ∧
        (renderFlats (ch.map chunkToFlat)).getLast? ≠ some '/')
      (anc ++ [self]) chunksList) :
    getConvention anc self true mount platform false =
      (specCleanup (joinFlats (chunksList.map
        (fun ch => ch.map chunkToFlat)))).mapError
        (fun _ => CErr.reErr) := by
  have hf3 : List.Forall₂ (fun p ch => p.typeStr ≠ ("root".toList) ∧
      p.reFlag = false ∧ p.ncOpt.getD p.idStr = renderChunks ch)
      (anc ++ [self]) chunksList :=
    hf.imp (fun a b2 h => ⟨h.1, h.2.1, h.2.2.1⟩)
  have hright := forall₂_right hf
  unfold getConvention
  rw [if_pos rfl]
  show (ncLoop platform (anc ++ [self]) (some mount) >>= fun parts =>
    match cleanupAll (posixJoin parts) with
    | Except.error _ => Except.error CErr.reErr
    | Except.ok nc =>
      if false = true then
        Except.ok (stripBack (ngpSubPretty (optSubPretty nc)))
      else Except.ok nc) = _
  rw [ncLoop_toks platform (anc ++ [self]) chunksList (some mount) hf3,
    bind_ok_exc]
  have hparts : chunksList.map (fun ch => subTokens (escapeNC (renderChunks ch)))
      = (chunksList.map (fun ch => ch.map chunkToFlat)).map renderFlats := by
    rw [List.map_map]
    apply List.map_congr_left
    intro ch hch
    obtain ⟨p, hp⟩ := hright ch hch
    exact subTokens_chunks ch hp.2.2.2.1
  rw [hparts]
  rw [posixJoin_flats _ (by
    intro fl hfl
    rw [List.mem_map] at hfl
    obtain ⟨ch, hch, hrfl⟩ := hfl
    subst hrfl
    obtain ⟨p, hp⟩ := hright ch hch
    exact ⟨hp.2.2.2.2.1, hp.2.2.2.2.2.1, hp.2.2.2.2.2.2⟩)]
  rw [cleanupAll_flats _ (joinFlats_flatOK _ (by
    intro fl hfl
    rw [List.mem_map] at hfl
    obtain ⟨ch, hch, hrfl⟩ := hfl
    subst hrfl
    obtain ⟨p, hp⟩ := hright ch hch
    exact hp.2.2.2.1))]
  cases h : specCleanup (joinFlats (chunksList.map (fun ch => ch.map chunkToFlat))) with
  | ok nc => rfl
  | error e2 => rfl

theorem convention_generation_witness :
    (List.Forall₂ (fun p ch =>
        p.typeStr ≠ ("root".toList) ∧ p.reFlag = false ∧
        p.ncOpt.getD p.idStr = renderChunks ch ∧
        (ch.map chunkToFlat).all flatOK = true ∧
        renderFlats (ch.map chunkToFlat) ≠ [] ∧
        (renderFlats (ch.map chunkToFlat)).head? ≠ some '/' ∧
        (renderFlats (ch.map chunkToFlat)).getLast? ≠ some '/')
      ([] ++ [cfgAB])
      [[.ktok ("a".toList), .klit ("_".toList), .ktok ("b".toList)]]) ∧
    getConvention [] cfgAB true none (some ("linux".toList)) false =
      (specCleanup (joinFlats
        ([[.ktok ("a".toList), .klit ("_".toList), .ktok ("b".toList)]].map
          (fun ch => ch.map chunkToFlat)))).mapError (fun _ => CErr.reErr) := by
  have hf : List.Forall₂ (fun p ch =>
      p.typeStr ≠ ("root".toList) ∧ p.reFlag = false ∧
      p.ncOpt.getD p.idStr = renderChunks ch ∧
      (ch.map chunkToFlat).all flatOK = true ∧
      renderFlats (ch.map chunkToFlat) ≠ [] ∧
      (renderFlats (ch.map chunkToFlat)).head? ≠ some '/' ∧
      (renderFlats (ch.map chunkToFlat)).getLast? ≠ some '/')
      ([] ++ [cfgAB])
      [[.ktok ("a".toList), .klit ("_".toList), .ktok ("b".toList)]] := by
    refine List.Forall₂.cons ?_ List.Forall₂.nil
    exact ⟨by decide, by decide, by decide, by decide, by decide, by decide,
      by decide⟩
  exact ⟨hf, convention_generation [] cfgAB none (some ("linux".toList))
    [[.ktok ("a".toList), .klit ("_".toList), .ktok ("b".toList)]] hf⟩

/-! ## The tokenized round trip (claim C1) -/

theorem renderSegs_toks (l : List TokEl) :
    renderSegs (l.map tokSeg) = renderToks l := by
  induction l with
  | nil => rfl
  | cons e rest ih =>
    rw [List.map_cons, renderSegs_cons, ih]
    cases e with
    | tlit c => rfl
    | tgrp n =>
      show renderFlat (.fg n (".+?".toList)) ++ _ = renderTokEl (.tgrp n) ++ _
      rw [← tokGroup_eq]
      rfl

theorem segsOK_toks (l : List TokEl) (hok : l.all tokElOK = true) :
    segsOK (l.map tokSeg) = true := by
  induction l with
  | nil => rfl
  | cons e rest ih =>
    simp only [List.all_cons, Bool.and_eq_true] at hok
    rw [List.map_cons]
    show (segOK (tokSeg e) && segsOK (rest.map tokSeg)) = true
    refine (Bool.and_eq_true _ _).mpr ⟨?_, ih hok.2⟩
    cases e with
    | tlit c =>
      have h1 := hok.1
      simp only [tokElOK, Bool.and_eq_true, decide_eq_true_eq] at h1
      show ((renderTokEl (.tlit c)).all plainCharOK) = true
      simp only [renderTokEl]
      by_cases hc : c = '.'
      · rw [if_pos hc]
        decide
      · rw [if_neg hc]
        simp [h1.1]
    | tgrp n =>
      have h1 := hok.1
      simp only [tokElOK] at h1
      show (nameOK n && ruleOK (".+?".toList)) = true
      rw [h1]
      decide

theorem mergeToks_congr :
    ∀ (l : List TokEl) (d1 d2 : Ctx),
      (∀ n ∈ tokNames l, alGet d1 n = alGet d2 n) →
      mergeToks l d1 = mergeToks l d2 := by
  intro l
  induction l with
  | nil => intro d1 d2 _; rfl
  | cons e rest ih =>
    intro d1 d2 h
    cases e with
    | tlit c =>
      simp only [mergeToks]
      rw [ih d1 d2 (fun n hn => h n (by simpa [tokNames] using hn))]
    | tgrp n =>
      simp only [mergeToks, ctxVal]
      rw [h n (by simp [tokNames])]
      rw [ih d1 d2 (fun n2 hn => h n2 (by
        simp only [tokNames, List.filterMap_cons] at *
        exact List.mem_cons_of_mem _ hn))]

theorem mergeSegs_toks :
    ∀ (l : List TokEl) (ctx : Ctx), l.all tokElOK = true →
      mergeSegs (l.map tokSeg) ctx = mergeToks l ctx := by
  intro l
  induction l with
  | nil => intro ctx _; rfl
  | cons e rest ih =>
    intro ctx hok
    simp only [List.all_cons, Bool.and_eq_true] at hok
    cases e with
    | tlit c =>
      have h1 := hok.1
      simp only [tokElOK, Bool.and_eq_true, decide_eq_true_eq] at h1
      have hstrip : stripBack (renderTokEl (.tlit c)) = [c] := by
        simp only [renderTokEl]
        by_cases hc : c = '.'
        · rw [if_pos hc, hc]
          decide
        · rw [if_neg hc]
          simp [stripBack, List.filter_cons, h1.2]
      show (do
        let a ← mergeSeg ctx (tokSeg (.tlit c))
        let b2 ← mergeSegs (rest.map tokSeg) ctx
        (.ok (a ++ b2) : Except MErr Str)) = _
      rw [show mergeSeg ctx (tokSeg (.tlit c)) =
        .ok (stripBack (renderTokEl (.tlit c))) from rfl, hstrip]
      rw [bind_ok_exc, ih ctx hok.2]
      simp only [mergeToks]
      cases hm : mergeToks rest ctx with
      | ok b2 => simp [bind_ok_exc]
      | error e2 => simp [bind_err_exc]
    | tgrp n =>
      show (do
        let a ← mergeSeg ctx (tokSeg (.tgrp n))
        let b2 ← mergeSegs (rest.map tokSeg) ctx
        (.ok (a ++ b2) : Except MErr Str)) = _
      rw [show mergeSeg ctx (tokSeg (.tgrp n)) = ctxVal ctx n from rfl]
      simp only [mergeToks]
      cases hv : ctxVal ctx n with
      | error e2 => simp [hv, bind_err_exc]
      | ok v =>
        simp only [bind_ok_exc, ih ctx hok.2]

theorem mergeToks_some :
    ∀ (l : List TokEl) (ctx : Ctx),
      (∀ n ∈ tokNames l, ∃ v, alGet ctx n = some (some v)) →
      ∃ m, mergeToks l ctx = .ok m := by
  intro l
  induction l with
  | nil => intro ctx _; exact ⟨[], rfl⟩
  | cons e rest ih =>
    intro ctx h
    cases e with
    | tlit c =>
      obtain ⟨m, hm⟩ := ih ctx (fun n hn => h n (by simpa [tokNames] using hn))
      exact ⟨c :: m, by simp only [mergeToks, hm, bind_ok_exc]⟩
    | tgrp n =>
      obtain ⟨v, hv⟩ := h n (by simp [tokNames])
      obtain ⟨m, hm⟩ := ih ctx (fun n2 hn => h n2 (by
        simp only [tokNames, List.filterMap_cons] at *
        exact List.mem_cons_of_mem _ hn))
      refine ⟨v ++ m, ?_⟩
      simp only [mergeToks, ctxVal, hv, bind_ok_exc, hm]

theorem mergeToks_chars :
    ∀ (l : List TokEl) (ctx : Ctx) (out : Str),
      l.all tokElOK = true →
      (∀ p ∈ ctx, ∀ v, p.2 = some v → ∀ c ∈ v, c ≠ '\n' ∧ c ≠ '(') →
      mergeToks l ctx = .ok out →
      ∀ c ∈ out, c ≠ '\n' ∧ c ≠ '(' := by
  intro l
  induction l with
  | nil =>
    intro ctx out _ _ hm c hc
    injection hm with hm
    subst hm
    simp at hc
  | cons e rest ih =>
    intro ctx out hok hctx hm c hc
    simp only [List.all_cons, Bool.and_eq_true] at hok
    cases e with
    | tlit c0 =>
      simp only [mergeToks] at hm
      cases hr : mergeToks rest ctx with
      | error e2 => rw [hr] at hm; exact absurd hm (by simp [bind_err_exc])
      | ok m2 =>
        rw [hr, bind_ok_exc] at hm
        injection hm with hm
        subst hm
        rcases List.mem_cons.mp hc with h | h
        · subst h
          have h1 := hok.1
          simp only [tokElOK, Bool.and_eq_true] at h1
          exact ⟨ne_of_pred h1.1 (by decide), ne_of_pred h1.1 (by decide)⟩
        · exact ih ctx m2 hok.2 hctx hr c h
    | tgrp n =>
      simp only [mergeToks] at hm
      cases hv : ctxVal ctx n with
      | error e2 => rw [hv] at hm; exact absurd hm (by simp [bind_err_exc])
      | ok v =>
        rw [hv, bind_ok_exc] at hm
        cases hr : mergeToks rest ctx with
        | error e2 => rw [hr] at hm; exact absurd hm (by simp [bind_err_exc])
        | ok m2 =>
          rw [hr, bind_ok_exc] at hm
          injection hm with hm
          subst hm
          rcases List.mem_append.mp hc with h | h
          · have halg : alGet ctx n = some (some v) := by
              unfold ctxVal at hv
              cases halg2 : alGet ctx n with
              | none => rw [halg2] at hv; exact absurd hv (by simp)
              | some vo =>
                cases vo with
                | none => rw [halg2] at hv; exact absurd hv (by simp)
                | some v2 =>
                  rw [halg2] at hv
                  injection hv with hv
                  subst hv
                  rfl
            exact hctx _ (alGet_mem halg) v rfl c h
          · exact ih ctx m2 hok.2 hctx hr c h

theorem grpNames_toks (l : List TokEl) :
    grpNamesL (toksRE l) = tokNames l := by
  induction l with
  | nil => rfl
  | cons e rest ih =>
    cases e with
    | tlit c =>
      show grpNamesE (.lit c) ++ grpNamesL (toksRE rest) = _
      rw [ih]
      rfl
    | tgrp n =>
      show grpNamesE (.grp n [.anyPlusLazy]) ++ grpNamesL (toksRE rest) = _
      rw [ih]
      rfl

theorem dedupKeep_nodup :
    ∀ (l : List Str), l.Nodup → dedupKeep l = l := by
  intro l
  induction l with
  | nil => intro _; rfl
  | cons x xs ih =>
    intro h
    rw [List.nodup_cons] at h
    show x :: (dedupKeep xs).filter (fun y => y ≠ x) = x :: xs
    rw [ih h.2]
    refine congrArg (x :: ·) ?_
    apply List.filter_eq_self.mpr
    intro b2 hb
    simp only [ne_eq, decide_eq_true_eq]
    intro heq
    subst heq
    exact h.1 hb

theorem map_alGet {β : Type} :
    ∀ (names : List Str) (f : Str → β) (n : Str), n ∈ names →
      alGet (names.map (fun m => (m, f m))) n = some (f n) := by
  intro names
  induction names with
  | nil => intro f n hn; simp at hn
  | cons k ks ih =>
    intro f n hn
    show (if k = n then some (f k) else alGet (ks.map _) n) = some (f n)
    by_cases hk : k = n
    · rw [if_pos hk, hk]
    · rw [if_neg hk]
      rcases List.mem_cons.mp hn with h | h
      · exact absurd h.symm hk
      · exact ih f n h

theorem slice_split (s : Str) (pos p e : Nat) (h1 : pos ≤ p) (h2 : p ≤ e) :
    (s.drop pos).take (e - pos) =
      (s.drop pos).take (p - pos) ++ (s.drop p).take (e - p) := by
  have h3 : e - pos = (p - pos) + (e - p) := by omega
  rw [h3, List.take_add]
  refine congrArg _ ?_
  rw [List.drop_drop]
  rw [show pos + (p - pos) = p by omega]

theorem toks_merge_back :
    ∀ (l : List TokEl) (s : Str) (pos : Nat) (caps : Caps) (r : Nat × Caps),
      (tokNames l).Nodup →
      r ∈ seqRes s (toksRE l) pos caps →
      pos ≤ r.1 ∧
      (∀ n, n ∉ tokNames l → alGet r.2 n = alGet caps n) ∧
      (∀ n ∈ tokNames l, ∃ v, alGet r.2 n = some v ∧ ∀ c ∈ v, c ∈ s) ∧
      mergeToks l ((tokNames l).map (fun n => (n, alGet r.2 n))) =
        .ok ((s.drop pos).take (r.1 - pos)) := by
  intro l
  induction l with
  | nil =>
    intro s pos caps r _ hr
    simp only [toksRE, List.map_nil, seqRes, List.mem_singleton] at hr
    subst hr
    refine ⟨le_refl _, fun n _ => rfl, by simp [tokNames], ?_⟩
    simp [mergeToks, tokNames]
  | cons e rest ih =>
    intro s pos caps r hnd hr
    have hsr : seqRes s (toksRE (e :: rest)) pos caps =
        (elemRes s (toRE e) pos caps).flatMap
          (fun q => seqRes s (toksRE rest) q.1 q.2) := rfl
    rw [hsr, List.mem_flatMap] at hr
    obtain ⟨q, hq, hrq⟩ := hr
    cases e with
    | tlit c =>
      have hnd2 : (tokNames rest).Nodup := by simpa [tokNames] using hnd
      simp only [toRE, elemRes] at hq
      by_cases hget : s.get? pos = some c
      case neg => rw [if_neg hget] at hq; simp at hq
      rw [if_pos hget, List.mem_singleton] at hq
      subst hq
      obtain ⟨h1, h2, h3, h4⟩ := ih s (pos + 1) caps r hnd2 hrq
      have hnames : tokNames (TokEl.tlit c :: rest) = tokNames rest := by
        simp [tokNames]
      rw [hnames]
      refine ⟨by omega, h2, h3, ?_⟩
      show (do
        let b2 ← mergeToks rest ((tokNames rest).map (fun n => (n, alGet r.2 n)))
        (.ok (c :: b2) : Except MErr Str)) = _
      rw [h4, bind_ok_exc]
      refine congrArg Except.ok ?_
      have hlt : pos < s.length := by
        by_contra hcon
        rw [List.get?_eq_none.mpr (by omega)] at hget
        exact absurd hget (by simp)
      have hd : s.drop pos = c :: s.drop (pos + 1) := by
        rw [List.drop_eq_getElem_cons hlt]
        have hgc : s[pos] = c := by
          have h5 := hget
          rw [List.get?_eq_getElem?] at h5
          rw [List.getElem?_eq_getElem hlt] at h5
          injection h5
        rw [hgc]
      rw [hd, show r.1 - pos = (r.1 - (pos + 1)) + 1 by omega]
      rfl
    | tgrp n =>
      have hnames : tokNames (TokEl.tgrp n :: rest) = n :: tokNames rest := by
        simp [tokNames]
      rw [hnames] at hnd ⊢
      rw [List.nodup_cons] at hnd
      simp only [toRE, elemRes] at hq
      rw [List.mem_map] at hq
      obtain ⟨q0, hq0, hqe⟩ := hq
      have hq0' : ∃ p, p ∈ plusEnds s pos ∧ q0 = (p, caps) := by
        simp only [seqRes, elemRes, List.mem_flatMap, List.mem_map] at hq0
        obtain ⟨r1, ⟨p, hp, hr1⟩, hq2⟩ := hq0
        subst hr1
        rw [List.mem_singleton] at hq2
        exact ⟨p, hp, hq2⟩
      obtain ⟨p, hp, hq0eq⟩ := hq0'
      subst hq0eq
      subst hqe
      simp only at hrq
      rw [mem_plusEnds] at hp
      obtain ⟨h1, h2, h3, h4⟩ := ih s p
        (alSet caps n ((s.drop pos).take (p - pos))) r hnd.2 hrq
      have hvget : alGet r.2 n = some ((s.drop pos).take (p - pos)) := by
        rw [h2 n hnd.1]
        exact alGet_alSet caps n _
      refine ⟨by omega, ?_, ?_, ?_⟩
      · intro n2 hn2
        rw [List.mem_cons] at hn2
        push_neg at hn2
        rw [h2 n2 hn2.2]
        exact alGet_alSet_ne (fun h => hn2.1 h)
      · intro n2 hn2
        rcases List.mem_cons.mp hn2 with h | h
        · subst h
          refine ⟨_, hvget, ?_⟩
          intro c hc
          exact List.drop_subset pos s (List.take_subset _ _ hc)
        · exact h3 n2 h
      · show (do
          let a ← ctxVal ((n :: tokNames rest).map (fun m => (m, alGet r.2 m))) n
          let b2 ← mergeToks rest
            ((n :: tokNames rest).map (fun m => (m, alGet r.2 m)))
          (.ok (a ++ b2) : Except MErr Str)) = _
        have hdget : ctxVal ((n :: tokNames rest).map
            (fun m => (m, alGet r.2 m))) n =
            .ok ((s.drop pos).take (p - pos)) := by
          unfold ctxVal
          rw [map_alGet (n :: tokNames rest) _ n (List.mem_cons_self _ _),
            hvget]
        rw [hdget, bind_ok_exc]
        have hcongr : mergeToks rest
            ((n :: tokNames rest).map (fun m => (m, alGet r.2 m))) =
            mergeToks rest ((tokNames rest).map (fun m => (m, alGet r.2 m))) := by
          apply mergeToks_congr
          intro m hm
          have hmn : m ≠ n := fun h => hnd.1 (h ▸ hm)
          rw [map_alGet (n :: tokNames rest) _ m
            (List.mem_cons_of_mem _ hm),
            map_alGet (tokNames rest) _ m hm]
        rw [hcongr, h4, bind_ok_exc]
        rw [slice_split s pos p r.1 (by omega) h1]

theorem toks_complete :
    ∀ (l : List TokEl) (ctx : Ctx) (s : Str) (pos : Nat) (caps : Caps)
      (out : Str),
      mergeToks l ctx = .ok out →
      (∀ n ∈ tokNames l, ∀ v, alGet ctx n = some (some v) →
        v ≠ [] ∧ ∀ c ∈ v, c ≠ '\n') →
      s.drop pos = out →
      pos ≤ s.length →
      ∃ cres, (s.length, cres) ∈ seqRes s (toksRE l) pos caps := by
  intro l
  induction l with
  | nil =>
    intro ctx s pos caps out hm _ hdrop hle
    injection hm with hm
    subst hm
    have hpos : s.length ≤ pos := List.drop_eq_nil_iff_le.mp hdrop
    have heq : pos = s.length := by omega
    subst heq
    exact ⟨caps, by simp [toksRE, seqRes]⟩
  | cons e rest ih =>
    intro ctx s pos caps out hm hctx hdrop hle
    cases e with
    | tlit c =>
      simp only [mergeToks] at hm
      cases hr : mergeToks rest ctx with
      | error e2 => rw [hr] at hm; exact absurd hm (by simp [bind_err_exc])
      | ok b2 =>
        rw [hr, bind_ok_exc] at hm
        injection hm with hm
        subst hm
        have hget : s.get? pos = some c := by
          have h0 : (s.drop pos).get? 0 = some c := by rw [hdrop]; rfl
          rw [List.get?_drop] at h0
          simpa using h0
        have hlt : pos < s.length := by
          by_contra hcon
          rw [List.get?_eq_none.mpr (by omega)] at hget
          exact absurd hget (by simp)
        have hdrop2 : s.drop (pos + 1) = b2 := by
          have h0 : (s.drop pos).tail = s.drop (pos + 1) := by
            rw [List.tail_drop]
          rw [← h0, hdrop]
          rfl
        obtain ⟨cres, hmem⟩ := ih ctx s (pos + 1) caps b2 hr
          (fun n hn => hctx n (by simpa [tokNames] using hn)) hdrop2 (by omega)
        refine ⟨cres, ?_⟩
        show (s.length, cres) ∈ (elemRes s (toRE (.tlit c)) pos caps).flatMap
          (fun q => seqRes s (toksRE rest) q.1 q.2)
        rw [List.mem_flatMap]
        refine ⟨(pos + 1, caps), ?_, hmem⟩
        simp only [toRE, elemRes, if_pos hget]
        simp
    | tgrp n =>
      simp only [mergeToks] at hm
      cases hv : ctxVal ctx n with
      | error e2 => rw [hv] at hm; exact absurd hm (by simp [bind_err_exc])
      | ok v =>
        rw [hv, bind_ok_exc] at hm
        cases hr : mergeToks rest ctx with
        | error e2 => rw [hr] at hm; exact absurd hm (by simp [bind_err_exc])
        | ok b2 =>
          rw [hr, bind_ok_exc] at hm
          injection hm with hm
          subst hm
          have halg : alGet ctx n = some (some v) := by
            unfold ctxVal at hv
            cases halg2 : alGet ctx n with
            | none => rw [halg2] at hv; exact absurd hv (by simp)
            | some vo =>
              cases vo with
              | none => rw [halg2] at hv; exact absurd hv (by simp)
              | some v2 =>
                rw [halg2] at hv
                injection hv with hv
                subst hv
                rfl
          have hval := hctx n (by simp [tokNames]) v halg
          have hlen : s.length - pos = v.length + b2.length := by
            have h0 : (s.drop pos).length = (v ++ b2).length := by rw [hdrop]
            simpa using h0
          have hvpos : 0 < v.length := List.length_pos.mpr hval.1
          have hp : pos + v.length ∈ plusEnds s pos := by
            rw [mem_plusEnds]
            refine ⟨by omega, by omega, ?_⟩
            intro i hi1 hi2 hcon
            have h0 : s.get? i = (s.drop pos).get? (i - pos) := by
              rw [List.get?_drop, show pos + (i - pos) = i by omega]
            rw [hdrop] at h0
            have h1 : (v ++ b2).get? (i - pos) = v.get? (i - pos) := by
              rw [List.get?_append (by omega)]
            rw [h0, h1] at hcon
            have h2 : '\n' ∈ v := by
              have := List.get?_mem hcon
              exact this
            exact (hval.2 '\n' h2) rfl
          have hslice : (s.drop pos).take (pos + v.length - pos) = v := by
            rw [hdrop, show pos + v.length - pos = v.length by omega]
            exact List.take_left v b2
          have hdrop2 : s.drop (pos + v.length) = b2 := by
            have h0 : s.drop (pos + v.length) =
                (s.drop pos).drop v.length := by
              rw [List.drop_drop]
            rw [h0, hdrop]
            exact List.drop_left v b2
          obtain ⟨cres, hmem⟩ := ih ctx s (pos + v.length)
            (alSet caps n v) b2 hr
            (fun n2 hn => hctx n2 (by
              simp only [tokNames, List.filterMap_cons] at *
              exact List.mem_cons_of_mem _ hn)) hdrop2 (by omega)
          refine ⟨cres, ?_⟩
          show (s.length, cres) ∈ (elemRes s (toRE (.tgrp n)) pos caps).flatMap
            (fun q => seqRes s (toksRE rest) q.1 q.2)
          rw [List.mem_flatMap]
          refine ⟨(pos + v.length, alSet caps n v), ?_, hmem⟩
          simp only [toRE, elemRes, List.mem_map]
          refine ⟨(pos + v.length, caps), ?_, ?_⟩
          · simp only [seqRes, elemRes, List.mem_flatMap, List.mem_map]
            exact ⟨(pos + v.length, caps), ⟨pos + v.length, hp, rfl⟩, by simp⟩
          · simp only []
            rw [hslice]

theorem parseB_eval (anc : List BrCfg) (self : BrCfg) (parents : Bool)
    (mount platform : Option Str) (nc : Str) (ps0 : List RElem) (name : Str)
    (hconv : getConvention anc self parents mount platform false = .ok nc)
    (hhome : nc.head? ≠ some '~')
    (hanch : parseTop (('^' :: '(' :: nc) ++ [')', '$']) = some ps0) :
    parseB anc self parents mount platform name =
      .ok ((seqRes name ps0 0 []).head?.map
        (fun r => groupdictOf ps0 r.2)) := by
  unfold parseB
  rw [hconv]
  show (match parseTop
      (('^' :: '(' :: (if nc.head? = some '~' then homeDir ++ nc.tail else nc)) ++
        [')', '$']) with
    | none => (Except.error MErr.compileErr : Except MErr _)
    | some ps2 =>
      match (seqRes name ps2 0 []).head? with
      | some r => Except.ok (some (groupdictOf ps2 r.2))
      | none => Except.ok none) = _
  rw [if_neg hhome, hanch]
  show (match (seqRes name ps0 0 []).head? with
    | some r => Except.ok (some (groupdictOf ps0 r.2))
    | none => (Except.ok none : Except MErr _)) = _
  cases hh : (seqRes name ps0 0 []).head? with
  | some r => rfl
  | none => rfl

theorem mergeB_toks (anc : List BrCfg) (self : BrCfg) (parents : Bool)
    (mount platform : Option Str) (ctx : Ctx) (l : List TokEl)
    (hconv : getConvention anc self parents mount platform false =
      .ok (renderToks l))
    (hok : l.all tokElOK = true)
    (hhome : (renderToks l).head? ≠ some '~')
    (hctx : ctxMergeOK ctx = true) :
    mergeB anc self parents mount platform ctx = mergeToks l ctx := by
  have h1 := mergeB_segs anc self parents mount platform ctx (l.map tokSeg)
    (by rw [renderSegs_toks]; exact hconv) (segsOK_toks l hok)
    (by rw [renderSegs_toks]; exact hhome) hctx
  rw [h1, mergeSegs_toks l ctx hok]

/-- C1 amended: for a branch whose generated convention is a tokenized
sequence of plain literals and distinct default-rule tokens, and a
context supplying a nonempty newline-free paren-free string for every
token, `merge` produces a path, `parse` applied to that path returns a
dict (rather than `None`), and re-merging the parsed dict reproduces the
same path.  (The parsed dict need not agree with the original context:
lazy matching can split the path differently, as the counterexample
shows; re-merging is the invariant that survives.) -/
theorem merge_parse_roundtrip (anc : List BrCfg) (self : BrCfg)
    (parents : Bool) (mount platform : Option Str) (ctx : Ctx)
    (l : List TokEl)
    (hconv : getConvention anc self parents mount platform false =
      .ok (renderToks l))
    (htoks : toksOK l = true)
    (hhome : (renderToks l).head? ≠ some '~')
    (hanch : parseTop (('^' :: '(' :: renderToks l) ++ [')', '$']) =
      some [.bos, .ncap (toksRE l), .eos])
    (hctx : ∀ p ∈ ctx, ∃ v, p.2 = some v ∧ v ≠ [] ∧
      ∀ c ∈ v, c ≠ '\n' ∧ c ≠ '(')
    (hcov : ∀ n ∈ tokNames l, (alGet ctx n).isSome) :
    ∃ m d, mergeB anc self parents mount platform ctx = .ok m ∧
      parseB anc self parents mount platform m = .ok (some d) ∧
      mergeB anc self parents mount platform d = .ok m := by
  simp only [toksOK, Bool.and_eq_true, decide_eq_true_eq] at htoks
  obtain ⟨hel, hnd⟩ := htoks
  have hcm : ctxMergeOK ctx = true := by
    unfold ctxMergeOK
    rw [List.all_eq_true]
    intro p hp
    obtain ⟨v, hv2, _, hch⟩ := hctx p hp
    rw [hv2]
    simp only [List.all_eq_true, decide_eq_true_eq]
    intro c hc
    exact (hch c hc).2
  have hpres : ∀ n ∈ tokNames l, ∃ v, alGet ctx n = some (some v) := by
    intro n hn
    obtain ⟨vo, hvo⟩ := Option.isSome_iff_exists.mp (hcov n hn)
    obtain ⟨v, hv2, _⟩ := hctx (n, vo) (alGet_mem hvo)
    refine ⟨v, ?_⟩
    rw [hvo]
    simp only at hv2
    rw [hv2]
  obtain ⟨m, hm⟩ := mergeToks_some l ctx hpres
  have hmb : mergeB anc self parents mount platform ctx = .ok m := by
    rw [mergeB_toks anc self parents mount platform ctx l hconv hel hhome hcm]
    exact hm
  have hmchars : ∀ c ∈ m, c ≠ '\n' ∧ c ≠ '(' := by
    apply mergeToks_chars l ctx m hel ?_ hm
    intro p hp v hveq c hc
    obtain ⟨v2, hv2, _, hch⟩ := hctx p hp
    rw [hveq] at hv2
    injection hv2 with hv2
    subst hv2
    exact hch c hc
  obtain ⟨cres, hcres⟩ := toks_complete l ctx m 0 [] m hm
    (by
      intro n hn v halg
      obtain ⟨v2, hv2, hne2, hch⟩ := hctx (n, some v) (alGet_mem halg)
      simp only at hv2
      injection hv2 with hv2
      subst hv2
      exact ⟨hne2, fun c hc => (hch c hc).1⟩)
    (by simp) (by simp)
  have hanchres := seqRes_anchored m (toksRE l)
  have hmemF : (m.length, cres) ∈
      (seqRes m (toksRE l) 0 []).flatMap
        (fun r => if r.1 = m.length ∨
            (r.1 + 1 = m.length ∧ m.get? r.1 = some '\n') then
            [(r.1, r.2)] else []) := by
    rw [List.mem_flatMap]
    refine ⟨(m.length, cres), hcres, ?_⟩
    rw [if_pos (Or.inl rfl)]
    simp
  have hneF : seqRes m [.bos, .ncap (toksRE l), .eos] 0 [] ≠ [] := by
    rw [hanchres]
    intro h0
    rw [h0] at hmemF
    simp at hmemF
  obtain ⟨r0, hr0⟩ : ∃ r0,
      (seqRes m [.bos, .ncap (toksRE l), .eos] 0 []).head? = some r0 := by
    cases hL : seqRes m [.bos, .ncap (toksRE l), .eos] 0 [] with
    | nil => exact absurd hL hneF
    | cons x xs => exact ⟨x, rfl⟩
  have hr0mem : r0 ∈ seqRes m [.bos, .ncap (toksRE l), .eos] 0 [] := by
    cases hL : seqRes m [.bos, .ncap (toksRE l), .eos] 0 [] with
    | nil => exact absurd hL hneF
    | cons x xs =>
      rw [hL] at hr0
      injection hr0 with hr0
      subst hr0
      exact List.mem_cons_self _ _
  rw [hanchres, List.mem_flatMap] at hr0mem
  obtain ⟨q, hqmem, hq⟩ := hr0mem
  have hq2 : r0 = (q.1, q.2) ∧
      (q.1 = m.length ∨ (q.1 + 1 = m.length ∧ m.get? q.1 = some '\n')) := by
    by_cases hc : q.1 = m.length ∨ (q.1 + 1 = m.length ∧ m.get? q.1 = some '\n')
    · rw [if_pos hc] at hq
      rw [List.mem_singleton] at hq
      exact ⟨hq, hc⟩
    · rw [if_neg hc] at hq
      simp at hq
  have hr0q : r0 = q := by
    rw [hq2.1]
  subst hr0q
  have hfull : r0.1 = m.length := by
    rcases hq2.2 with h | h
    · exact h
    · have : '\n' ∈ m := List.get?_mem h.2
      exact absurd rfl ((hmchars '\n' this).1).elim
  have hdec := toks_merge_back l m 0 [] r0 hnd hqmem
  obtain ⟨_, _, hvals, hmerge⟩ := hdec
  have hmerge2 : mergeToks l ((tokNames l).map (fun n => (n, alGet r0.2 n))) =
      .ok m := by
    rw [hmerge, hfull]
    simp
  have hdict : groupdictOf [.bos, .ncap (toksRE l), .eos] r0.2 =
      (tokNames l).map (fun n => (n, alGet r0.2 n)) := by
    unfold groupdictOf
    have hg : grpNamesL [.bos, .ncap (toksRE l), .eos] = tokNames l := by
      show grpNamesL (toksRE l) ++ [] = tokNames l
      rw [List.append_nil, grpNames_toks]
    rw [hg, dedupKeep_nodup _ hnd]
  refine ⟨m, (tokNames l).map (fun n => (n, alGet r0.2 n)), hmb, ?_, ?_⟩
  · rw [parseB_eval anc self parents mount platform (renderToks l)
      [.bos, .ncap (toksRE l), .eos] m hconv hhome hanch]
    rw [hr0]
    simp only [Option.map_some']
    rw [hdict]
  · have hcmd : ctxMergeOK ((tokNames l).map (fun n => (n, alGet r0.2 n))) =
        true := by
      unfold ctxMergeOK
      rw [List.all_eq_true]
      intro p hp
      rw [List.mem_map] at hp
      obtain ⟨n, hn, hpeq⟩ := hp
      subst hpeq
      obtain ⟨v, hvg, hsub⟩ := hvals n hn
      simp only [hvg]
      rw [List.all_eq_true]
      intro c hc
      simp only [decide_eq_true_eq]
      exact (hmchars c (hsub c hc)).2
    rw [mergeB_toks anc self parents mount platform _ l hconv hel hhome hcmd]
    exact hmerge2

theorem merge_parse_roundtrip_witness :
    ∃ m d, mergeB [] cfgAB false none (some ("linux".toList))
        [(("a".toList), some ("x".toList)),
         (("b".toList), some ("y".toList))] = .ok m ∧
      parseB [] cfgAB false none (some ("linux".toList)) m = .ok (some d) ∧
      mergeB [] cfgAB false none (some ("linux".toList)) d = .ok m :=
  merge_parse_roundtrip [] cfgAB false none (some ("linux".toList))
    [(("a".toList), some ("x".toList)), (("b".toList), some ("y".toList))]
    [.tgrp ("a".toList), .tlit '_', .tgrp ("b".toList)]
    (by simp +decide [getConvention]) (by decide) (by decide) (by rfl)
    (by
      intro p hp
      rcases List.mem_cons.mp hp with h | h
      · subst h
        exact ⟨("x".toList), rfl, by decide, by decide⟩
      · rcases List.mem_cons.mp h with h2 | h2
        · subst h2
          exact ⟨("y".toList), rfl, by decide, by decide⟩
        · simp at h2)
    (by decide)

end Posers
